import Mathlib

/-!
# Sorted linked-list integer set: lock-based and lock-free variants

A shallow embedding of `src/linkedlist-lock/linkedlist.{c,h}` (namespace `Lock`)
and `src/linkedlist/linkedlist.{c,h}` (namespace `LockFree`), run by one thread.

Memory is a family of field maps indexed by byte address (address `0` is `NULL`).
Loops carry a fuel argument; a run ends in `Res.ok`, in `Res.fault` (undefined
behaviour of the C program: a field read through `NULL`, the read of a local
variable that was never assigned, a second `free` of the same block, an index
past the end of an array) or in `Res.timeout` (the fuel ran out).
-/

namespace LinkedList

/-- Outcome of running a piece of the C program. -/
inductive Res (α : Type) where
  | ok (a : α) : Res α
  | fault : Res α
  | timeout : Res α
  deriving DecidableEq, Repr

/-- Sequencing of runs: the first fault or timeout ends the run. -/
def Res.bind {α β : Type} (r : Res α) (f : α → Res β) : Res β :=
  match r with
  | .ok a => f a
  | .fault => .fault
  | .timeout => .timeout

/-- The value a finished run returned, if it finished. -/
def Res.value {α β : Type} (r : Res (α × β)) : Option α :=
  match r with
  | .ok (a, _) => some a
  | _ => none

/-- Whether the run ended in undefined behaviour. -/
def Res.is_fault {α : Type} : Res α → Bool
  | .fault => true
  | _ => false

/-- Value of `INT_MIN` from `<limits.h>` (32-bit `int`). -/
def INT_MIN : Int := -2147483648

/-- Value of `INT_MAX` from `<limits.h>` (32-bit `int`). -/
def INT_MAX : Int := 2147483647

/-- Store `b` at address `a` of a field map. -/
def upd {β : Type} (f : Nat → β) (a : Nat) (b : β) : Nat → β :=
  fun x => if x = a then b else f x

/-- The C library `free`, given the blocks freed so far: `free(NULL)` does
nothing, freeing a block a second time is undefined behaviour. Whether the
pointer ever came from `malloc` is not tracked: freeing one that did not, which
is undefined behaviour as well, is recorded like the freeing of a block. -/
def free (freed : List Nat) (p : Nat) : Res (List Nat) :=
  if p = 0 then .ok freed
  else if p ∈ freed then .fault
  else .ok (freed ++ [p])

/-- The calls a client can make on a list. -/
inductive Op where
  | add (v : Int) : Op
  | remove (v : Int) : Op
  | contains (v : Int) : Op
  | size : Op
  deriving DecidableEq, Repr

/-- The key of the call, if it has one, lies strictly between the sentinel
values `INT_MIN` and `INT_MAX`. -/
def Op.in_range : Op → Prop
  | .add v => INT_MIN < v ∧ v < INT_MAX
  | .remove v => INT_MIN < v ∧ v < INT_MAX
  | .contains v => INT_MIN < v ∧ v < INT_MAX
  | .size => True

instance : DecidablePred Op.in_range := fun op => by
  cases op <;> unfold Op.in_range <;> infer_instance

/-- The sorted-set reading of one call on the values `vs` held between the
sentinels: `add` returns 1 on insertion and 0 if already present, `remove`
returns 1 on removal and 0 if absent, `contains` reports membership, `size`
counts. Yields the result and the values afterwards. -/
def abs_step (vs : List Int) : Op → Int × List Int
  | .add v => if v ∈ vs then (0, vs) else (1, List.orderedInsert (fun x y => x ≤ y) v vs)
  | .remove v => if v ∈ vs then (1, vs.erase v) else (0, vs)
  | .contains v => (if v ∈ vs then 1 else 0, vs)
  | .size => ((vs.length : Int), vs)

/-- The sorted-set reading of a sequence of calls: the results in call order
and the values at the end. -/
def abs_run : List Int → List Op → List Int × List Int
  | vs, [] => ([], vs)
  | vs, op :: ops =>
    let r := abs_step vs op
    let rest := abs_run r.2 ops
    (r.1 :: rest.1, rest.2)

namespace Lock

/-- Memory of the lock-based program: the four fields of `node_t`, one map per
field, and the allocation frontier of `malloc`. -/
structure State where
  val : Nat → Int
  next : Nat → Nat
  lock_head : Nat → Nat
  lock_tail : Nat → Nat
  brk : Nat

/-- The list header `llist_t` (`addr` is the address of the header itself). -/
structure llist_t where
  addr : Nat
  head : Nat
  tail : Nat

/-- `sizeof(node_t)`: an 8-byte value, an 8-byte pointer, two 4-byte counters. -/
def sizeof_node_t : Nat := 24

/-- `sizeof(llist_t)`: two 8-byte pointers. -/
def sizeof_llist_t : Nat := 16

/-- The C library `malloc`, as a bump allocator: the block starts at the
frontier rounded up to 16 bytes and its contents are whatever memory held. -/
def malloc (s : State) (size : Nat) : Nat × State :=
  let p := (s.brk + 15) / 16 * 16
  (p, { s with brk := p + size })

/-- Absolute value of a subtraction, `absval` of linkedlist.h. -/
def absval (l r : Nat) : Nat := if l > r then l - r else r - l

/-- Modelled from the spec: the macro `IAF_U32` of `atomic_ops_if.h` (not under
src/) increments a 32-bit counter atomically; the ticket is "the value returned
by incrementing tail", and the initial state head = 1, tail = 0 means "no lock
held, next ticket is 1", so the incremented value is returned (the comment at
its use in `lock_lock` reads "inc n fetch my ticket"). Yields the returned
ticket and the stored counter. -/
def IAF_U32 (c : Nat) : Nat × Nat := ((c + 1) % 2 ^ 32, (c + 1) % 2 ^ 32)

/-- The spin loop of `lock_lock`: with one thread nothing changes between two
rounds (`nop_rep` only waits). -/
def lock_spin (s : State) (p my_ticket : Nat) : Nat → Res State
  | 0 => .timeout
  | fuel + 1 =>
    let dist := absval my_ticket (s.lock_head p)
    if dist = 0 then .ok s else lock_spin s p my_ticket fuel

/-- Locks the node at `p` using its ticket lock, `lock_lock` of linkedlist.h. -/
def lock_lock (fuel : Nat) (s : State) (p : Nat) : Res State :=
  if p = 0 then .fault
  else
    let t := IAF_U32 (s.lock_tail p)
    lock_spin { s with lock_tail := upd s.lock_tail p t.2 } p t.1 fuel

/-- Unlocks the node at `p` by incrementing the head counter (`uint32_t`). -/
def lock_unlock (s : State) (p : Nat) : Res State :=
  if p = 0 then .fault
  else .ok { s with lock_head := upd s.lock_head p ((s.lock_head p + 1) % 2 ^ 32) }

/-- The loop `while (left->val < val) left = left->next;` of `list_contains`. -/
def contains_loop (s : State) (val : Int) : Nat → Nat → Res Nat
  | 0, _ => .timeout
  | fuel + 1, left =>
    if left = 0 then .fault
    else if s.val left < val then contains_loop s val fuel (s.next left)
    else .ok left

/-- Returns 1 if found, 0 otherwise: `list_contains`. -/
def list_contains (fuel : Nat) (s : State) (l : llist_t) (val : Int) : Res (Int × State) :=
  if l.head = 0 then .fault
  else
    (contains_loop s val fuel (s.next l.head)).bind fun left =>
      if s.val left = val then .ok (1, s) else .ok (0, s)

/-- Returns a newly initialized list: `list_new`. -/
def list_new (s : State) : llist_t × State :=
  let (l, s) := malloc s sizeof_llist_t
  let (tail, s) := malloc s sizeof_node_t
  let s := { s with val := upd s.val tail INT_MAX }
  let s := { s with next := upd s.next tail 0 }
  let s := { s with lock_head := upd s.lock_head tail 1 }
  let s := { s with lock_tail := upd s.lock_tail tail 0 }
  let (head, s) := malloc s sizeof_node_t
  let s := { s with val := upd s.val head INT_MIN }
  let s := { s with next := upd s.next head tail }
  let s := { s with lock_head := upd s.lock_head head 1 }
  let s := { s with lock_tail := upd s.lock_tail head 0 }
  ({ addr := l, head := head, tail := tail }, s)

/-- The `do { free(del); del = i; } while (i);` loop of `list_delete`; `freed`
is the list of blocks given back so far. -/
def delete_loop (i : Nat) : Nat → Nat → List Nat → Res (List Nat)
  | 0, _, _ => .timeout
  | fuel + 1, del, freed =>
    (free freed del).bind fun freed =>
      let del := i
      if i ≠ 0 then delete_loop i fuel del freed else .ok freed

/-- Deletes the entire list: `list_delete`. Returns the blocks freed, in order. -/
def list_delete (fuel : Nat) (l : llist_t) : Res (List Nat) :=
  let i := l.head
  let del := i
  (delete_loop i fuel del []).bind fun freed => free freed l.addr

/-- The loop of `list_size`: count the nodes from `i` up to the tail. -/
def size_loop (s : State) (l : llist_t) : Nat → Nat → Int → Res Int
  | 0, _, _ => .timeout
  | fuel + 1, i, size =>
    if i ≠ l.tail then
      if i = 0 then .fault else size_loop s l fuel (s.next i) (size + 1)
    else .ok size

/-- Traverses the list and increments the size counter: `list_size`. -/
def list_size (fuel : Nat) (s : State) (l : llist_t) : Res (Int × State) :=
  if l.head = 0 then .fault
  else (size_loop s l fuel (s.next l.head) 0).bind fun n => .ok (n, s)

/-- The traversal loop of `list_add`: `left` is locked; lock the next node,
unlock `left`, move on, while the next node's value is below `val`. -/
def add_loop (val : Int) : Nat → State → Nat → Res (State × Nat)
  | 0, _, _ => .timeout
  | fuel + 1, s, left =>
    if left = 0 then .fault
    else if s.next left = 0 then .fault
    else if s.val (s.next left) < val then
      (lock_lock (fuel + 1) s (s.next left)).bind fun s =>
        (lock_unlock s left).bind fun s =>
          add_loop val fuel s (s.next left)
    else .ok (s, left)

/-- Inserts a new node with value `val` and returns 1, or returns 0 if a node
with that value already exists: `list_add`. -/
def list_add (fuel : Nat) (s : State) (l : llist_t) (val : Int) : Res (Int × State) :=
  (lock_lock fuel s l.head).bind fun s =>
    (add_loop val fuel s l.head).bind fun (s, left) =>
      if s.val (s.next left) = val then
        (lock_unlock s left).bind fun s => .ok (0, s)
      else
        let (n, s) := malloc s sizeof_node_t
        let s := { s with val := upd s.val n val }
        let s := { s with next := upd s.next n (s.next left) }
        let s := { s with lock_head := upd s.lock_head n 1 }
        let s := { s with lock_tail := upd s.lock_tail n 0 }
        let s := { s with next := upd s.next left n }
        (lock_unlock s left).bind fun s => .ok (1, s)

/-- The traversal loop of `list_remove`: `left` and `right` are locked. -/
def remove_loop (val : Int) : Nat → State → Nat → Nat → Res (State × Nat × Nat)
  | 0, _, _, _ => .timeout
  | fuel + 1, s, left, right =>
    if right = 0 then .fault
    else if s.val right < val then
      (lock_unlock s left).bind fun s =>
        let left := right
        let right := s.next right
        (lock_lock (fuel + 1) s right).bind fun s =>
          remove_loop val fuel s left right
    else .ok (s, left, right)

/-- Removes the node with value `val` and returns 1, or returns 0 if no node
carries that value: `list_remove`. -/
def list_remove (fuel : Nat) (s : State) (l : llist_t) (val : Int) : Res (Int × State) :=
  let left := l.head
  (lock_lock fuel s left).bind fun s =>
    let right := s.next left
    (lock_lock fuel s right).bind fun s =>
      (remove_loop val fuel s left right).bind fun (s, left, right) =>
        if s.val right ≠ val then
          (lock_unlock s right).bind fun s =>
            (lock_unlock s left).bind fun s => .ok (0, s)
        else
          let s := { s with next := upd s.next left (s.next right) }
          (lock_unlock s right).bind fun s =>
            (lock_unlock s left).bind fun s => .ok (1, s)

/-- One client call. -/
def step (fuel : Nat) (s : State) (l : llist_t) : Op → Res (Int × State)
  | .add v => list_add fuel s l v
  | .remove v => list_remove fuel s l v
  | .contains v => list_contains fuel s l v
  | .size => list_size fuel s l

/-- A sequence of client calls, one after the other; yields the results in
call order and the final memory. -/
def run (fuel : Nat) (l : llist_t) : State → List Op → Res (List Int × State)
  | s, [] => .ok ([], s)
  | s, op :: ops =>
    (step fuel s l op).bind fun (r, s) =>
      (run fuel l s ops).bind fun (rs, s) => .ok (r :: rs, s)

/-- The values met on the way from node `i` along `next` until `NULL`. -/
def chain_from (s : State) : Nat → Nat → Res (List Int)
  | 0, _ => .timeout
  | fuel + 1, i =>
    if i = 0 then .ok []
    else (chain_from s fuel (s.next i)).bind fun vs => .ok (s.val i :: vs)

/-- A block of memory with nothing in it and the frontier at 16. -/
def init : State :=
  { val := fun _ => 0, next := fun _ => 0, lock_head := fun _ => 0,
    lock_tail := fun _ => 0, brk := 16 }

/-- The empty list `list_new` builds in the memory `init`. -/
def empty_list : llist_t := (list_new init).1

/-- The memory after `list_new` ran in the memory `init`. -/
def empty_state : State := (list_new init).2

end Lock

/-! ## Lock-free variant (`src/linkedlist`) -/

namespace LockFree

/-- Nodes per block of the memory pool, `MEM_BLOCK_SIZE`. -/
def MEM_BLOCK_SIZE : Nat := 1000000

/-- Number of blocks the pool is meant to hold, `MEM_BLOCK_CNT`. -/
def MEM_BLOCK_CNT : Nat := 500

/-- `sizeof(node_t)`: an 8-byte value and an 8-byte pointer. -/
def sizeof_node_t : Nat := 16

/-- `sizeof(llist_t)`: two 8-byte pointers. -/
def sizeof_llist_t : Nat := 16

/-- `sizeof(node_t*)`, the size of one entry of the block table `mem`. -/
def sizeof_ptr : Nat := 8

/-- Number of entries that fit the block table as `list_new` allocates it:
`malloc(MEM_BLOCK_CNT*sizeof(node_t))` bytes holding `node_t*` entries. -/
def mem_entries : Nat := MEM_BLOCK_CNT * sizeof_node_t / sizeof_ptr

/-- Memory of the lock-free program: the two fields of `node_t` (the `next`
word carries the mark in its low-order bit), the entries of the block table
`mem`, the address of that table, the counter `memptr`, and the allocation
frontier of `malloc`. -/
structure State where
  val : Nat → Int
  next : Nat → Nat
  mem : Nat → Nat
  mem_addr : Nat
  memptr : Nat
  brk : Nat

/-- The list header `llist_t` (`addr` is the address of the header itself). -/
structure llist_t where
  addr : Nat
  head : Nat
  tail : Nat

/-- The C library `malloc`, as a bump allocator: the block starts at the
frontier rounded up to 16 bytes and its contents are whatever memory held. -/
def malloc (s : State) (size : Nat) : Nat × State :=
  let p := (s.brk + 15) / 16 * 16
  (p, { s with brk := p + size })

/-- Whether the word is marked: `(int) (i & 0x1L)`. -/
def is_marked_ref (i : Nat) : Nat := i &&& 1

/-- Clears the mark: `i &= ~0x1L` on a 64-bit word. -/
def unset_mark (i : Nat) : Nat := i &&& (2 ^ 64 - 2)

/-- Sets the mark: `i |= 0x1L`. -/
def set_mark (i : Nat) : Nat := i ||| 1

/-- The word without its mark: `w & ~0x1L` on a 64-bit word. -/
def get_unmarked_ref (w : Nat) : Nat := w &&& (2 ^ 64 - 2)

/-- The word with its mark: `w | 0x1L`. -/
def get_marked_ref (w : Nat) : Nat := w ||| 1

/-- Modelled from the spec: the macro `CAS_PTR` of `atomic_ops_if.h` (not under
src/), compare-and-swap on a pointer-width word, returning the prior value.
Yields the prior value and the new content of the cell. -/
def CAS_PTR (cell old new : Nat) : Nat × Nat :=
  (cell, if cell = old then new else cell)

/-- Modelled from the spec: the macro `FAI_U32` of `atomic_ops_if.h` (not under
src/), fetch-and-increment on a 32-bit counter, returning the previous value.
Yields the previous value and the new content of the counter. -/
def FAI_U32 (c : Nat) : Nat × Nat := (c, (c + 1) % 2 ^ 32)

/-- Step 1 of `list_search`: the inner `do ... while ((i = get_unmarked_ref(i->next)))`
loop. `left` and `right` are `none` while the C variables are unassigned. -/
def search_traverse (s : State) (val : Int) :
    Nat → Nat → Option Nat → Option Nat → Res (Option Nat × Option Nat)
  | 0, _, _, _ => .timeout
  | fuel + 1, i, left, right =>
    if i = 0 then .fault
    else if is_marked_ref (s.next i) ≠ 0 then
      if get_unmarked_ref (s.next i) ≠ 0 then
        search_traverse s val fuel (get_unmarked_ref (s.next i)) left right
      else .ok (left, right)
    else if s.val i ≥ val then .ok (left, some i)
    else if get_unmarked_ref (s.next i) ≠ 0 then
      search_traverse s val fuel (get_unmarked_ref (s.next i)) (some i) right
    else .ok (some i, right)

/-- Step 2.1 of `list_search`: walk from `i` to `right`; `false` stands for
`goto repeat_search` (an unmarked node was met), `true` for reaching `right`. -/
def search_check (s : State) (right : Nat) : Nat → Nat → Res Bool
  | 0, _ => .timeout
  | fuel + 1, i =>
    if i = 0 then .fault
    else if is_marked_ref (s.next i) = 0 then .ok false
    else if get_unmarked_ref (s.next i) ≠ right then
      search_check s right fuel (get_unmarked_ref (s.next i))
    else .ok true

/-- Looks for value `val`: `list_search`. Yields the right node, the left
node written through `left`, and the memory. The argument `left` is the
caller's variable on entry, `right` the local one (unassigned at first). -/
def list_search (l : llist_t) (val : Int) :
    Nat → State → Option Nat → Option Nat → Res (Nat × Nat × State)
  | 0, _, _, _ => .timeout
  | fuel + 1, s, left, right =>
    (search_traverse s val (fuel + 1) l.head left right).bind fun (left, right) =>
      match left, right with
      | some lf, some rt =>
        if lf = 0 then .fault
        else if s.next lf ≠ rt then
          (search_check s rt (fuel + 1) (get_unmarked_ref (s.next lf))).bind fun marked =>
            if marked then
              let old := get_unmarked_ref (s.next lf)
              let c := CAS_PTR (s.next lf) old rt
              let s := { s with next := upd s.next lf c.2 }
              if old = c.1 then .ok (rt, lf, s)
              else list_search l val fuel s left right
            else list_search l val fuel s left right
        else .ok (rt, lf, s)
      | _, _ => .fault

/-- Returns 1 if found, 0 otherwise: `list_contains`. -/
def list_contains (fuel : Nat) (s : State) (l : llist_t) (val : Int) : Res (Int × State) :=
  (list_search l val fuel s none none).bind fun (right, _, s) =>
    .ok (if s.val right = val then 1 else 0, s)

/-- Returns a new list and initializes the memory pool: `list_new`. The table
`mem` is not cleared: its entries are whatever `malloc` handed back. -/
def list_new (s : State) : llist_t × State :=
  let (l, s) := malloc s sizeof_llist_t
  let (tail, s) := malloc s sizeof_node_t
  let s := { s with val := upd s.val tail INT_MAX }
  let s := { s with next := upd s.next tail 0 }
  let (head, s) := malloc s sizeof_node_t
  let s := { s with val := upd s.val head INT_MIN }
  let s := { s with next := upd s.next head tail }
  let s := { s with memptr := 0 }
  let (m, s) := malloc s (MEM_BLOCK_CNT * sizeof_node_t)
  let s := { s with mem_addr := m }
  let (b, s) := malloc s (MEM_BLOCK_SIZE * sizeof_node_t)
  let s := { s with mem := upd s.mem 0 b }
  ({ addr := l, head := head, tail := tail }, s)

/-- The loop `while(mem[i] != NULL)` of `list_delete`; `freed` is the list of
blocks given back so far. Reading the table past its last entry is a fault. -/
def delete_loop (s : State) : Nat → Nat → List Nat → Res (List Nat)
  | 0, _, _ => .timeout
  | fuel + 1, i, freed =>
    if mem_entries ≤ i then .fault
    else if s.mem i ≠ 0 then
      (free freed (s.mem i)).bind fun freed => delete_loop s fuel (i + 1) freed
    else .ok freed

/-- Deletes the entire memory pool and the entire list: `list_delete`.
Returns the blocks freed, in order. -/
def list_delete (fuel : Nat) (s : State) (l : llist_t) : Res (List Nat) :=
  (delete_loop s fuel 0 []).bind fun freed =>
    (free freed s.mem_addr).bind fun freed =>
      (free freed l.head).bind fun freed =>
        (free freed l.tail).bind fun freed =>
          free freed l.addr

/-- The loop of `list_size`: count the nodes from `i` up to the tail. -/
def size_loop (s : State) (l : llist_t) : Nat → Nat → Int → Res Int
  | 0, _, _ => .timeout
  | fuel + 1, i, size =>
    if i ≠ l.tail then
      if i = 0 then .fault else size_loop s l fuel (get_unmarked_ref (s.next i)) (size + 1)
    else .ok size

/-- Traverses the list and increments the size counter: `list_size`. -/
def list_size (fuel : Nat) (s : State) (l : llist_t) : Res (Int × State) :=
  if l.head = 0 then .fault
  else (size_loop s l fuel (s.next l.head) 0).bind fun n => .ok (n, s)

/-- The `if (n == NULL) { ... }` block of `list_add`: take the next cell of the
pool, creating its block first when the table holds `NULL` for it. Reading the
table past its last entry is a fault. -/
def add_alloc (s : State) (val : Int) : Res (Nat × State) :=
  let f := FAI_U32 s.memptr
  let my_memptr := f.1
  let s := { s with memptr := f.2 }
  let my_memblock := my_memptr / MEM_BLOCK_SIZE
  if mem_entries ≤ my_memblock then .fault
  else
    let s :=
      if s.mem my_memblock = 0 then
        let (tmpmem, s) := malloc s (MEM_BLOCK_SIZE * sizeof_node_t)
        let c := CAS_PTR (s.mem my_memblock) 0 tmpmem
        { s with mem := upd s.mem my_memblock c.2 }
      else s
    let n := s.mem my_memblock + sizeof_node_t * (my_memptr % MEM_BLOCK_SIZE)
    if n = 0 then .fault
    else .ok (n, { s with val := upd s.val n val })

/-- The retry loop of `list_add`; `n` is the node bound to the call (`0` while
`NULL`), `left` the variable `list_search` writes through. -/
def add_loop (l : llist_t) (val : Int) : Nat → State → Nat → Option Nat → Res (Int × State)
  | 0, _, _, _ => .timeout
  | fuel + 1, s, n, left =>
    (list_search l val (fuel + 1) s left none).bind fun (right, left, s) =>
      if s.val right = val then .ok (0, s)
      else
        (if n = 0 then add_alloc s val else .ok (n, s)).bind fun (n, s) =>
          let s := { s with next := upd s.next n right }
          let c := CAS_PTR (s.next left) right n
          let s := { s with next := upd s.next left c.2 }
          if right = c.1 then .ok (1, s)
          else add_loop l val fuel s n (some left)

/-- Inserts a new node with value `val` and returns 1, or returns 0 if a node
with that value already exists: `list_add`. -/
def list_add (fuel : Nat) (s : State) (l : llist_t) (val : Int) : Res (Int × State) :=
  add_loop l val fuel s 0 none

/-- The retry loop of `list_remove`. -/
def remove_loop (l : llist_t) (val : Int) : Nat → State → Option Nat → Res (Int × State)
  | 0, _, _ => .timeout
  | fuel + 1, s, left =>
    (list_search l val (fuel + 1) s left none).bind fun (right, left, s) =>
      if s.val right ≠ val then .ok (0, s)
      else
        let c := CAS_PTR (s.next right) (get_unmarked_ref (s.next right))
          (get_marked_ref (s.next right))
        let old := get_unmarked_ref (s.next right)
        let s := { s with next := upd s.next right c.2 }
        if old = c.1 then
          let c := CAS_PTR (s.next left) right (get_unmarked_ref (s.next right))
          .ok (1, { s with next := upd s.next left c.2 })
        else remove_loop l val fuel s (some left)

/-- Removes the node with value `val` and returns 1, or returns 0 if no node
carries that value: `list_remove`. The node is removed by marking its `next`. -/
def list_remove (fuel : Nat) (s : State) (l : llist_t) (val : Int) : Res (Int × State) :=
  remove_loop l val fuel s none

/-- One client call. -/
def step (fuel : Nat) (s : State) (l : llist_t) : Op → Res (Int × State)
  | .add v => list_add fuel s l v
  | .remove v => list_remove fuel s l v
  | .contains v => list_contains fuel s l v
  | .size => list_size fuel s l

/-- A sequence of client calls, one after the other; yields the results in
call order and the final memory. -/
def run (fuel : Nat) (l : llist_t) : State → List Op → Res (List Int × State)
  | s, [] => .ok ([], s)
  | s, op :: ops =>
    (step fuel s l op).bind fun (r, s) =>
      (run fuel l s ops).bind fun (rs, s) => .ok (r :: rs, s)

/-- The values met on the way from node `i` along the unmarked `next` words
until `NULL`. -/
def chain_from (s : State) : Nat → Nat → Res (List Int)
  | 0, _ => .timeout
  | fuel + 1, i =>
    if i = 0 then .ok []
    else (chain_from s fuel (get_unmarked_ref (s.next i))).bind fun vs => .ok (s.val i :: vs)

/-- Memory with nothing in it, a cleared block table, and the frontier at 16. -/
def init : State :=
  { val := fun _ => 0, next := fun _ => 0, mem := fun _ => 0, mem_addr := 0,
    memptr := 0, brk := 16 }

/-- The empty list `list_new` builds in the memory `init`. -/
def empty_list : llist_t := (list_new init).1

/-- The memory after `list_new` ran in the memory `init`. -/
def empty_state : State := (list_new init).2

end LockFree

end LinkedList


namespace LinkedList

namespace Lock

/-- The nodes of a list in link order: head, the inner nodes `ps`, tail. -/
def nodes (l : llist_t) (ps : List Nat) : List Nat := l.head :: (ps ++ [l.tail])

/-- The ticket lock of the node at `a` is free: the head counter is one ahead
of the tail counter (modulo 2^32), as right after initialisation (1 and 0). -/
def lock_free_at (s : State) (a : Nat) : Prop :=
  s.lock_head a = (s.lock_tail a + 1) % 2 ^ 32

/-- The ticket lock of the node at `a` is held: the last ticket handed out is
the one being served. -/
def lock_held_at (s : State) (a : Nat) : Prop :=
  s.lock_head a = s.lock_tail a

/-- Well-formed list with inner nodes `ps`: the nodes are linked in order and
end at the tail, whose `next` is `NULL`; head carries `INT_MIN`, tail `INT_MAX`
and the values are strictly increasing; every node is allocated; no lock is
held (no call is in progress). -/
structure WF (s : State) (l : llist_t) (ps : List Nat) : Prop where
  linked : List.Chain' (fun a b => s.next a = b) (nodes l ps)
  tail_next : s.next l.tail = 0
  nonnull : ∀ a ∈ nodes l ps, a ≠ 0
  allocated : ∀ a ∈ nodes l ps, a < s.brk
  head_val : s.val l.head = INT_MIN
  tail_val : s.val l.tail = INT_MAX
  sorted : List.Sorted (fun x y => x < y) ((nodes l ps).map s.val)
  locks : ∀ a ∈ nodes l ps, lock_free_at s a

/-- The list `l` in memory `s` is well-formed and the values between its
sentinels are `vs`, in link order (the memory determines `vs`: walking the list
from head reads `INT_MIN`, then `vs`, then `INT_MAX`). -/
def Repr (s : State) (l : llist_t) (vs : List Int) : Prop :=
  ∃ ps, WF s l ps ∧ ps.map s.val = vs

/-- The chain from head is sorted: the nodes on the way from head are head,
some inner nodes and tail (whose `next` is `NULL`), every node `n` other than
tail has `n.value < n.next.value`, and no value occurs twice. -/
def SortedChain (s : State) (l : llist_t) : Prop :=
  ∃ ps, List.Chain' (fun a b => s.next a = b) (nodes l ps) ∧ s.next l.tail = 0 ∧
    (∀ a ∈ nodes l ps, a ≠ l.tail → s.val a < s.val (s.next a)) ∧
    ((nodes l ps).map s.val).Nodup

end Lock

namespace LockFree

/-- The nodes of a list in link order: head, the inner nodes `ps`, tail. -/
def nodes (l : llist_t) (ps : List Nat) : List Nat := l.head :: (ps ++ [l.tail])

/-- Size in bytes of one block of the pool. -/
def block_bytes : Nat := MEM_BLOCK_SIZE * sizeof_node_t

/-- Address of cell `idx` of the pool, `&mem[idx / MEM_BLOCK_SIZE][idx % MEM_BLOCK_SIZE]`. -/
def slot (s : State) (idx : Nat) : Nat :=
  s.mem (idx / MEM_BLOCK_SIZE) + sizeof_node_t * (idx % MEM_BLOCK_SIZE)

/-- The memory pool is in order up to entry `K` of the block table: the blocks
of the cells handed out exist; each of the first `K` entries is `NULL` or an
allocated block, aligned, clear of the sentinels and of the other blocks; the
counter has not passed the cells of these `K` blocks; and the address space
(64-bit words) has room for the blocks still to come. Entries from `K` on may
hold anything (`list_new` does not clear the table). -/
structure PoolOK (s : State) (l : llist_t) (K : Nat) : Prop where
  entries : K ≤ mem_entries
  used : ∀ idx, idx < s.memptr → s.mem (idx / MEM_BLOCK_SIZE) ≠ 0
  blocks : ∀ b, b < K → s.mem b ≠ 0 →
    s.mem b % 2 = 0 ∧ s.mem b + block_bytes ≤ s.brk ∧
    (l.head < s.mem b ∨ s.mem b + block_bytes ≤ l.head) ∧
    (l.tail < s.mem b ∨ s.mem b + block_bytes ≤ l.tail)
  disjoint : ∀ b b', b < K → b' < K → b ≠ b' →
    s.mem b ≠ 0 → s.mem b' ≠ 0 →
    s.mem b + block_bytes ≤ s.mem b' ∨ s.mem b' + block_bytes ≤ s.mem b
  memptr_le : s.memptr ≤ K * MEM_BLOCK_SIZE
  reserve : s.brk + (block_bytes + 16) * (K * MEM_BLOCK_SIZE - s.memptr) ≤ 2 ^ 64

/-- Well-formed list with inner nodes `ps`: the nodes are linked in order by
unmarked `next` words and end at the tail, whose `next` is `NULL`; head carries
`INT_MIN`, tail `INT_MAX` and the values are strictly increasing; every node is
allocated and aligned, the inner ones being cells handed out by the pool; the
pool is in order up to entry `K` of the block table. -/
structure WF (s : State) (l : llist_t) (K : Nat) (ps : List Nat) : Prop where
  linked : List.Chain' (fun a b => s.next a = b) (nodes l ps)
  tail_next : s.next l.tail = 0
  nonnull : ∀ a ∈ nodes l ps, a ≠ 0
  aligned : ∀ a ∈ nodes l ps, a % 2 = 0
  allocated : ∀ a ∈ nodes l ps, a < s.brk
  head_val : s.val l.head = INT_MIN
  tail_val : s.val l.tail = INT_MAX
  sorted : List.Sorted (fun x y => x < y) ((nodes l ps).map s.val)
  cells : ∀ p ∈ ps, ∃ idx, idx < s.memptr ∧ p = slot s idx
  pool : PoolOK s l K

/-- The list `l` in memory `s` is well-formed, with the pool in order up to
entry `K` of the block table, and the values between its sentinels are `vs`,
in link order (the memory determines `vs`: walking the list from head reads
`INT_MIN`, then `vs`, then `INT_MAX`). -/
def Repr (s : State) (l : llist_t) (K : Nat) (vs : List Int) : Prop :=
  ∃ ps, WF s l K ps ∧ ps.map s.val = vs

/-- The chain from head is sorted (unmarked view): the nodes on the way from
head along the unmarked `next` words are head, some inner nodes and tail (whose
`next` is `NULL`), every node `n` other than tail has `n.value < n.next.value`,
and no value occurs twice. -/
def SortedChain (s : State) (l : llist_t) : Prop :=
  ∃ ps, List.Chain' (fun a b => get_unmarked_ref (s.next a) = b) (nodes l ps) ∧
    s.next l.tail = 0 ∧
    (∀ a ∈ nodes l ps, a ≠ l.tail → s.val a < s.val (get_unmarked_ref (s.next a))) ∧
    ((nodes l ps).map s.val).Nodup

end LockFree

end LinkedList


/-! ## Lists with marked nodes, the pool, and the memories used as examples -/

namespace LinkedList

namespace LockFree

/-- The node at `a` is logically deleted: its `next` word carries the mark. -/
def marked (s : State) (a : Nat) : Prop := is_marked_ref (s.next a) ≠ 0

instance (s : State) (a : Nat) : Decidable (marked s a) := by
  unfold marked; infer_instance

/-- Sorted list in which inner nodes may be marked but still linked: following
the unmarked `next` words from head visits head, the inner nodes `ps` and tail,
whose `next` is `NULL`; head is not marked; head carries `INT_MIN`, tail
`INT_MAX` and the values of all linked nodes are strictly increasing; the nodes
are aligned and addresses and `next` words fit 64 bits. -/
structure MWF (s : State) (l : llist_t) (ps : List Nat) : Prop where
  linked : List.Chain' (fun a b => get_unmarked_ref (s.next a) = b) (nodes l ps)
  tail_next : s.next l.tail = 0
  head_live : ¬ marked s l.head
  nonnull : ∀ a ∈ nodes l ps, a ≠ 0
  aligned : ∀ a ∈ nodes l ps, a % 2 = 0
  words : ∀ a ∈ nodes l ps, a < 2 ^ 64 ∧ s.next a < 2 ^ 64
  head_val : s.val l.head = INT_MIN
  tail_val : s.val l.tail = INT_MAX
  sorted : List.Sorted (fun x y => x < y) ((nodes l ps).map s.val)

/-- The pool side of a list with inner nodes `ps`: sentinels and inner nodes
are allocated, the inner nodes are cells handed out by the pool, and the pool is
in order up to entry `K` of the block table. -/
structure MPool (s : State) (l : llist_t) (K : Nat) (ps : List Nat) : Prop where
  allocated : ∀ a ∈ nodes l ps, a < s.brk
  cells : ∀ p ∈ ps, ∃ idx, idx < s.memptr ∧ p = slot s idx
  pool : PoolOK s l K

/-- The memory after `list_add(l, 5)` on the empty list, once the first CAS of a
`list_remove(l, 5)` has marked the node holding 5 and the second CAS has not
unlinked it: the node is logically deleted but still linked. -/
def marked_state : State :=
  match list_add 3 empty_state empty_list 5 with
  | .ok (_, s) =>
    let n := get_unmarked_ref (s.next empty_list.head)
    { s with next := upd s.next n (get_marked_ref (s.next n)) }
  | _ => empty_state

/-- The memory of the empty list with the cell counter at the end of block
499, `memptr = MEM_BLOCK_SIZE * MEM_BLOCK_CNT`: every cell of the 500 blocks
has been handed out. -/
def cap_state : State := { empty_state with memptr := MEM_BLOCK_SIZE * MEM_BLOCK_CNT }

/-- Memory in which the bytes that `list_new` will use for entry 1 of the block
table hold a leftover value (48) rather than zero. -/
def garbage_init : State := { init with mem := fun i => if i = 1 then 48 else 0 }

/-- Memory in which the bytes that `list_new` will use for entry 1 of the block
table hold the leftover value 8064, the address block 0 is about to get. -/
def stale_init : State := { init with mem := fun i => if i = 1 then 8064 else 0 }

/-- The memory `marked_state` (head, the marked node at 8064 holding 5, tail)
with entry 1 of the block table holding 8064 and the cell counter at the first
cell of block 1. -/
def aliased_state : State :=
  { marked_state with mem := upd marked_state.mem 1 8064, memptr := MEM_BLOCK_SIZE }

/-- The cell the next allocation of `list_add` hands out,
`&mem[memptr / MEM_BLOCK_SIZE][memptr % MEM_BLOCK_SIZE]`, the block being
created first when the table holds `NULL` for it. -/
def alloc_cell (s : State) : Nat :=
  (if s.mem (s.memptr / MEM_BLOCK_SIZE) = 0 then (malloc s (MEM_BLOCK_SIZE * sizeof_node_t)).1
    else s.mem (s.memptr / MEM_BLOCK_SIZE))
  + sizeof_node_t * (s.memptr % MEM_BLOCK_SIZE)

end LockFree

/-- The calls `list_add(l, 7)`, `list_remove(l, 7)`, `k` times over. -/
def churn : Nat → List Op
  | 0 => []
  | k + 1 => .add 7 :: .remove 7 :: churn k

/-- Number of `list_add` calls of a run that returned 1, given the calls and
their results in call order. -/
def add_successes : List Op → List Int → Nat
  | .add _ :: ops, r :: rs => (if r = 1 then 1 else 0) + add_successes ops rs
  | _ :: ops, _ :: rs => add_successes ops rs
  | _, _ => 0

end LinkedList


namespace LinkedList

@[simp] theorem Res.bind_ok {α β : Type} (a : α) (f : α → Res β) : (Res.ok a).bind f = f a := rfl
@[simp] theorem Res.bind_fault {α β : Type} (f : α → Res β) : (Res.fault : Res α).bind f = .fault := rfl
@[simp] theorem Res.bind_timeout {α β : Type} (f : α → Res β) : (Res.timeout : Res α).bind f = .timeout := rfl

@[simp] theorem upd_same {β : Type} (f : Nat → β) (a : Nat) (b : β) : upd f a b a = b := by
  simp [upd]

theorem upd_other {β : Type} (f : Nat → β) (a : Nat) (b : β) (x : Nat) (h : x ≠ a) :
    upd f a b x = f x := by
  simp [upd, h]

/-- Two neighbours in a chain are related. -/
theorem chain_mid {α : Type} {R : α → α → Prop} (A : List α) (a b : α) (B : List α)
    (h : List.Chain' R (A ++ a :: b :: B)) : R a b := by
  rw [List.chain'_split] at h
  exact (List.chain'_cons.mp h.2).1

/-- A chain of links survives any change of the link map away from its nodes
(the map at the last node plays no part). -/
theorem chain_frame (f g : Nat → Nat) : ∀ (xs : List Nat) (z : Nat),
    List.Chain' (fun a b => f a = b) (xs ++ [z]) → (∀ x ∈ xs, g x = f x) →
    List.Chain' (fun a b => g a = b) (xs ++ [z])
  | [], z, _, _ => by simp
  | [x], z, h, hg => by
    simp only [List.singleton_append, List.chain'_cons, List.chain'_singleton, and_true] at h ⊢
    rw [hg x (by simp)]; exact h
  | x :: y :: xs, z, h, hg => by
    simp only [List.cons_append, List.chain'_cons] at h ⊢
    refine ⟨by rw [hg x (by simp)]; exact h.1, ?_⟩
    have := chain_frame f g (y :: xs) z (by simpa using h.2) (fun a ha => hg a (by simp at ha ⊢; tauto))
    simpa using this

/-- A chain of links survives any change of the link map away from its nodes. -/
theorem chain_frame_all (f g : Nat → Nat) (xs : List Nat)
    (h : List.Chain' (fun a b => f a = b) xs) (hg : ∀ x ∈ xs, g x = f x) :
    List.Chain' (fun a b => g a = b) xs := by
  rcases List.eq_nil_or_concat xs with rfl | ⟨ys, z, rfl⟩
  · simp
  · simp only [List.concat_eq_append] at h hg ⊢
    exact chain_frame f g ys z h (fun x hx => hg x (by simp [hx]))

/-- Strictly increasing values make the nodes pairwise distinct. -/
theorem nodup_of_sorted (val : Nat → Int) (ns : List Nat)
    (h : List.Sorted (fun x y => x < y) (ns.map val)) : ns.Nodup := by
  unfold List.Sorted at h
  rw [List.pairwise_map] at h
  exact h.imp (fun {a b} hab e => by subst e; exact lt_irrefl _ hab)

/-- Inserting into a sorted list at the place where the order changes side. -/
theorem orderedInsert_split (v : Int) : ∀ (as bs : List Int),
    (∀ a ∈ as, a < v) → (∀ b ∈ bs, v < b) →
    List.orderedInsert (fun x y => x ≤ y) v (as ++ bs) = as ++ v :: bs
  | [], [], _, _ => by simp
  | [], b :: bs, _, hb => by
    have : v ≤ b := le_of_lt (hb b (by simp))
    simp [List.orderedInsert, this]
  | a :: as, bs, ha, hb => by
    have h1 : ¬ v ≤ a := not_le.mpr (ha a (by simp))
    have := orderedInsert_split v as bs (fun x hx => ha x (by simp [hx])) hb
    simp [List.orderedInsert, h1, this]

/-- Erasing the one occurrence of a value in a list without repeats before it. -/
theorem erase_split (v : Int) (as bs : List Int) (h : v ∉ as) :
    (as ++ v :: bs).erase v = as ++ bs := by
  rw [List.erase_append_right _ h]
  simp

end LinkedList

namespace LinkedList

/-- Splitting a sentinel-bracketed list in two non-empty parts. -/
theorem bracket_split {α : Type} (h t : α) (ps X Y : List α) (x y : α)
    (e : h :: (ps ++ [t]) = (X ++ [x]) ++ y :: Y) :
    ∃ P1 P2, X ++ [x] = h :: P1 ∧ y :: Y = P2 ++ [t] ∧ ps = P1 ++ P2 := by
  rcases List.eq_nil_or_concat (y :: Y) with e1 | ⟨Y', z, e1⟩
  · simp at e1
  · rw [List.concat_eq_append] at e1
    rw [e1] at e
    cases X with
    | nil =>
      simp only [List.nil_append, List.singleton_append, List.cons.injEq] at e
      obtain ⟨rfl, e⟩ := e
      have := List.append_inj' e rfl
      simp only [List.cons.injEq, and_true] at this
      obtain ⟨h1, rfl⟩ := this
      exact ⟨[], Y', by simp, e1, by simpa using h1⟩
    | cons a X' =>
      simp only [List.cons_append, List.cons.injEq] at e
      obtain ⟨rfl, e⟩ := e
      rw [← List.append_assoc] at e
      have := List.append_inj' e rfl
      simp only [List.cons.injEq, and_true] at this
      obtain ⟨h1, rfl⟩ := this
      exact ⟨X' ++ [x], Y', by simp, e1, h1⟩

/-- In a list sorted by value, what lies left of a place is below, what lies
right of it is above. -/
theorem sorted_split (val : Nat → Int) (A : List Nat) (a b : Nat) (B : List Nat)
    (h : List.Sorted (fun x y => x < y) ((A ++ a :: b :: B).map val)) :
    (∀ x ∈ A, val x < val a) ∧ val a < val b ∧ (∀ y ∈ B, val b < val y) := by
  unfold List.Sorted at h
  rw [List.pairwise_map, List.pairwise_append] at h
  obtain ⟨_, h2, h3⟩ := h
  rw [List.pairwise_cons, List.pairwise_cons] at h2
  exact ⟨fun x hx => h3 x hx a (by simp), h2.1 b (by simp), fun y hy => h2.2.1 y hy⟩

/-- A value strictly between two neighbours of a sorted list can be put
between them. -/
theorem sorted_insert (v : Int) (X Y : List Int)
    (h : List.Sorted (fun x y => x < y) (X ++ Y))
    (hX : ∀ x ∈ X, x < v) (hY : ∀ y ∈ Y, v < y) :
    List.Sorted (fun x y => x < y) (X ++ v :: Y) := by
  unfold List.Sorted at h ⊢
  rw [List.pairwise_append] at h ⊢
  obtain ⟨h1, h2, h3⟩ := h
  refine ⟨h1, List.pairwise_cons.mpr ⟨hY, h2⟩, ?_⟩
  intro x hx y hy
  rcases List.mem_cons.mp hy with e | e
  · subst e; exact hX x hx
  · exact h3 x hx y e

/-- Dropping an element keeps a list sorted. -/
theorem sorted_remove (X Y : List Int) (v : Int)
    (h : List.Sorted (fun x y => x < y) (X ++ v :: Y)) :
    List.Sorted (fun x y => x < y) (X ++ Y) := by
  unfold List.Sorted at h ⊢
  rw [List.pairwise_append] at h ⊢
  obtain ⟨h1, h2, h3⟩ := h
  exact ⟨h1, (List.pairwise_cons.mp h2).2, fun x hx y hy => h3 x hx y (by simp [hy])⟩

/-- Values of nodes are read the same after a store at an address away from them. -/
theorem map_upd_of_not_mem {β : Type} (f : Nat → β) (n : Nat) (b : β) (xs : List Nat)
    (h : n ∉ xs) : xs.map (upd f n b) = xs.map f := by
  apply List.map_congr_left
  intro x hx
  exact upd_other f n b x (fun e => h (e ▸ hx))

end LinkedList


namespace LinkedList

namespace Lock

theorem absval_eq_zero (a b : Nat) : absval a b = 0 ↔ a = b := by
  unfold absval
  split <;> omega

/-- Taking a free lock succeeds at the first check and leaves the lock held. -/
theorem lock_lock_free (fuel : Nat) (s : State) (p : Nat) (hp : p ≠ 0)
    (hfree : lock_free_at s p) :
    lock_lock (fuel + 1) s p
      = .ok { s with lock_tail := upd s.lock_tail p ((s.lock_tail p + 1) % 2 ^ 32) } := by
  unfold lock_free_at at hfree
  simp [lock_lock, hp, IAF_U32, lock_spin, absval_eq_zero, hfree]

theorem lock_unlock_eq (s : State) (p : Nat) (hp : p ≠ 0) :
    lock_unlock s p
      = .ok { s with lock_head := upd s.lock_head p ((s.lock_head p + 1) % 2 ^ 32) } := by
  simp [lock_unlock, hp]

/-- The traversal of `list_add` stops at the last node below `val`, holding its
lock, with every other lock free again and the list untouched. -/
theorem add_loop_spec (v : Int) : ∀ (R A : List Nat) (left right : Nat) (s : State) (fuel : Nat),
    List.Chain' (fun a b => s.next a = b) (A ++ left :: right :: R) →
    (∀ a ∈ A ++ left :: right :: R, a ≠ 0) →
    List.Sorted (fun x y => x < y) ((A ++ left :: right :: R).map s.val) →
    (∃ t ∈ right :: R, v ≤ s.val t) →
    (right :: R).length ≤ fuel →
    lock_held_at s left → (∀ a ∈ A ++ right :: R, lock_free_at s a) →
    ∃ s' A' left' right' B, add_loop v fuel s left = .ok (s', left') ∧
      s'.val = s.val ∧ s'.next = s.next ∧ s'.brk = s.brk ∧
      A ++ left :: right :: R = A' ++ left' :: right' :: B ∧
      ((A' = A ∧ left' = left) ∨ s.val left' < v) ∧ v ≤ s.val right' ∧
      lock_held_at s' left' ∧ ∀ a ∈ A' ++ right' :: B, lock_free_at s' a := by
  intro R
  induction R with
  | nil =>
    intro A left right s fuel hch hnn hs ht hf hheld hfree
    obtain ⟨t, htm, htv⟩ := ht
    simp at htm; subst htm
    obtain ⟨f, rfl⟩ : ∃ f, fuel = f + 1 := ⟨fuel - 1, by simp at hf; omega⟩
    have hnx : s.next left = t := chain_mid A left t [] hch
    have hl0 : left ≠ 0 := hnn left (by simp)
    have ht0 : t ≠ 0 := hnn t (by simp)
    refine ⟨s, A, left, t, [], ?_, rfl, rfl, rfl, rfl, Or.inl ⟨rfl, rfl⟩, htv, hheld, hfree⟩
    simp [add_loop, hl0, hnx, ht0, not_lt.mpr htv]
  | cons r R ih =>
    intro A left right s fuel hch hnn hs ht hf hheld hfree
    obtain ⟨f, rfl⟩ : ∃ f, fuel = f + 1 := ⟨fuel - 1, by simp at hf; omega⟩
    have hnx : s.next left = right := chain_mid A left right (r :: R) hch
    have hl0 : left ≠ 0 := hnn left (by simp)
    have hr0 : right ≠ 0 := hnn right (by simp)
    have hnd := nodup_of_sorted s.val _ hs
    by_cases hlt : s.val right < v
    · -- move on
      have hfr : lock_free_at s right := hfree right (by simp)
      have hlr : left ≠ right := by
        intro e; subst e
        rw [List.nodup_append] at hnd
        have := hnd.2.1
        simp at this
      set s1 : State := { s with lock_tail := upd s.lock_tail right ((s.lock_tail right + 1) % 2 ^ 32) } with hs1
      set s2 : State := { s1 with lock_head := upd s1.lock_head left ((s1.lock_head left + 1) % 2 ^ 32) } with hs2
      have hstep : add_loop v (f + 1) s left = add_loop v f s2 right := by
        rw [add_loop]
        simp only [hl0, hnx, hr0, hlt, if_true, if_false]
        rw [lock_lock_free f s right hr0 hfr]
        simp only [Res.bind_ok]
        rw [lock_unlock_eq _ left hl0]
        simp only [Res.bind_ok]
        rw [hnx]
      have hch2 : List.Chain' (fun a b => s2.next a = b) ((A ++ [left]) ++ right :: r :: R) := by
        simpa [List.append_assoc] using hch
      have hR : ∃ t ∈ r :: R, v ≤ s2.val t := by
        obtain ⟨t, htm, htv⟩ := ht
        rcases List.mem_cons.mp htm with e | e
        · subst e; exact absurd hlt (not_lt.mpr htv)
        · exact ⟨t, e, htv⟩
      have hheld2 : lock_held_at s2 right := by
        unfold lock_held_at lock_free_at at *
        simp [hs2, hs1, upd_other _ _ _ _ (Ne.symm hlr), hfr]
      have hfree2 : ∀ a ∈ (A ++ [left]) ++ r :: R, lock_free_at s2 a := by
        intro a ha
        have har : a ≠ right := by
          intro e; subst e
          have h1 : List.Nodup (a :: (A ++ left :: r :: R)) := by
            have : List.Perm (A ++ left :: a :: r :: R) (a :: (A ++ left :: r :: R)) := by
              have := @List.perm_middle _ a (A ++ [left]) (r :: R)
              simpa [List.append_assoc] using this
            exact this.nodup_iff.mp hnd
          have h2 := (List.nodup_cons.mp h1).1
          apply h2
          simpa [List.append_assoc] using ha
        by_cases hal : a = left
        · subst hal
          unfold lock_held_at lock_free_at at *
          simp [hs2, hs1, upd_other _ _ _ _ har, hheld]
        · have : lock_free_at s a := hfree a (by
            simp only [List.append_assoc, List.singleton_append, List.mem_append, List.mem_cons] at ha ⊢
            tauto)
          unfold lock_free_at at *
          simp [hs2, hs1, upd_other _ _ _ _ har, upd_other _ _ _ _ hal, this]
      obtain ⟨s', A', left', right', B, hrun, hval, hnext, hbrk, hsplit, hlv, hrv, hh, hfr'⟩ :=
        ih (A ++ [left]) right r s2 f hch2
          (by simpa [List.append_assoc] using hnn)
          (by simpa [List.append_assoc] using hs) hR
          (by simp at hf ⊢; omega) hheld2 hfree2
      refine ⟨s', A', left', right', B, by rw [hstep, hrun], hval, hnext, hbrk,
        by simpa [List.append_assoc] using hsplit, ?_, hrv, hh, hfr'⟩
      rcases hlv with e | e
      · rw [e.2]; exact Or.inr hlt
      · exact Or.inr e
    · refine ⟨s, A, left, right, r :: R, ?_, rfl, rfl, rfl, rfl, Or.inl ⟨rfl, rfl⟩, not_lt.mp hlt,
        hheld, hfree⟩
      simp [add_loop, hl0, hnx, hr0, hlt]


set_option maxHeartbeats 1000000 in
/-- What `list_add` does on a well-formed list. -/
theorem list_add_spec (s : State) (l : llist_t) (ps : List Nat) (v : Int) (fuel : Nat)
    (h : WF s l ps) (hv : INT_MIN < v) (hv' : v < INT_MAX) (hf : ps.length + 1 ≤ fuel) :
    ∃ r s' ps', list_add fuel s l v = .ok (r, s') ∧ WF s' l ps' ∧
      (v ∈ ps.map s.val → r = 0 ∧ ps'.map s'.val = ps.map s.val) ∧
      (v ∉ ps.map s.val → r = 1 ∧
        ps'.map s'.val = List.orderedInsert (fun x y => x ≤ y) v (ps.map s.val)) := by
  obtain ⟨f, rfl⟩ : ∃ f, fuel = f + 1 := ⟨fuel - 1, by omega⟩
  obtain ⟨right, R, hR⟩ : ∃ right R, ps ++ [l.tail] = right :: R := by
    cases ps with
    | nil => exact ⟨l.tail, [], rfl⟩
    | cons p ps => exact ⟨p, ps ++ [l.tail], rfl⟩
  have hns : nodes l ps = [] ++ l.head :: right :: R := by simp [nodes, hR]
  have hh0 : l.head ≠ 0 := h.nonnull _ (by simp [nodes])
  have hnd : (nodes l ps).Nodup := nodup_of_sorted s.val _ h.sorted
  -- lock the head
  set s0 : State := { s with lock_tail := upd s.lock_tail l.head ((s.lock_tail l.head + 1) % 2 ^ 32) } with hs0
  have hlock : lock_lock (f + 1) s l.head = .ok s0 :=
    lock_lock_free f s l.head hh0 (h.locks _ (by simp [nodes]))
  have hheld0 : lock_held_at s0 l.head := by
    have := h.locks l.head (by simp [nodes])
    unfold lock_held_at lock_free_at at *
    simp [hs0, this]
  have hfree0 : ∀ a ∈ [] ++ right :: R, lock_free_at s0 a := by
    intro a ha
    have hah : a ≠ l.head := by
      intro e; subst e
      rw [hns] at hnd
      simp only [List.nil_append, List.nodup_cons] at hnd
      exact hnd.1 (by simpa using ha)
    have := h.locks a (by rw [hns]; simp at ha ⊢; tauto)
    unfold lock_free_at at *
    simp [hs0, upd_other _ _ _ _ hah, this]
  have htl : l.tail ∈ right :: R := by rw [← hR]; simp
  obtain ⟨s1, A', left', right', B, hrun, hval, hnext, hbrk, hsplit, hlv, hrv, hheld, hfree⟩ :=
    add_loop_spec v R [] l.head right s0 (f + 1)
      (by rw [← hns]; exact h.linked) (by rw [← hns]; exact h.nonnull)
      (by rw [← hns]; exact h.sorted)
      ⟨l.tail, htl, by show v ≤ s.val l.tail; rw [h.tail_val]; exact le_of_lt hv'⟩
      (by rw [← hR]; simp at hf ⊢; omega) hheld0 hfree0
  have hval1 : s1.val = s.val := hval
  have hnext1 : s1.next = s.next := hnext
  have hbrk1 : s1.brk = s.brk := hbrk
  rw [← hns] at hsplit
  have hl0 : left' ≠ 0 := h.nonnull _ (by rw [hsplit]; simp)
  have hnx : s.next left' = right' := chain_mid A' left' right' B (hsplit ▸ h.linked)
  obtain ⟨hA, hlr, hB⟩ := sorted_split s.val A' left' right' B (hsplit ▸ h.sorted)
  have hlv' : s.val left' < v := by
    rcases hlv with ⟨_, e⟩ | e
    · rw [e, h.head_val]; exact hv
    · exact e
  obtain ⟨P1, P2, hP1, hP2, hps⟩ := bracket_split l.head l.tail ps A' B left' right'
    (by simpa [nodes] using hsplit)
  have hleft_ne : ∀ a ∈ A' ++ right' :: B, a ≠ left' := by
    intro a ha e; subst e
    rw [hsplit] at hnd
    have : List.Perm (A' ++ a :: right' :: B) (a :: (A' ++ right' :: B)) := List.perm_middle
    exact (List.nodup_cons.mp (this.nodup_iff.mp hnd)).1 ha
  have hP1v : ∀ a ∈ P1, s.val a < v := by
    intro a ha
    have : a ∈ A' ++ [left'] := by rw [hP1]; simp [ha]
    rcases List.mem_append.mp this with h1 | h1
    · exact lt_trans (hA a h1) hlv'
    · simp at h1; subst h1; exact hlv'
  have hYv : ∀ b ∈ right' :: B, v ≤ s.val b := by
    intro b hb
    rcases List.mem_cons.mp hb with e | e
    · subst e; exact hrv
    · exact le_of_lt (lt_of_le_of_lt hrv (hB b e))
  unfold list_add
  rw [hlock]
  simp only [Res.bind_ok]
  rw [hrun]
  simp only [Res.bind_ok, malloc, sizeof_node_t, hnext1, hval1, hbrk1, hnx]
  by_cases heq : s.val right' = v
  · -- already there
    simp only [heq, if_true]
    rw [lock_unlock_eq _ _ hl0]
    simp only [Res.bind_ok]
    refine ⟨0, _, ps, rfl, ?_, fun _ => ⟨rfl, by simp [hval1]⟩, ?_⟩
    · refine ⟨by simpa [hnext1] using h.linked, by simpa [hnext1] using h.tail_next, h.nonnull,
        by simpa [hbrk1] using h.allocated, by simpa [hval1] using h.head_val,
        by simpa [hval1] using h.tail_val, by simpa [hval1] using h.sorted, ?_⟩
      intro a ha
      by_cases e : a = left'
      · subst e
        unfold lock_held_at at hheld
        unfold lock_free_at
        simp [hheld]
      · have : lock_free_at s1 a := hfree a (by
          rw [hsplit] at ha
          simp only [List.mem_append, List.mem_cons] at ha ⊢
          tauto)
        unfold lock_free_at at *
        simp [upd_other _ _ _ _ e, this]
    · intro hnot
      exfalso
      apply hnot
      have hr_in : right' ∈ nodes l ps := by rw [hsplit]; simp
      simp only [nodes, List.mem_cons, List.mem_append, List.mem_singleton, List.not_mem_nil,
        or_false] at hr_in
      rcases hr_in with e | e | e
      · rw [e, h.head_val] at heq; omega
      · exact List.mem_map.mpr ⟨right', e, heq⟩
      · rw [e, h.tail_val] at heq; omega
  · -- insert
    have hrv' : v < s.val right' := lt_of_le_of_ne hrv (Ne.symm heq)
    simp only [heq, if_false]
    generalize hn : (s.brk + 15) / 16 * 16 = n
    have hn_ge : s.brk ≤ n := by rw [← hn]; omega
    have hn_fresh : ∀ a ∈ nodes l ps, a ≠ n := fun a ha e => by
      have := h.allocated a ha; omega
    have hn0 : n ≠ 0 := by
      have := h.allocated l.head (by simp [nodes]); omega
    have hnl : n ≠ left' := fun e => hn_fresh left' (by rw [hsplit]; simp) e.symm
    rw [lock_unlock_eq _ _ hl0]
    simp only [Res.bind_ok]
    have hns' : nodes l (P1 ++ n :: P2) = A' ++ left' :: n :: right' :: B := by
      have e1 : A' ++ left' :: n :: right' :: B = (A' ++ [left']) ++ n :: (right' :: B) := by simp
      rw [e1, hP1, hP2]; simp [nodes]
    have hnot : v ∉ ps.map s.val := by
      intro hm
      obtain ⟨a, ha, hav⟩ := List.mem_map.mp hm
      rw [hps] at ha
      rcases List.mem_append.mp ha with h1 | h1
      · have := hP1v a h1; omega
      · have h2 : a ∈ right' :: B := by rw [hP2]; simp [h1]
        rcases List.mem_cons.mp h2 with e | e
        · subst e; exact heq hav
        · have := hB a e; omega
    have hP2v : ∀ b ∈ P2, v < s.val b := by
      intro b hb
      have h2 : b ∈ right' :: B := by rw [hP2]; simp [hb]
      rcases List.mem_cons.mp h2 with e | e
      · subst e; exact hrv'
      · exact lt_trans hrv' (hB b e)
    have hP1n : n ∉ P1 := fun hm => hn_fresh n (by rw [hps]; simp [nodes, hm]) rfl
    have hP2n : n ∉ P2 := fun hm => hn_fresh n (by rw [hps]; simp [nodes, hm]) rfl
    have hmem' : ∀ a ∈ nodes l (P1 ++ n :: P2), a = n ∨ a ∈ nodes l ps := by
      intro a ha
      rw [hps]
      simp only [nodes, List.mem_cons, List.mem_append, List.mem_singleton, List.not_mem_nil,
        or_false] at ha ⊢
      tauto
    have htail_ne : l.tail ≠ left' := by
      have : l.tail ∈ A' ++ right' :: B := by
        have : l.tail ∈ right' :: B := by rw [hP2]; simp
        exact List.mem_append_right _ this
      exact hleft_ne _ this
    refine ⟨1, _, P1 ++ n :: P2, rfl, ?_, fun hm => absurd hm hnot, fun _ => ⟨rfl, ?_⟩⟩
    · refine ⟨?_, ?_, ?_, ?_, ?_, ?_, ?_, ?_⟩
      · -- linked
        rw [hns']
        dsimp only
        have hch := h.linked
        rw [hsplit, List.chain'_split, List.chain'_cons] at hch
        rw [List.chain'_split, List.chain'_cons, List.chain'_cons]
        refine ⟨?_, by simp, ?_, ?_⟩
        · apply chain_frame s.next _ A' left' hch.1
          intro x hx
          have hx1 : x ≠ left' := hleft_ne x (List.mem_append_left _ hx)
          have hx2 : x ≠ n := hn_fresh x (by rw [hsplit]; simp [hx])
          rw [upd_other _ _ _ _ hx1, upd_other _ _ _ _ hx2]
        · rw [upd_other _ _ _ _ hnl]; simp
        · apply chain_frame_all s.next _ _ hch.2.2
          intro x hx
          have hx1 : x ≠ left' := hleft_ne x (List.mem_append_right _ hx)
          have hx2 : x ≠ n := hn_fresh x (by rw [hsplit]; simp at hx ⊢; tauto)
          rw [upd_other _ _ _ _ hx1, upd_other _ _ _ _ hx2]
      · -- tail_next
        dsimp only
        rw [upd_other _ _ _ _ htail_ne, upd_other _ _ _ _ (hn_fresh _ (by simp [nodes]))]
        exact h.tail_next
      · -- nonnull
        intro a ha
        rcases hmem' a ha with e | e
        · rw [e]; exact hn0
        · exact h.nonnull a e
      · -- allocated
        intro a ha
        dsimp only
        rcases hmem' a ha with e | e
        · omega
        · have := h.allocated a e; omega
      · dsimp only
        rw [upd_other _ _ _ _ (hn_fresh _ (by simp [nodes]))]; exact h.head_val
      · dsimp only
        rw [upd_other _ _ _ _ (hn_fresh _ (by simp [nodes]))]; exact h.tail_val
      · -- sorted
        dsimp only
        have e1 : nodes l (P1 ++ n :: P2) = (l.head :: P1) ++ n :: (P2 ++ [l.tail]) := by
          simp [nodes]
        have e2 : nodes l ps = (l.head :: P1) ++ (P2 ++ [l.tail]) := by
          rw [hps]; simp [nodes]
        have hn1 : n ∉ l.head :: P1 := fun hm => hn_fresh n (by rw [e2]; simp at hm ⊢; tauto) rfl
        have hn2 : n ∉ P2 ++ [l.tail] := fun hm => hn_fresh n (by rw [e2]; simp at hm ⊢; tauto) rfl
        have key : (nodes l (P1 ++ n :: P2)).map (upd s.val n v)
            = (l.head :: P1).map s.val ++ v :: (P2 ++ [l.tail]).map s.val := by
          rw [e1, List.map_append, map_upd_of_not_mem _ _ _ _ hn1]
          congr 1
          rw [List.map_cons, upd_same, map_upd_of_not_mem _ _ _ _ hn2]
        rw [key]
        apply sorted_insert
        · have := h.sorted
          rw [e2, List.map_append] at this
          exact this
        · intro x hx
          obtain ⟨a, ha, rfl⟩ := List.mem_map.mp hx
          rcases List.mem_cons.mp ha with e | e
          · rw [e, h.head_val]; exact hv
          · exact hP1v a e
        · intro y hy
          obtain ⟨b, hb, rfl⟩ := List.mem_map.mp hy
          rcases List.mem_append.mp hb with e | e
          · exact hP2v b e
          · simp at e; rw [e, h.tail_val]; exact hv'
      · -- locks
        intro a ha
        unfold lock_free_at
        dsimp only
        rcases hmem' a ha with e | e
        · subst e
          rw [upd_other _ _ _ _ hnl, upd_same, upd_same]
          rfl
        · have han : a ≠ n := hn_fresh a e
          by_cases e' : a = left'
          · subst e'
            unfold lock_held_at at hheld
            rw [upd_same, upd_other _ _ _ _ han, upd_other _ _ _ _ han, hheld]
          · have : lock_free_at s1 a := hfree a (by
              rw [hsplit] at e
              simp only [List.mem_append, List.mem_cons] at e ⊢
              tauto)
            unfold lock_free_at at this
            rw [upd_other _ _ _ _ e', upd_other _ _ _ _ han, upd_other _ _ _ _ han, this]
    · dsimp only
      have key : (P1 ++ n :: P2).map (upd s.val n v) = P1.map s.val ++ v :: P2.map s.val := by
        rw [List.map_append, map_upd_of_not_mem _ _ _ _ hP1n]
        congr 1
        rw [List.map_cons, upd_same, map_upd_of_not_mem _ _ _ _ hP2n]
      rw [key, hps, List.map_append]
      symm
      apply orderedInsert_split
      · intro x hx
        obtain ⟨a, ha, rfl⟩ := List.mem_map.mp hx
        exact hP1v a ha
      · intro y hy
        obtain ⟨b, hb, rfl⟩ := List.mem_map.mp hy
        exact hP2v b hb

/-- The traversal of `list_remove` stops at the first node not below `val`,
holding its lock and that of its predecessor, with every other lock free again
and the list untouched. -/
theorem remove_loop_spec (v : Int) : ∀ (R A : List Nat) (left right : Nat) (s : State) (fuel : Nat),
    List.Chain' (fun a b => s.next a = b) (A ++ left :: right :: R) →
    (∀ a ∈ A ++ left :: right :: R, a ≠ 0) →
    List.Sorted (fun x y => x < y) ((A ++ left :: right :: R).map s.val) →
    (∃ t ∈ right :: R, v ≤ s.val t) →
    (right :: R).length ≤ fuel →
    lock_held_at s left → lock_held_at s right → (∀ a ∈ A ++ R, lock_free_at s a) →
    ∃ s' A' left' right' B, remove_loop v fuel s left right = .ok (s', left', right') ∧
      s'.val = s.val ∧ s'.next = s.next ∧ s'.brk = s.brk ∧
      A ++ left :: right :: R = A' ++ left' :: right' :: B ∧
      ((A' = A ∧ left' = left) ∨ s.val left' < v) ∧ v ≤ s.val right' ∧
      lock_held_at s' left' ∧ lock_held_at s' right' ∧ ∀ a ∈ A' ++ B, lock_free_at s' a := by
  intro R
  induction R with
  | nil =>
    intro A left right s fuel hch hnn hs ht hf hheld hheldr hfree
    obtain ⟨t, htm, htv⟩ := ht
    simp at htm; subst htm
    obtain ⟨f, rfl⟩ : ∃ f, fuel = f + 1 := ⟨fuel - 1, by simp at hf; omega⟩
    have ht0 : t ≠ 0 := hnn t (by simp)
    refine ⟨s, A, left, t, [], ?_, rfl, rfl, rfl, rfl, Or.inl ⟨rfl, rfl⟩, htv, hheld, hheldr, hfree⟩
    simp [remove_loop, ht0, not_lt.mpr htv]
  | cons r R ih =>
    intro A left right s fuel hch hnn hs ht hf hheld hheldr hfree
    obtain ⟨f, rfl⟩ : ∃ f, fuel = f + 1 := ⟨fuel - 1, by simp at hf; omega⟩
    have hl0 : left ≠ 0 := hnn left (by simp)
    have hr0 : right ≠ 0 := hnn right (by simp)
    have hrr0 : r ≠ 0 := hnn r (by simp)
    have hnd := nodup_of_sorted s.val _ hs
    have hch' : List.Chain' (fun a b => s.next a = b) ((A ++ [left]) ++ right :: r :: R) := by
      simpa [List.append_assoc] using hch
    have hnxr : s.next right = r := chain_mid (A ++ [left]) right r R hch'
    by_cases hlt : s.val right < v
    · have hfr : lock_free_at s r := hfree r (by simp)
      have hnd' : List.Nodup (r :: (A ++ left :: right :: R)) := by
        have : List.Perm (A ++ left :: right :: r :: R) (r :: (A ++ left :: right :: R)) := by
          have := @List.perm_middle _ r (A ++ [left, right]) R
          simpa [List.append_assoc] using this
        exact this.nodup_iff.mp hnd
      have hr_notin := (List.nodup_cons.mp hnd').1
      have hlr : left ≠ r := fun e => hr_notin (by rw [← e]; simp)
      have hrr : right ≠ r := fun e => hr_notin (by rw [← e]; simp)
      have hlright : left ≠ right := by
        intro e; subst e
        rw [List.nodup_append] at hnd
        have := hnd.2.1
        simp at this
      set s1 : State := { s with lock_head := upd s.lock_head left ((s.lock_head left + 1) % 2 ^ 32) } with hs1
      set s2 : State := { s1 with lock_tail := upd s1.lock_tail r ((s1.lock_tail r + 1) % 2 ^ 32) } with hs2
      have hfr1 : lock_free_at s1 r := by
        unfold lock_free_at at *
        simp only [hs1]
        rw [upd_other _ _ _ _ (Ne.symm hlr)]; exact hfr
      have hstep : remove_loop v (f + 1) s left right = remove_loop v f s2 right r := by
        rw [remove_loop]
        simp only [hr0, hlt, if_true, if_false]
        rw [lock_unlock_eq _ left hl0]
        simp only [Res.bind_ok]
        rw [show s1.next right = r from hnxr, lock_lock_free f s1 r hrr0 hfr1]
        simp only [Res.bind_ok]
      have hR : ∃ t ∈ r :: R, v ≤ s2.val t := by
        obtain ⟨t, htm, htv⟩ := ht
        rcases List.mem_cons.mp htm with e | e
        · subst e; exact absurd hlt (not_lt.mpr htv)
        · exact ⟨t, e, htv⟩
      have hheld2 : lock_held_at s2 right := by
        unfold lock_held_at at *
        simp only [hs2, hs1]
        rw [upd_other _ _ _ _ (Ne.symm hlright), upd_other _ _ _ _ hrr]; exact hheldr
      have hheld2r : lock_held_at s2 r := by
        unfold lock_held_at lock_free_at at *
        simp only [hs2, hs1]
        rw [upd_same, upd_other _ _ _ _ (Ne.symm hlr)]; exact hfr
      have hfree2 : ∀ a ∈ (A ++ [left]) ++ R, lock_free_at s2 a := by
        intro a ha
        have har : a ≠ r := fun e => hr_notin (by
          rw [e] at ha
          simp only [List.append_assoc, List.singleton_append, List.mem_append, List.mem_cons] at ha ⊢
          tauto)
        by_cases hal : a = left
        · subst hal
          unfold lock_held_at lock_free_at at *
          simp only [hs2, hs1]
          rw [upd_same, upd_other _ _ _ _ har, hheld]
        · have : lock_free_at s a := hfree a (by
            simp only [List.append_assoc, List.singleton_append, List.mem_append, List.mem_cons] at ha ⊢
            tauto)
          unfold lock_free_at at *
          simp only [hs2, hs1]
          rw [upd_other _ _ _ _ hal, upd_other _ _ _ _ har]; exact this
      obtain ⟨s', A', left', right', B, hrun, hval, hnext, hbrk, hsplit, hlv, hrv, hh, hhr, hfr'⟩ :=
        ih (A ++ [left]) right r s2 f hch'
          (by simpa [List.append_assoc] using hnn)
          (by simpa [List.append_assoc] using hs) hR
          (by simp at hf ⊢; omega) hheld2 hheld2r hfree2
      refine ⟨s', A', left', right', B, by rw [hstep, hrun], hval, hnext, hbrk,
        by simpa [List.append_assoc] using hsplit, ?_, hrv, hh, hhr, hfr'⟩
      rcases hlv with e | e
      · rw [e.2]; exact Or.inr hlt
      · exact Or.inr e
    · refine ⟨s, A, left, right, r :: R, ?_, rfl, rfl, rfl, rfl, Or.inl ⟨rfl, rfl⟩, not_lt.mp hlt,
        hheld, hheldr, hfree⟩
      simp [remove_loop, hr0, hlt]

end Lock

end LinkedList


namespace LinkedList

namespace Lock

set_option maxHeartbeats 1000000 in
/-- What `list_remove` does on a well-formed list. -/
theorem list_remove_spec (s : State) (l : llist_t) (ps : List Nat) (v : Int) (fuel : Nat)
    (h : WF s l ps) (hv' : v < INT_MAX) (hf : ps.length + 1 ≤ fuel) :
    ∃ r s' ps', list_remove fuel s l v = .ok (r, s') ∧ WF s' l ps' ∧
      (v ∈ ps.map s.val → r = 1 ∧ ps'.map s'.val = (ps.map s.val).erase v) ∧
      (v ∉ ps.map s.val → r = 0 ∧ ps'.map s'.val = ps.map s.val) := by
  obtain ⟨f, rfl⟩ : ∃ f, fuel = f + 1 := ⟨fuel - 1, by omega⟩
  obtain ⟨right, R, hR⟩ : ∃ right R, ps ++ [l.tail] = right :: R := by
    cases ps with
    | nil => exact ⟨l.tail, [], rfl⟩
    | cons p ps => exact ⟨p, ps ++ [l.tail], rfl⟩
  have hns : nodes l ps = [] ++ l.head :: right :: R := by simp [nodes, hR]
  have hh0 : l.head ≠ 0 := h.nonnull _ (by simp [nodes])
  have hr0 : right ≠ 0 := h.nonnull _ (by rw [hns]; simp)
  have hnd : (nodes l ps).Nodup := nodup_of_sorted s.val _ h.sorted
  have hnxh : s.next l.head = right := chain_mid [] l.head right R (hns ▸ h.linked)
  have hhr : right ≠ l.head := by
    intro e
    rw [hns, e] at hnd
    simp at hnd
  -- lock the head, then its successor
  set s0 : State := { s with lock_tail := upd s.lock_tail l.head ((s.lock_tail l.head + 1) % 2 ^ 32) } with hs0
  have hlock : lock_lock (f + 1) s l.head = .ok s0 :=
    lock_lock_free f s l.head hh0 (h.locks _ (by simp [nodes]))
  have hfr0 : lock_free_at s0 right := by
    have := h.locks right (by rw [hns]; simp)
    unfold lock_free_at at *
    simp only [hs0]
    rw [upd_other _ _ _ _ hhr]; exact this
  set s00 : State := { s0 with lock_tail := upd s0.lock_tail right ((s0.lock_tail right + 1) % 2 ^ 32) } with hs00
  have hlock2 : lock_lock (f + 1) s0 right = .ok s00 := lock_lock_free f s0 right hr0 hfr0
  have hheld0 : lock_held_at s00 l.head := by
    have := h.locks l.head (by simp [nodes])
    unfold lock_held_at lock_free_at at *
    simp only [hs00, hs0]
    rw [upd_other _ _ _ _ (Ne.symm hhr), upd_same]; exact this
  have hheld0r : lock_held_at s00 right := by
    unfold lock_held_at lock_free_at at *
    simp only [hs00]
    rw [upd_same]; exact hfr0
  have hfree0 : ∀ a ∈ [] ++ R, lock_free_at s00 a := by
    intro a ha
    have ha' : a ∈ R := by simpa using ha
    rw [hns] at hnd
    simp only [List.nil_append, List.nodup_cons, List.mem_cons, not_or] at hnd
    have hah : a ≠ l.head := fun e => hnd.1.2 (e ▸ ha')
    have har : a ≠ right := fun e => hnd.2.1 (e ▸ ha')
    have := h.locks a (by rw [hns]; simp [ha'])
    unfold lock_free_at at *
    simp only [hs00, hs0]
    rw [upd_other _ _ _ _ har, upd_other _ _ _ _ hah]; exact this
  have htl : l.tail ∈ right :: R := by rw [← hR]; simp
  obtain ⟨s1, A', left', right', B, hrun, hval, hnext, hbrk, hsplit, hlv, hrv, hheld, hheldr, hfree⟩ :=
    remove_loop_spec v R [] l.head right s00 (f + 1)
      (by rw [← hns]; exact h.linked) (by rw [← hns]; exact h.nonnull)
      (by rw [← hns]; exact h.sorted)
      ⟨l.tail, htl, by show v ≤ s.val l.tail; rw [h.tail_val]; exact le_of_lt hv'⟩
      (by rw [← hR]; simp at hf ⊢; omega) hheld0 hheld0r hfree0
  have hval1 : s1.val = s.val := hval
  have hnext1 : s1.next = s.next := hnext
  have hbrk1 : s1.brk = s.brk := hbrk
  rw [← hns] at hsplit
  have hl0 : left' ≠ 0 := h.nonnull _ (by rw [hsplit]; simp)
  have hr0' : right' ≠ 0 := h.nonnull _ (by rw [hsplit]; simp)
  obtain ⟨hA, hlr, hB⟩ := sorted_split s.val A' left' right' B (hsplit ▸ h.sorted)
  obtain ⟨P1, P2, hP1, hP2, hps⟩ := bracket_split l.head l.tail ps A' B left' right'
    (by simpa [nodes] using hsplit)
  have hnd2 : List.Nodup (left' :: right' :: (A' ++ B)) := by
    have p1 : List.Perm (A' ++ left' :: right' :: B) (left' :: (A' ++ right' :: B)) :=
      List.perm_middle
    have p2 : List.Perm (A' ++ right' :: B) (right' :: (A' ++ B)) := List.perm_middle
    exact ((p1.trans (p2.cons left')).nodup_iff).mp (hsplit ▸ hnd)
  simp only [List.nodup_cons, List.mem_cons, not_or] at hnd2
  obtain ⟨⟨hlr_ne, hl_notin⟩, hr_notin, -⟩ := hnd2
  have hP1v : ∀ a ∈ P1, s.val a < v := by
    intro a ha
    rcases hlv with ⟨e1, _⟩ | e
    · rw [e1] at hP1
      simp only [List.nil_append, List.cons.injEq] at hP1
      rw [← hP1.2] at ha; simp at ha
    · have : a ∈ A' ++ [left'] := by rw [hP1]; simp [ha]
      rcases List.mem_append.mp this with h1 | h1
      · exact lt_trans (hA a h1) e
      · simp at h1; subst h1; exact e
  have hP1notin : v ∉ P1.map s.val := by
    intro hm
    obtain ⟨a, ha, hav⟩ := List.mem_map.mp hm
    have := hP1v a ha; omega
  unfold list_remove
  simp only []
  rw [hlock]
  simp only [Res.bind_ok]
  rw [show s0.next l.head = right from hnxh, hlock2]
  simp only [Res.bind_ok]
  rw [hrun]
  simp only [Res.bind_ok, hnext1, hval1, hbrk1]
  by_cases heq : s.val right' = v
  · -- remove
    simp only [heq, ne_eq, not_true_eq_false, if_false]
    rw [lock_unlock_eq _ _ hr0']
    simp only [Res.bind_ok]
    rw [lock_unlock_eq _ _ hl0]
    simp only [Res.bind_ok]
    have hrt : right' ≠ l.tail := by
      intro e; rw [e, h.tail_val] at heq; omega
    obtain ⟨b, B', rfl⟩ : ∃ b B', B = b :: B' := by
      cases B with
      | nil =>
        exfalso
        have : (right' :: ([] : List Nat)).getLast? = (P2 ++ [l.tail]).getLast? := by rw [hP2]
        simp at this
        exact hrt this
      | cons b B' => exact ⟨b, B', rfl⟩
    obtain ⟨P2', rfl⟩ : ∃ P2', P2 = right' :: P2' := by
      cases P2 with
      | nil => simp at hP2
      | cons p P2' =>
        simp only [List.cons_append, List.cons.injEq] at hP2
        exact ⟨P2', by rw [hP2.1]⟩
    have hB2 : b :: B' = P2' ++ [l.tail] := by simpa using hP2
    have hnxr : s.next right' = b := by
      have e1 : A' ++ left' :: right' :: b :: B' = (A' ++ [left']) ++ right' :: b :: B' := by simp
      exact chain_mid (A' ++ [left']) right' b B' (e1 ▸ hsplit ▸ h.linked)
    rw [hnxr]
    have hns' : nodes l (P1 ++ P2') = A' ++ left' :: b :: B' := by
      have e1 : A' ++ left' :: b :: B' = (A' ++ [left']) ++ (b :: B') := by simp
      rw [e1, hP1, hB2]; simp [nodes]
    have hmem' : ∀ a ∈ nodes l (P1 ++ P2'), a ∈ nodes l ps ∧ a ≠ right' := by
      intro a ha
      rw [hns'] at ha
      refine ⟨by rw [hsplit]; simp at ha ⊢; tauto, ?_⟩
      intro e; subst e
      simp only [List.mem_append, List.mem_cons] at ha
      rcases ha with h1 | h1 | h1
      · exact hr_notin (List.mem_append_left _ h1)
      · exact hlr_ne h1.symm
      · exact hr_notin (List.mem_append_right _ (List.mem_cons.mpr h1))
    have hin : v ∈ ps.map s.val := by
      rw [hps]; exact List.mem_map.mpr ⟨right', by simp, heq⟩
    have htail_ne : l.tail ≠ left' := by
      intro e
      apply hl_notin
      apply List.mem_append_right
      rw [← e, hB2]; simp
    refine ⟨1, _, P1 ++ P2', rfl, ?_, fun _ => ⟨rfl, ?_⟩, fun hm => absurd hin hm⟩
    · refine ⟨?_, ?_, ?_, ?_, ?_, ?_, ?_, ?_⟩
      · -- linked
        rw [hns']
        dsimp only
        have hch := h.linked
        rw [hsplit, List.chain'_split, List.chain'_cons, List.chain'_cons] at hch
        rw [List.chain'_split, List.chain'_cons]
        refine ⟨?_, by simp, ?_⟩
        · apply chain_frame s.next _ A' left' hch.1
          intro x hx
          have hx1 : x ≠ left' := fun e => hl_notin (List.mem_append_left _ (e ▸ hx))
          rw [upd_other _ _ _ _ hx1]
        · apply chain_frame_all s.next _ _ hch.2.2.2
          intro x hx
          have hx1 : x ≠ left' := fun e => hl_notin (List.mem_append_right _ (e ▸ hx))
          rw [upd_other _ _ _ _ hx1]
      · dsimp only
        rw [upd_other _ _ _ _ htail_ne]; exact h.tail_next
      · exact fun a ha => h.nonnull a (hmem' a ha).1
      · exact fun a ha => by dsimp only; exact h.allocated a (hmem' a ha).1
      · exact h.head_val
      · exact h.tail_val
      · dsimp only
        have e1 : nodes l (P1 ++ P2') = (l.head :: P1) ++ (P2' ++ [l.tail]) := by simp [nodes]
        have e2 : nodes l ps = (l.head :: P1) ++ right' :: (P2' ++ [l.tail]) := by
          rw [hps]; simp [nodes]
        rw [e1, List.map_append]
        have := h.sorted
        rw [e2, List.map_append, List.map_cons] at this
        exact sorted_remove _ _ _ this
      · intro a ha
        obtain ⟨ha1, ha2⟩ := hmem' a ha
        unfold lock_free_at
        dsimp only
        by_cases e' : a = left'
        · subst e'
          unfold lock_held_at at hheld
          rw [upd_same, upd_other _ _ _ _ ha2, hheld]
        · have : lock_free_at s1 a := hfree a (by
            rw [hsplit] at ha1
            simp only [List.mem_append, List.mem_cons] at ha1 ⊢
            tauto)
          unfold lock_free_at at this
          rw [upd_other _ _ _ _ e', upd_other _ _ _ _ ha2]; exact this
    · dsimp only
      rw [hps, List.map_append, List.map_append, List.map_cons, heq]
      exact (erase_split v _ _ hP1notin).symm
  · -- not there
    have hrv' : v < s.val right' := lt_of_le_of_ne hrv (Ne.symm heq)
    simp only [heq, ne_eq, not_false_eq_true, if_true]
    rw [lock_unlock_eq _ _ hr0']
    simp only [Res.bind_ok]
    rw [lock_unlock_eq _ _ hl0]
    simp only [Res.bind_ok]
    have hnot : v ∉ ps.map s.val := by
      intro hm
      obtain ⟨a, ha, hav⟩ := List.mem_map.mp hm
      rw [hps] at ha
      rcases List.mem_append.mp ha with h1 | h1
      · have := hP1v a h1; omega
      · have h2 : a ∈ right' :: B := by rw [hP2]; simp [h1]
        rcases List.mem_cons.mp h2 with e | e
        · subst e; exact heq hav
        · have := hB a e; omega
    simp only [hnext1, hval1, hbrk1]
    refine ⟨0, _, ps, rfl, ?_, fun hm => absurd hm hnot, fun _ => ⟨rfl, rfl⟩⟩
    refine ⟨h.linked, h.tail_next, h.nonnull, h.allocated, h.head_val, h.tail_val, h.sorted, ?_⟩
    intro a ha
    unfold lock_free_at
    dsimp only
    unfold lock_held_at at hheld hheldr
    by_cases e' : a = left'
    · subst e'
      rw [upd_same, upd_other _ _ _ _ hlr_ne, hheld]
    · by_cases e2 : a = right'
      · subst e2
        rw [upd_other _ _ _ _ e', upd_same, hheldr]
      · have : lock_free_at s1 a := hfree a (by
          rw [hsplit] at ha
          simp only [List.mem_append, List.mem_cons] at ha ⊢
          tauto)
        unfold lock_free_at at this
        rw [upd_other _ _ _ _ e', upd_other _ _ _ _ e2]; exact this

end Lock

end LinkedList


namespace LinkedList

namespace Lock

/-- The traversal of `list_contains` stops at the first node not below `val`. -/
theorem contains_loop_spec (s : State) (v : Int) : ∀ (R : List Nat) (cur : Nat) (fuel : Nat),
    List.Chain' (fun a b => s.next a = b) (cur :: R) →
    (∀ a ∈ cur :: R, a ≠ 0) →
    (∃ t ∈ cur :: R, v ≤ s.val t) →
    (cur :: R).length ≤ fuel →
    ∃ x A B, contains_loop s v fuel cur = .ok x ∧ cur :: R = A ++ x :: B ∧
      (∀ a ∈ A, s.val a < v) ∧ v ≤ s.val x := by
  intro R
  induction R with
  | nil =>
    intro cur fuel _ hnn ht hf
    obtain ⟨t, htm, htv⟩ := ht
    simp at htm; subst htm
    obtain ⟨f, rfl⟩ : ∃ f, fuel = f + 1 := ⟨fuel - 1, by simp at hf; omega⟩
    refine ⟨t, [], [], ?_, rfl, by simp, htv⟩
    simp [contains_loop, hnn t (by simp), not_lt.mpr htv]
  | cons r R ih =>
    intro cur fuel hch hnn ht hf
    obtain ⟨f, rfl⟩ : ∃ f, fuel = f + 1 := ⟨fuel - 1, by simp at hf; omega⟩
    have hc0 : cur ≠ 0 := hnn cur (by simp)
    have hnx : s.next cur = r := (List.chain'_cons.mp hch).1
    by_cases hlt : s.val cur < v
    · have ht' : ∃ t ∈ r :: R, v ≤ s.val t := by
        obtain ⟨t, htm, htv⟩ := ht
        rcases List.mem_cons.mp htm with e | e
        · subst e; exact absurd hlt (not_lt.mpr htv)
        · exact ⟨t, e, htv⟩
      obtain ⟨x, A, B, hrun, hsplit, hA, hx⟩ := ih r f (List.chain'_cons.mp hch).2
        (fun a ha => hnn a (by simp at ha ⊢; tauto)) ht' (by simp at hf ⊢; omega)
      refine ⟨x, cur :: A, B, ?_, by rw [hsplit]; simp, ?_, hx⟩
      · rw [contains_loop]; simp only [hc0, hlt, if_true, if_false, hnx]; exact hrun
      · intro a ha
        rcases List.mem_cons.mp ha with e | e
        · rw [e]; exact hlt
        · exact hA a e
    · refine ⟨cur, [], r :: R, ?_, rfl, by simp, not_lt.mp hlt⟩
      simp [contains_loop, hc0, hlt]

/-- What `list_contains` does on a well-formed list. -/
theorem list_contains_spec (s : State) (l : llist_t) (ps : List Nat) (v : Int) (fuel : Nat)
    (h : WF s l ps) (hv' : v < INT_MAX) (hf : ps.length + 1 ≤ fuel) :
    ∃ r, list_contains fuel s l v = .ok (r, s) ∧
      (v ∈ ps.map s.val → r = 1) ∧ (v ∉ ps.map s.val → r = 0) := by
  obtain ⟨right, R, hR⟩ : ∃ right R, ps ++ [l.tail] = right :: R := by
    cases ps with
    | nil => exact ⟨l.tail, [], rfl⟩
    | cons p ps => exact ⟨p, ps ++ [l.tail], rfl⟩
  have hns : nodes l ps = l.head :: right :: R := by simp [nodes, hR]
  have hh0 : l.head ≠ 0 := h.nonnull _ (by simp [nodes])
  have hnxh : s.next l.head = right := chain_mid [] l.head right R (hns ▸ h.linked)
  have htl : l.tail ∈ right :: R := by rw [← hR]; simp
  obtain ⟨x, A, B, hrun, hsplit, hA, hx⟩ := contains_loop_spec s v R right fuel
    (List.chain'_cons.mp (hns ▸ h.linked)).2
    (fun a ha => h.nonnull a (by rw [hns]; simp at ha ⊢; tauto))
    ⟨l.tail, htl, by rw [h.tail_val]; exact le_of_lt hv'⟩
    (by rw [← hR]; simp; omega)
  have hsorted : List.Sorted (fun x y => x < y) ((A ++ x :: B).map s.val) := by
    have := h.sorted
    rw [hns, List.map_cons, hsplit] at this
    exact (List.pairwise_cons.mp this).2
  have hBv : ∀ b ∈ B, s.val x < s.val b := by
    unfold List.Sorted at hsorted
    rw [List.pairwise_map, List.pairwise_append, List.pairwise_cons] at hsorted
    exact fun b hb => hsorted.2.1.1 b hb
  unfold list_contains
  simp only [hh0, if_false, hnxh]
  rw [hrun]
  simp only [Res.bind_ok]
  by_cases heq : s.val x = v
  · simp only [heq, if_true]
    refine ⟨1, rfl, fun _ => rfl, fun hnot => ?_⟩
    exfalso; apply hnot
    have hx_in : x ∈ ps ++ [l.tail] := by rw [hR, hsplit]; simp
    rcases List.mem_append.mp hx_in with e | e
    · exact List.mem_map.mpr ⟨x, e, heq⟩
    · simp at e; rw [e, h.tail_val] at heq; omega
  · simp only [heq, if_false]
    refine ⟨0, rfl, fun hm => ?_, fun _ => rfl⟩
    exfalso
    obtain ⟨a, ha, hav⟩ := List.mem_map.mp hm
    have ha_in : a ∈ A ++ x :: B := by rw [← hsplit, ← hR]; simp [ha]
    simp only [List.mem_append, List.mem_cons] at ha_in
    rcases ha_in with e | e | e
    · have := hA a e; omega
    · subst e; exact heq hav
    · have := hBv a e; omega

/-- The loop of `list_size` counts the nodes up to the tail. -/
theorem size_loop_spec (s : State) (l : llist_t) : ∀ (ps : List Nat) (i : Nat) (n : Int) (fuel : Nat),
    List.Chain' (fun a b => s.next a = b) (ps ++ [l.tail]) →
    (ps ++ [l.tail]).head? = some i →
    (∀ a ∈ ps, a ≠ l.tail ∧ a ≠ 0) →
    ps.length + 1 ≤ fuel →
    size_loop s l fuel i n = .ok (n + ps.length) := by
  intro ps
  induction ps with
  | nil =>
    intro i n fuel _ hi _ hf
    obtain ⟨f, rfl⟩ : ∃ f, fuel = f + 1 := ⟨fuel - 1, by simp at hf; omega⟩
    simp at hi; subst hi
    simp [size_loop]
  | cons p ps ih =>
    intro i n fuel hch hi hne hf
    obtain ⟨f, rfl⟩ : ∃ f, fuel = f + 1 := ⟨fuel - 1, by simp at hf; omega⟩
    simp at hi; subst hi
    obtain ⟨h1, h2⟩ := hne p (by simp)
    obtain ⟨q, hq⟩ : ∃ q, (ps ++ [l.tail]).head? = some q := by
      cases ps with
      | nil => exact ⟨l.tail, rfl⟩
      | cons a ps => exact ⟨a, rfl⟩
    have hnx : s.next p = q := by
      cases ps with
      | nil =>
        simp at hq; subst hq
        simpa using hch
      | cons a ps =>
        simp at hq; subst hq
        simp only [List.cons_append, List.chain'_cons] at hch
        exact hch.1
    have hch' : List.Chain' (fun a b => s.next a = b) (ps ++ [l.tail]) := by
      rw [List.cons_append] at hch
      exact hch.tail
    rw [size_loop]
    simp only [h1, h2, ne_eq, not_false_eq_true, if_true, if_false, hnx]
    rw [ih q (n + 1) f hch' hq (fun a ha => hne a (by simp [ha])) (by simp at hf ⊢; omega)]
    simp only [List.length_cons, Nat.cast_add, Nat.cast_one]
    congr 1
    ring

/-- What `list_size` does on a well-formed list. -/
theorem list_size_spec (s : State) (l : llist_t) (ps : List Nat) (fuel : Nat)
    (h : WF s l ps) (hf : ps.length + 1 ≤ fuel) :
    list_size fuel s l = .ok ((ps.length : Int), s) := by
  have hh0 : l.head ≠ 0 := h.nonnull _ (by simp [nodes])
  have hnd : (nodes l ps).Nodup := nodup_of_sorted s.val _ h.sorted
  obtain ⟨q, hq⟩ : ∃ q, (ps ++ [l.tail]).head? = some q := by
    cases ps with
    | nil => exact ⟨l.tail, rfl⟩
    | cons a ps => exact ⟨a, rfl⟩
  have hch := h.linked
  have hnx : s.next l.head = q := by
    unfold nodes at hch
    cases ps with
    | nil =>
      simp at hq; subst hq
      simpa using hch
    | cons a ps =>
      simp at hq; subst hq
      simp only [List.cons_append, List.chain'_cons] at hch
      exact hch.1
  have hne : ∀ a ∈ ps, a ≠ l.tail ∧ a ≠ 0 := by
    intro a ha
    refine ⟨?_, h.nonnull a (by simp [nodes, ha])⟩
    intro e
    unfold nodes at hnd
    rw [List.nodup_cons, List.nodup_append] at hnd
    exact hnd.2.2.2 ha (by simp [e])
  unfold list_size
  simp only [hh0, if_false, hnx]
  rw [size_loop_spec s l ps q 0 fuel (List.Chain'.tail hch) hq hne hf]
  simp

end Lock

end LinkedList


namespace LinkedList

namespace LockFree

theorem nat_eq_bit (w : Nat) : w = Nat.bit (decide (w % 2 = 1)) (w / 2) := by
  rw [Nat.bit_val]
  by_cases hb : w % 2 = 1
  · simp [hb]; omega
  · simp [hb]; omega

/-- On a 64-bit word, clearing the mark rounds down to an even number. -/
theorem get_unmarked_ref_eq (w : Nat) (h : w < 2 ^ 64) : get_unmarked_ref w = 2 * (w / 2) := by
  unfold get_unmarked_ref
  have e2 : (2 ^ 64 - 2 : Nat) = Nat.bit false (2 ^ 63 - 1) := by
    rw [Nat.bit_val]; norm_num
  have e3 : w &&& (2 ^ 64 - 2)
      = Nat.bit (decide (w % 2 = 1)) (w / 2) &&& Nat.bit false (2 ^ 63 - 1) := by
    rw [← nat_eq_bit, ← e2]
  rw [e3, Nat.land_bit, Nat.and_pow_two_sub_one_eq_mod, Nat.bit_val]
  have : w / 2 < 2 ^ 63 := by omega
  rw [Nat.mod_eq_of_lt this]
  simp

/-- Setting the mark makes the word odd. -/
theorem get_marked_ref_eq (w : Nat) : get_marked_ref w = 2 * (w / 2) + 1 := by
  unfold get_marked_ref
  have e2 : (1 : Nat) = Nat.bit true 0 := by
    rw [Nat.bit_val]; norm_num
  have e3 : w ||| 1 = Nat.bit (decide (w % 2 = 1)) (w / 2) ||| Nat.bit true 0 := by
    rw [← nat_eq_bit, ← e2]
  rw [e3, Nat.lor_bit, Nat.bit_val]
  simp

theorem is_marked_ref_eq (w : Nat) : is_marked_ref w = w % 2 := Nat.and_one_is_mod w

theorem is_marked_even (w : Nat) (h : w % 2 = 0) : is_marked_ref w = 0 := by
  rw [is_marked_ref_eq, h]

theorem get_unmarked_even (w : Nat) (h : w % 2 = 0) (h2 : w < 2 ^ 64) :
    get_unmarked_ref w = w := by
  rw [get_unmarked_ref_eq w h2]; omega

theorem get_marked_even (w : Nat) (h : w % 2 = 0) : get_marked_ref w = w + 1 := by
  rw [get_marked_ref_eq w]; omega

theorem get_unmarked_succ (w : Nat) (h : w % 2 = 0) (h2 : w + 1 < 2 ^ 64) :
    get_unmarked_ref (w + 1) = w := by
  rw [get_unmarked_ref_eq _ h2]; omega

/-- Step 1 of `list_search` on a list without marked nodes: it stops at the
first node not below `val`, with `left` the node before it. -/
theorem search_traverse_spec (s : State) (v : Int) (right0 : Option Nat) :
    ∀ (R A : List Nat) (lf i : Nat) (fuel : Nat),
    List.Chain' (fun a b => s.next a = b) (A ++ lf :: i :: R) →
    (∀ a ∈ A ++ lf :: i :: R, a ≠ 0 ∧ a < 2 ^ 64 ∧ s.next a % 2 = 0) →
    (∃ t ∈ i :: R, v ≤ s.val t) →
    (i :: R).length ≤ fuel →
    ∃ A' left' right' B,
      search_traverse s v fuel i (some lf) right0 = .ok (some left', some right') ∧
      A ++ lf :: i :: R = A' ++ left' :: right' :: B ∧
      ((A' = A ∧ left' = lf) ∨ s.val left' < v) ∧ v ≤ s.val right' := by
  intro R
  induction R with
  | nil =>
    intro A lf i fuel _ hnn ht hf
    obtain ⟨t, htm, htv⟩ := ht
    simp at htm; subst htm
    obtain ⟨f, rfl⟩ : ∃ f, fuel = f + 1 := ⟨fuel - 1, by simp at hf; omega⟩
    obtain ⟨h0, _, hm⟩ := hnn t (by simp)
    refine ⟨A, lf, t, [], ?_, rfl, Or.inl ⟨rfl, rfl⟩, htv⟩
    simp [search_traverse, h0, is_marked_even _ hm, htv]
  | cons r R ih =>
    intro A lf i fuel hch hnn ht hf
    obtain ⟨f, rfl⟩ : ∃ f, fuel = f + 1 := ⟨fuel - 1, by simp at hf; omega⟩
    obtain ⟨h0, _, hm⟩ := hnn i (by simp)
    obtain ⟨hr0, hr64, _⟩ := hnn r (by simp)
    have hch' : List.Chain' (fun a b => s.next a = b) ((A ++ [lf]) ++ i :: r :: R) := by
      simpa [List.append_assoc] using hch
    have hnx : s.next i = r := chain_mid (A ++ [lf]) i r R hch'
    have hun : get_unmarked_ref (s.next i) = r := by
      rw [get_unmarked_even _ hm (by rw [hnx]; exact hr64), hnx]
    by_cases hlt : s.val i < v
    · have ht' : ∃ t ∈ r :: R, v ≤ s.val t := by
        obtain ⟨t, htm, htv⟩ := ht
        rcases List.mem_cons.mp htm with e | e
        · subst e; exact absurd hlt (not_lt.mpr htv)
        · exact ⟨t, e, htv⟩
      obtain ⟨A', left', right', B, hrun, hsplit, hlv, hrv⟩ :=
        ih (A ++ [lf]) i r f hch' (by simpa [List.append_assoc] using hnn) ht'
          (by simp at hf ⊢; omega)
      refine ⟨A', left', right', B, ?_, by simpa [List.append_assoc] using hsplit, ?_, hrv⟩
      · rw [search_traverse]
        simp only [h0, is_marked_even _ hm, hun, hr0, ne_eq, not_true_eq_false, not_false_eq_true,
          if_true, if_false, ge_iff_le, not_le.mpr hlt]
        exact hrun
      · rcases hlv with e | e
        · rw [e.2]; exact Or.inr hlt
        · exact Or.inr e
    · refine ⟨A, lf, i, r :: R, ?_, rfl, Or.inl ⟨rfl, rfl⟩, not_lt.mp hlt⟩
      simp [search_traverse, h0, is_marked_even _ hm, not_lt.mp hlt]

/-- Facts about the nodes of a well-formed list used by the traversals. -/
theorem WF.node_facts {s : State} {l : llist_t} {K : Nat} {ps : List Nat} (h : WF s l K ps) :
    ∀ a ∈ nodes l ps, a ≠ 0 ∧ a < 2 ^ 64 ∧ s.next a % 2 = 0 := by
  have hbrk : s.brk ≤ 2 ^ 64 := by
    have := h.pool.reserve; omega
  have key : ∀ (X : List Nat) (t : Nat), List.Chain' (fun a b => s.next a = b) (X ++ [t]) →
      (∀ a ∈ X ++ [t], a % 2 = 0) → s.next t = 0 → ∀ a ∈ X ++ [t], s.next a % 2 = 0 := by
    intro X
    induction X with
    | nil => intro t _ _ ht a ha; simp at ha; subst ha; rw [ht]
    | cons x X ih =>
      intro t hch hal ht a ha
      rcases List.mem_cons.mp ha with e | e
      · subst e
        cases X with
        | nil =>
          simp only [List.cons_append, List.nil_append, List.chain'_cons] at hch
          rw [hch.1]; exact hal t (by simp)
        | cons y X =>
          simp only [List.cons_append, List.chain'_cons] at hch
          rw [hch.1]; exact hal y (by simp)
      · exact ih t (by rw [List.cons_append] at hch; exact hch.tail)
          (fun b hb => hal b (by simp at hb ⊢; tauto)) ht a e
  intro a ha
  refine ⟨h.nonnull a ha, lt_of_lt_of_le (h.allocated a ha) hbrk, ?_⟩
  have e1 : nodes l ps = (l.head :: ps) ++ [l.tail] := by simp [nodes]
  exact key (l.head :: ps) l.tail (e1 ▸ h.linked) (e1 ▸ h.aligned) h.tail_next a (e1 ▸ ha)

/-- On a well-formed list `list_search` returns the first node not below
`val` and its predecessor, and leaves memory as it is. -/
theorem list_search_spec (s : State) (l : llist_t) (K : Nat) (ps : List Nat) (v : Int) (fuel : Nat)
    (left0 : Option Nat)
    (h : WF s l K ps) (hv : INT_MIN < v) (hv' : v ≤ INT_MAX) (hf : ps.length + 2 ≤ fuel) :
    ∃ A' left' right' B, list_search l v fuel s left0 none = .ok (right', left', s) ∧
      nodes l ps = A' ++ left' :: right' :: B ∧ s.val left' < v ∧ v ≤ s.val right' := by
  obtain ⟨f, rfl⟩ : ∃ f, fuel = f + 1 := ⟨fuel - 1, by omega⟩
  obtain ⟨right, R, hR⟩ : ∃ right R, ps ++ [l.tail] = right :: R := by
    cases ps with
    | nil => exact ⟨l.tail, [], rfl⟩
    | cons p ps => exact ⟨p, ps ++ [l.tail], rfl⟩
  have hns : nodes l ps = [] ++ l.head :: right :: R := by simp [nodes, hR]
  have hfacts := h.node_facts
  obtain ⟨hh0, hh64, hhm⟩ := hfacts l.head (by simp [nodes])
  obtain ⟨hr0, hr64, _⟩ := hfacts right (by rw [hns]; simp)
  have hnxh : s.next l.head = right := chain_mid [] l.head right R (hns ▸ h.linked)
  have htl : l.tail ∈ right :: R := by rw [← hR]; simp
  obtain ⟨A', left', right', B, hrun, hsplit, hlv, hrv⟩ :=
    search_traverse_spec s v none R [] l.head right f (hns ▸ h.linked) (hns ▸ hfacts)
      ⟨l.tail, htl, by rw [h.tail_val]; exact hv'⟩ (by rw [← hR]; simp; omega)
  rw [← hns] at hsplit
  have hl0 : left' ≠ 0 := h.nonnull _ (by rw [hsplit]; simp)
  have hnx : s.next left' = right' := chain_mid A' left' right' B (hsplit ▸ h.linked)
  have hlv' : s.val left' < v := by
    rcases hlv with ⟨_, e⟩ | e
    · rw [e, h.head_val]; exact hv
    · exact e
  refine ⟨A', left', right', B, ?_, hsplit, hlv', hrv⟩
  have hfirst : search_traverse s v (f + 1) l.head left0 none
      = search_traverse s v f right (some l.head) none := by
    rw [search_traverse]
    have : ¬ v ≤ s.val l.head := by rw [h.head_val]; exact not_le.mpr hv
    have hun : get_unmarked_ref (s.next l.head) = right := by
      rw [get_unmarked_even _ hhm (by rw [hnxh]; exact hr64), hnxh]
    simp only [hh0, is_marked_even _ hhm, hun, hr0, ne_eq, not_true_eq_false,
      not_false_eq_true, if_true, if_false, ge_iff_le, this]
  rw [list_search, hfirst, hrun]
  simp [hl0, hnx]

end LockFree

end LinkedList


namespace LinkedList

namespace LockFree

theorem slot_range (s : State) (idx : Nat) :
    s.mem (idx / MEM_BLOCK_SIZE) ≤ slot s idx ∧
      slot s idx < s.mem (idx / MEM_BLOCK_SIZE) + block_bytes := by
  simp only [slot, block_bytes, MEM_BLOCK_SIZE, sizeof_node_t]
  omega

/-- Two cells handed out by a pool in order lie at different addresses. -/
theorem slot_inj (s : State) (l : llist_t) (K : Nat) (hp : PoolOK s l K) (i j : Nat)
    (hi : i < K * MEM_BLOCK_SIZE) (hj : j < K * MEM_BLOCK_SIZE)
    (hbi : s.mem (i / MEM_BLOCK_SIZE) ≠ 0) (hbj : s.mem (j / MEM_BLOCK_SIZE) ≠ 0)
    (hij : i ≠ j) : slot s i ≠ slot s j := by
  by_cases hb : i / MEM_BLOCK_SIZE = j / MEM_BLOCK_SIZE
  · simp only [slot, hb]
    simp only [MEM_BLOCK_SIZE, sizeof_node_t] at hb ⊢
    omega
  · have h1 := slot_range s i
    have h2 := slot_range s j
    have hi' : i / MEM_BLOCK_SIZE < K := by
      simp only [MEM_BLOCK_SIZE] at hi ⊢
      omega
    have hj' : j / MEM_BLOCK_SIZE < K := by
      simp only [MEM_BLOCK_SIZE] at hj ⊢
      omega
    have := hp.disjoint _ _ hi' hj' hb hbi hbj
    omega

set_option maxHeartbeats 1000000 in
/-- The allocation inside `list_add` hands out a fresh, aligned cell and keeps
the pool in order, as long as the pool is not exhausted. -/
theorem add_alloc_pool (s : State) (l : llist_t) (K : Nat) (v : Int)
    (hp : PoolOK s l K) (hhead : l.head < s.brk) (htail : l.tail < s.brk)
    (hcap : s.memptr < K * MEM_BLOCK_SIZE) :
    ∃ n s1, add_alloc s v = .ok (n, s1) ∧ s1.next = s.next ∧ s1.val = upd s.val n v ∧
      (n ≠ l.head ∧ n ≠ l.tail ∧ ∀ idx, idx < s.memptr → n ≠ slot s idx) ∧
      n ≠ 0 ∧ n % 2 = 0 ∧ n < s1.brk ∧ s.brk ≤ s1.brk ∧
      s1.memptr = s.memptr + 1 ∧ PoolOK s1 l K ∧ n = slot s1 s.memptr ∧
      (∀ idx, idx < s.memptr → slot s1 idx = slot s idx) ∧
      s1.mem_addr = s.mem_addr := by
  have hentv : mem_entries = 1000 := rfl
  have hbbv : block_bytes = 16000000 := rfl
  have hK := hp.entries
  rw [hentv] at hK
  simp only [MEM_BLOCK_SIZE] at hcap
  have hfai : (s.memptr + 1) % 2 ^ 32 = s.memptr + 1 :=
    Nat.mod_eq_of_lt (by omega)
  have hbK : s.memptr / MEM_BLOCK_SIZE < K := by
    simp only [MEM_BLOCK_SIZE]; omega
  have hb : s.memptr / MEM_BLOCK_SIZE < mem_entries := by
    rw [hentv]; omega
  -- the cell is fresh as soon as its block is in order
  have fresh : ∀ s1 : State, PoolOK s1 l K → s1.mem (s.memptr / MEM_BLOCK_SIZE) ≠ 0 →
      (∀ idx, idx < s.memptr → slot s1 idx = slot s idx ∧ s1.mem (idx / MEM_BLOCK_SIZE) ≠ 0) →
      slot s1 s.memptr ≠ l.head ∧ slot s1 s.memptr ≠ l.tail ∧
        ∀ idx, idx < s.memptr → slot s1 s.memptr ≠ slot s idx := by
    intro s1 hp1 hne hsl
    have hr := slot_range s1 s.memptr
    obtain ⟨_, _, hbh, hbt⟩ := hp1.blocks _ hbK hne
    refine ⟨by omega, by omega, ?_⟩
    intro idx hidx hpe
    rw [← (hsl idx hidx).1] at hpe
    exact slot_inj s1 l K hp1 s.memptr idx (by simp only [MEM_BLOCK_SIZE]; omega)
      (by simp only [MEM_BLOCK_SIZE]; omega) hne (hsl idx hidx).2 (by omega) hpe
  unfold add_alloc
  simp only [FAI_U32, hfai, not_le.mpr hb, if_false]
  by_cases hz : s.mem (s.memptr / MEM_BLOCK_SIZE) = 0
  · -- a new block
    simp only [hz, if_true, malloc, CAS_PTR, upd_same]
    generalize htmp : (s.brk + 15) / 16 * 16 = tmp
    have htmp_ge : s.brk ≤ tmp := by rw [← htmp]; omega
    have htmp_le : tmp ≤ s.brk + 15 := by rw [← htmp]; omega
    have htmp16 : tmp % 16 = 0 := by rw [← htmp]; omega
    have htmp0 : tmp ≠ 0 := by omega
    have hn0 : tmp + sizeof_node_t * (s.memptr % MEM_BLOCK_SIZE) ≠ 0 := by omega
    simp only [hn0, if_false]
    have hother : ∀ idx, idx < s.memptr → idx / MEM_BLOCK_SIZE ≠ s.memptr / MEM_BLOCK_SIZE :=
      fun idx hidx e => hp.used idx hidx (e ▸ hz)
    have hpool : ∀ s1 : State, s1.mem = upd s.mem (s.memptr / MEM_BLOCK_SIZE) tmp →
        s1.memptr = s.memptr + 1 → s1.brk = tmp + MEM_BLOCK_SIZE * sizeof_node_t →
        PoolOK s1 l K := by
      intro s1 e1 e2 e3
      refine ⟨hp.entries, ?_, ?_, ?_, ?_, ?_⟩
      · intro idx hidx
        rw [e2] at hidx; rw [e1]
        by_cases e : idx / MEM_BLOCK_SIZE = s.memptr / MEM_BLOCK_SIZE
        · rw [e, upd_same]; exact htmp0
        · rw [upd_other _ _ _ _ e]
          apply hp.used idx
          by_contra hge
          have : idx = s.memptr := by omega
          exact e (this ▸ rfl)
      · intro b hb' hne
        rw [e1] at hne; rw [e1, e3]
        by_cases e : b = s.memptr / MEM_BLOCK_SIZE
        · subst e
          rw [upd_same]
          simp only [block_bytes]
          refine ⟨by omega, le_refl _, Or.inl (by omega), Or.inl (by omega)⟩
        · rw [upd_other _ _ _ _ e] at hne ⊢
          obtain ⟨h1, h2, h3, h4⟩ := hp.blocks b hb' hne
          refine ⟨h1, ?_, h3, h4⟩
          simp only [MEM_BLOCK_SIZE, sizeof_node_t]; omega
      · intro b b' hb1 hb2 hne hn1 hn2
        rw [e1] at hn1 hn2; rw [e1]
        by_cases e : b = s.memptr / MEM_BLOCK_SIZE
        · subst e
          have e' : b' ≠ s.memptr / MEM_BLOCK_SIZE := fun x => hne x.symm
          rw [upd_other _ _ _ _ e'] at hn2 ⊢
          rw [upd_same]
          have := (hp.blocks b' hb2 hn2).2.1
          right; omega
        · rw [upd_other _ _ _ _ e] at hn1 ⊢
          by_cases e' : b' = s.memptr / MEM_BLOCK_SIZE
          · subst e'
            rw [upd_same]
            have := (hp.blocks b hb1 hn1).2.1
            left; omega
          · rw [upd_other _ _ _ _ e'] at hn2 ⊢
            exact hp.disjoint b b' hb1 hb2 hne hn1 hn2
      · rw [e2]; simp only [MEM_BLOCK_SIZE]; omega
      · rw [e2, e3, hbbv]
        have := hp.reserve
        rw [hbbv] at this
        simp only [MEM_BLOCK_SIZE, sizeof_node_t] at this ⊢
        have e4 : K * 1000000 - s.memptr = (K * 1000000 - (s.memptr + 1)) + 1 := by omega
        rw [e4, Nat.mul_add] at this
        omega
    have hslot : ∀ s1 : State, s1.mem = upd s.mem (s.memptr / MEM_BLOCK_SIZE) tmp →
        ∀ idx, idx < s.memptr → slot s1 idx = slot s idx := by
      intro s1 e1 idx hidx
      simp only [slot]
      rw [e1, upd_other _ _ _ _ (hother idx hidx)]
    have hn_eq : ∀ s1 : State, s1.mem = upd s.mem (s.memptr / MEM_BLOCK_SIZE) tmp →
        tmp + sizeof_node_t * (s.memptr % MEM_BLOCK_SIZE) = slot s1 s.memptr := by
      intro s1 e1
      simp only [slot]
      rw [e1, upd_same]
    refine ⟨_, _, rfl, rfl, rfl, ?_, hn0, ?_, ?_, ?_, rfl, ?_, ?_, ?_, rfl⟩
    rotate_left 4
    · exact hpool _ rfl rfl rfl
    · exact hn_eq _ rfl
    · exact hslot _ rfl
    · have hf := fresh ⟨s.val, s.next, upd s.mem (s.memptr / MEM_BLOCK_SIZE) tmp, s.mem_addr,
        s.memptr + 1, tmp + MEM_BLOCK_SIZE * sizeof_node_t⟩ (hpool _ rfl rfl rfl)
        (by dsimp only; rw [upd_same]; exact htmp0)
        (by
          intro idx hidx
          refine ⟨hslot _ rfl idx hidx, ?_⟩
          dsimp only
          rw [upd_other _ _ _ _ (hother idx hidx)]
          exact hp.used idx hidx)
      rw [← hn_eq _ rfl] at hf
      exact hf
    · simp only [sizeof_node_t]; omega
    · dsimp only
      simp only [MEM_BLOCK_SIZE, sizeof_node_t]; omega
    · dsimp only; omega
  · -- the block is there
    simp only [hz, if_false]
    obtain ⟨hb1, hb2, hb3, hb4⟩ := hp.blocks _ hbK hz
    have hn0 : s.mem (s.memptr / MEM_BLOCK_SIZE) + sizeof_node_t * (s.memptr % MEM_BLOCK_SIZE) ≠ 0 := by
      omega
    simp only [hn0, if_false]
    have hpool : ∀ s1 : State, s1.mem = s.mem → s1.memptr = s.memptr + 1 → s1.brk = s.brk →
        PoolOK s1 l K := by
      intro s1 e1 e2 e3
      refine ⟨hp.entries, ?_, ?_, ?_, ?_, ?_⟩
      · intro idx hidx
        rw [e2] at hidx; rw [e1]
        by_cases e : idx = s.memptr
        · rw [e]; exact hz
        · exact hp.used idx (by omega)
      · rw [e1, e3]; exact hp.blocks
      · rw [e1]; exact hp.disjoint
      · rw [e2]; simp only [MEM_BLOCK_SIZE]; omega
      · rw [e2, e3, hbbv]
        have := hp.reserve
        rw [hbbv] at this
        simp only [MEM_BLOCK_SIZE] at this ⊢
        have e4 : K * 1000000 - s.memptr = (K * 1000000 - (s.memptr + 1)) + 1 := by omega
        rw [e4, Nat.mul_add] at this
        omega
    refine ⟨_, _, rfl, rfl, rfl, ?_, hn0, ?_, ?_, le_refl _, rfl, ?_, rfl, fun _ _ => rfl, rfl⟩
    rotate_left 3
    · exact hpool _ rfl rfl rfl
    · exact fresh ⟨s.val, s.next, s.mem, s.mem_addr, s.memptr + 1, s.brk⟩ (hpool _ rfl rfl rfl) hz
        (fun idx hidx => ⟨rfl, hp.used idx hidx⟩)
    · simp only [sizeof_node_t]; omega
    · dsimp only
      have := slot_range s s.memptr
      simp only [slot] at this
      omega

/-- The allocation inside `list_add` on a well-formed list: the cell handed
out is no node of the list. -/
theorem add_alloc_spec (s : State) (l : llist_t) (K : Nat) (ps : List Nat) (v : Int)
    (h : WF s l K ps) (hcap : s.memptr < K * MEM_BLOCK_SIZE) :
    ∃ n s1, add_alloc s v = .ok (n, s1) ∧ s1.next = s.next ∧ s1.val = upd s.val n v ∧
      n ∉ nodes l ps ∧ n ≠ 0 ∧ n % 2 = 0 ∧ n < s1.brk ∧ s.brk ≤ s1.brk ∧
      s1.memptr = s.memptr + 1 ∧ PoolOK s1 l K ∧ n = slot s1 s.memptr ∧
      (∀ idx, idx < s.memptr → slot s1 idx = slot s idx) := by
  obtain ⟨n, s1, h1, h2, h3, ⟨hnh, hnt, hnc⟩, h5, h6, h7, h8, h9, h10, h11, h12, _⟩ :=
    add_alloc_pool s l K v h.pool (h.allocated _ (by simp [nodes]))
      (h.allocated _ (by simp [nodes])) hcap
  refine ⟨n, s1, h1, h2, h3, ?_, h5, h6, h7, h8, h9, h10, h11, h12⟩
  intro hm
  simp only [nodes, List.mem_cons, List.mem_append, List.mem_singleton, List.not_mem_nil,
    or_false] at hm
  rcases hm with e | e | e
  · exact hnh e
  · obtain ⟨idx, hidx, hpe⟩ := h.cells _ e
    exact hnc idx hidx hpe
  · exact hnt e

end LockFree

end LinkedList


namespace LinkedList

namespace LockFree

set_option maxHeartbeats 2000000 in
/-- What `list_add` does on a well-formed list whose pool is not exhausted. -/
theorem list_add_lf_spec (s : State) (l : llist_t) (K : Nat) (ps : List Nat) (v : Int) (fuel : Nat)
    (h : WF s l K ps) (hv : INT_MIN < v) (hv' : v < INT_MAX)
    (hcap : v ∉ ps.map s.val → s.memptr < K * MEM_BLOCK_SIZE)
    (hf : ps.length + 2 ≤ fuel) :
    ∃ r s' ps', list_add fuel s l v = .ok (r, s') ∧ WF s' l K ps' ∧
      (v ∈ ps.map s.val → r = 0 ∧ s' = s ∧ ps' = ps) ∧
      (v ∉ ps.map s.val → r = 1 ∧ s'.memptr = s.memptr + 1 ∧
        ps'.map s'.val = List.orderedInsert (fun x y => x ≤ y) v (ps.map s.val)) := by
  obtain ⟨f, rfl⟩ : ∃ f, fuel = f + 1 := ⟨fuel - 1, by omega⟩
  obtain ⟨A', left', right', B, hrun, hsplit, hlv', hrv⟩ :=
    list_search_spec s l K ps v (f + 1) none h hv (le_of_lt hv') hf
  have hnd : (nodes l ps).Nodup := nodup_of_sorted s.val _ h.sorted
  have hl0 : left' ≠ 0 := h.nonnull _ (by rw [hsplit]; simp)
  have hnx : s.next left' = right' := chain_mid A' left' right' B (hsplit ▸ h.linked)
  obtain ⟨hA, hlr, hB⟩ := sorted_split s.val A' left' right' B (hsplit ▸ h.sorted)
  obtain ⟨P1, P2, hP1, hP2, hps⟩ := bracket_split l.head l.tail ps A' B left' right'
    (by simpa [nodes] using hsplit)
  have hleft_ne : ∀ a ∈ A' ++ right' :: B, a ≠ left' := by
    intro a ha e; subst e
    rw [hsplit] at hnd
    have : List.Perm (A' ++ a :: right' :: B) (a :: (A' ++ right' :: B)) := List.perm_middle
    exact (List.nodup_cons.mp (this.nodup_iff.mp hnd)).1 ha
  have hP1v : ∀ a ∈ P1, s.val a < v := by
    intro a ha
    have : a ∈ A' ++ [left'] := by rw [hP1]; simp [ha]
    rcases List.mem_append.mp this with h1 | h1
    · exact lt_trans (hA a h1) hlv'
    · simp at h1; subst h1; exact hlv'
  unfold list_add
  rw [add_loop, hrun]
  simp only [Res.bind_ok]
  by_cases heq : s.val right' = v
  · simp only [heq, if_true]
    refine ⟨0, s, ps, rfl, h, fun _ => ⟨rfl, rfl, rfl⟩, ?_⟩
    intro hnot
    exfalso
    apply hnot
    have hr_in : right' ∈ nodes l ps := by rw [hsplit]; simp
    simp only [nodes, List.mem_cons, List.mem_append, List.mem_singleton, List.not_mem_nil,
      or_false] at hr_in
    rcases hr_in with e | e | e
    · rw [e, h.head_val] at heq; omega
    · exact List.mem_map.mpr ⟨right', e, heq⟩
    · rw [e, h.tail_val] at heq; omega
  · have hrv' : v < s.val right' := lt_of_le_of_ne hrv (Ne.symm heq)
    have hnot : v ∉ ps.map s.val := by
      intro hm
      obtain ⟨a, ha, hav⟩ := List.mem_map.mp hm
      rw [hps] at ha
      rcases List.mem_append.mp ha with h1 | h1
      · have := hP1v a h1; omega
      · have h2 : a ∈ right' :: B := by rw [hP2]; simp [h1]
        rcases List.mem_cons.mp h2 with e | e
        · subst e; exact heq hav
        · have := hB a e; omega
    obtain ⟨n, s1, halloc, hnext1, hval1, hn_notin, hn0, hn2, hn_lt, hbrk1, hmp1, hpool1, hn_slot,
      hslots⟩ := add_alloc_spec s l K ps v h (hcap hnot)
    have hn_fresh : ∀ a ∈ nodes l ps, a ≠ n := fun a ha e => hn_notin (e ▸ ha)
    have hnl : n ≠ left' := fun e => hn_fresh left' (by rw [hsplit]; simp) e.symm
    simp only [heq, if_false, if_true, halloc, Res.bind_ok, CAS_PTR, hnext1]
    rw [upd_other _ _ _ _ (Ne.symm hnl), hnx]
    simp only [if_true]
    have hns' : nodes l (P1 ++ n :: P2) = A' ++ left' :: n :: right' :: B := by
      have e1 : A' ++ left' :: n :: right' :: B = (A' ++ [left']) ++ n :: (right' :: B) := by simp
      rw [e1, hP1, hP2]; simp [nodes]
    have hP2v : ∀ b ∈ P2, v < s.val b := by
      intro b hb
      have h2 : b ∈ right' :: B := by rw [hP2]; simp [hb]
      rcases List.mem_cons.mp h2 with e | e
      · subst e; exact hrv'
      · exact lt_trans hrv' (hB b e)
    have hP1n : n ∉ P1 := fun hm => hn_fresh n (by rw [hps]; simp [nodes, hm]) rfl
    have hP2n : n ∉ P2 := fun hm => hn_fresh n (by rw [hps]; simp [nodes, hm]) rfl
    have hmem' : ∀ a ∈ nodes l (P1 ++ n :: P2), a = n ∨ a ∈ nodes l ps := by
      intro a ha
      rw [hps]
      simp only [nodes, List.mem_cons, List.mem_append, List.mem_singleton, List.not_mem_nil,
        or_false] at ha ⊢
      tauto
    have htail_ne : l.tail ≠ left' := by
      have : l.tail ∈ A' ++ right' :: B := by
        have : l.tail ∈ right' :: B := by rw [hP2]; simp
        exact List.mem_append_right _ this
      exact hleft_ne _ this
    refine ⟨1, _, P1 ++ n :: P2, rfl, ?_, fun hm => absurd hm hnot, fun _ => ⟨rfl, hmp1, ?_⟩⟩
    · refine ⟨?_, ?_, ?_, ?_, ?_, ?_, ?_, ?_, ?_, ?_⟩
      · -- linked
        rw [hns']
        dsimp only
        have hch := h.linked
        rw [hsplit, List.chain'_split, List.chain'_cons] at hch
        rw [List.chain'_split, List.chain'_cons, List.chain'_cons]
        refine ⟨?_, by simp, ?_, ?_⟩
        · apply chain_frame s.next _ A' left' hch.1
          intro x hx
          have hx1 : x ≠ left' := hleft_ne x (List.mem_append_left _ hx)
          have hx2 : x ≠ n := hn_fresh x (by rw [hsplit]; simp [hx])
          rw [upd_other _ _ _ _ hx1, upd_other _ _ _ _ hx2]
        · rw [upd_other _ _ _ _ hnl]; simp
        · apply chain_frame_all s.next _ _ hch.2.2
          intro x hx
          have hx1 : x ≠ left' := hleft_ne x (List.mem_append_right _ hx)
          have hx2 : x ≠ n := hn_fresh x (by rw [hsplit]; simp at hx ⊢; tauto)
          rw [upd_other _ _ _ _ hx1, upd_other _ _ _ _ hx2]
      · -- tail_next
        dsimp only
        rw [upd_other _ _ _ _ htail_ne, upd_other _ _ _ _ (hn_fresh _ (by simp [nodes]))]
        exact h.tail_next
      · -- nonnull
        intro a ha
        rcases hmem' a ha with e | e
        · rw [e]; exact hn0
        · exact h.nonnull a e
      · -- aligned
        intro a ha
        rcases hmem' a ha with e | e
        · rw [e]; exact hn2
        · exact h.aligned a e
      · -- allocated
        intro a ha
        dsimp only
        rcases hmem' a ha with e | e
        · rw [e]; exact hn_lt
        · have := h.allocated a e; omega
      · dsimp only
        rw [hval1, upd_other _ _ _ _ (hn_fresh _ (by simp [nodes]))]; exact h.head_val
      · dsimp only
        rw [hval1, upd_other _ _ _ _ (hn_fresh _ (by simp [nodes]))]; exact h.tail_val
      · -- sorted
        dsimp only
        have e1 : nodes l (P1 ++ n :: P2) = (l.head :: P1) ++ n :: (P2 ++ [l.tail]) := by
          simp [nodes]
        have e2 : nodes l ps = (l.head :: P1) ++ (P2 ++ [l.tail]) := by
          rw [hps]; simp [nodes]
        have hn1 : n ∉ l.head :: P1 := fun hm => hn_fresh n (by rw [e2]; simp at hm ⊢; tauto) rfl
        have hn2 : n ∉ P2 ++ [l.tail] := fun hm => hn_fresh n (by rw [e2]; simp at hm ⊢; tauto) rfl
        have key : (nodes l (P1 ++ n :: P2)).map (upd s.val n v)
            = (l.head :: P1).map s.val ++ v :: (P2 ++ [l.tail]).map s.val := by
          rw [e1, List.map_append, map_upd_of_not_mem _ _ _ _ hn1]
          congr 1
          rw [List.map_cons, upd_same, map_upd_of_not_mem _ _ _ _ hn2]
        rw [hval1, key]
        apply sorted_insert
        · have := h.sorted
          rw [e2, List.map_append] at this
          exact this
        · intro x hx
          obtain ⟨a, ha, rfl⟩ := List.mem_map.mp hx
          rcases List.mem_cons.mp ha with e | e
          · rw [e, h.head_val]; exact hv
          · exact hP1v a e
        · intro y hy
          obtain ⟨b, hb, rfl⟩ := List.mem_map.mp hy
          rcases List.mem_append.mp hb with e | e
          · exact hP2v b e
          · simp at e; rw [e, h.tail_val]; exact hv'
      · -- cells
        intro p hp
        dsimp only
        rcases List.mem_append.mp hp with e | e
        · obtain ⟨idx, hidx, he⟩ := h.cells p (by rw [hps]; simp [e])
          exact ⟨idx, by omega, by
            rw [he]; simp only [slot]; have := hslots idx hidx; simp only [slot] at this
            exact this.symm⟩
        · rcases List.mem_cons.mp e with e | e
          · exact ⟨s.memptr, by omega, by
              rw [e, hn_slot]; simp only [slot]⟩
          · obtain ⟨idx, hidx, he⟩ := h.cells p (by rw [hps]; simp [e])
            exact ⟨idx, by omega, by
              rw [he]; simp only [slot]; have := hslots idx hidx; simp only [slot] at this
              exact this.symm⟩
      · -- pool
        exact ⟨hpool1.entries, hpool1.used, hpool1.blocks, hpool1.disjoint, hpool1.memptr_le,
          hpool1.reserve⟩
    · dsimp only
      have key : (P1 ++ n :: P2).map (upd s.val n v) = P1.map s.val ++ v :: P2.map s.val := by
        rw [List.map_append, map_upd_of_not_mem _ _ _ _ hP1n]
        congr 1
        rw [List.map_cons, upd_same, map_upd_of_not_mem _ _ _ _ hP2n]
      rw [hval1, key, hps, List.map_append]
      symm
      apply orderedInsert_split
      · intro x hx
        obtain ⟨a, ha, rfl⟩ := List.mem_map.mp hx
        exact hP1v a ha
      · intro y hy
        obtain ⟨b, hb, rfl⟩ := List.mem_map.mp hy
        exact hP2v b hb

end LockFree

end LinkedList


namespace LinkedList

namespace LockFree

set_option maxHeartbeats 2000000 in
/-- What `list_remove` does on a well-formed list. -/
theorem list_remove_lf_spec (s : State) (l : llist_t) (K : Nat) (ps : List Nat) (v : Int) (fuel : Nat)
    (h : WF s l K ps) (hv : INT_MIN < v) (hv' : v < INT_MAX) (hf : ps.length + 2 ≤ fuel) :
    ∃ r s' ps', list_remove fuel s l v = .ok (r, s') ∧ WF s' l K ps' ∧ s'.memptr = s.memptr ∧
      (v ∈ ps.map s.val → r = 1 ∧ ps'.map s'.val = (ps.map s.val).erase v) ∧
      (v ∉ ps.map s.val → r = 0 ∧ s' = s ∧ ps' = ps) := by
  obtain ⟨f, rfl⟩ : ∃ f, fuel = f + 1 := ⟨fuel - 1, by omega⟩
  obtain ⟨A', left', right', B, hrun, hsplit, hlv', hrv⟩ :=
    list_search_spec s l K ps v (f + 1) none h hv (le_of_lt hv') hf
  have hnd : (nodes l ps).Nodup := nodup_of_sorted s.val _ h.sorted
  have hfacts := h.node_facts
  have hl0 : left' ≠ 0 := h.nonnull _ (by rw [hsplit]; simp)
  have hnx : s.next left' = right' := chain_mid A' left' right' B (hsplit ▸ h.linked)
  obtain ⟨hA, hlr, hB⟩ := sorted_split s.val A' left' right' B (hsplit ▸ h.sorted)
  obtain ⟨P1, P2, hP1, hP2, hps⟩ := bracket_split l.head l.tail ps A' B left' right'
    (by simpa [nodes] using hsplit)
  have hnd2 : List.Nodup (left' :: right' :: (A' ++ B)) := by
    have p1 : List.Perm (A' ++ left' :: right' :: B) (left' :: (A' ++ right' :: B)) :=
      List.perm_middle
    have p2 : List.Perm (A' ++ right' :: B) (right' :: (A' ++ B)) := List.perm_middle
    exact ((p1.trans (p2.cons left')).nodup_iff).mp (hsplit ▸ hnd)
  simp only [List.nodup_cons, List.mem_cons, not_or] at hnd2
  obtain ⟨⟨hlr_ne, hl_notin⟩, hr_notin, -⟩ := hnd2
  have hP1v : ∀ a ∈ P1, s.val a < v := by
    intro a ha
    have : a ∈ A' ++ [left'] := by rw [hP1]; simp [ha]
    rcases List.mem_append.mp this with h1 | h1
    · exact lt_trans (hA a h1) hlv'
    · simp at h1; subst h1; exact hlv'
  have hP1notin : v ∉ P1.map s.val := by
    intro hm
    obtain ⟨a, ha, hav⟩ := List.mem_map.mp hm
    have := hP1v a ha; omega
  unfold list_remove
  rw [remove_loop, hrun]
  simp only [Res.bind_ok]
  by_cases heq : s.val right' = v
  · -- remove
    simp only [heq, ne_eq, not_true_eq_false, if_false]
    have hrt : right' ≠ l.tail := by
      intro e; rw [e, h.tail_val] at heq; omega
    obtain ⟨b, B', rfl⟩ : ∃ b B', B = b :: B' := by
      cases B with
      | nil =>
        exfalso
        have : (right' :: ([] : List Nat)).getLast? = (P2 ++ [l.tail]).getLast? := by rw [hP2]
        simp at this
        exact hrt this
      | cons b B' => exact ⟨b, B', rfl⟩
    obtain ⟨P2', rfl⟩ : ∃ P2', P2 = right' :: P2' := by
      cases P2 with
      | nil => simp at hP2
      | cons p P2' =>
        simp only [List.cons_append, List.cons.injEq] at hP2
        exact ⟨P2', by rw [hP2.1]⟩
    have hB2 : b :: B' = P2' ++ [l.tail] := by simpa using hP2
    have hnxr : s.next right' = b := by
      have e1 : A' ++ left' :: right' :: b :: B' = (A' ++ [left']) ++ right' :: b :: B' := by simp
      exact chain_mid (A' ++ [left']) right' b B' (e1 ▸ hsplit ▸ h.linked)
    obtain ⟨_, hb64, _⟩ := hfacts b (by rw [hsplit]; simp)
    have hb2 : b % 2 = 0 := h.aligned b (by rw [hsplit]; simp)
    have hun : get_unmarked_ref b = b := get_unmarked_even b hb2 hb64
    have hmk : get_marked_ref b = b + 1 := get_marked_even b hb2
    have hun1 : get_unmarked_ref (b + 1) = b := get_unmarked_succ b hb2 (by omega)
    simp only [CAS_PTR, hnxr, hun, hmk, if_true, upd_same]
    rw [upd_other _ _ _ _ hlr_ne, hnx]
    simp only [if_true, hun1]
    have hns' : nodes l (P1 ++ P2') = A' ++ left' :: b :: B' := by
      have e1 : A' ++ left' :: b :: B' = (A' ++ [left']) ++ (b :: B') := by simp
      rw [e1, hP1, hB2]; simp [nodes]
    have hmem' : ∀ a ∈ nodes l (P1 ++ P2'), a ∈ nodes l ps ∧ a ≠ right' := by
      intro a ha
      rw [hns'] at ha
      refine ⟨by rw [hsplit]; simp at ha ⊢; tauto, ?_⟩
      intro e; subst e
      simp only [List.mem_append, List.mem_cons] at ha
      rcases ha with h1 | h1 | h1
      · exact hr_notin (List.mem_append_left _ h1)
      · exact hlr_ne h1.symm
      · exact hr_notin (List.mem_append_right _ (List.mem_cons.mpr h1))
    have hin : v ∈ ps.map s.val := by
      rw [hps]; exact List.mem_map.mpr ⟨right', by simp, heq⟩
    have htail_ne : l.tail ≠ left' := by
      intro e
      apply hl_notin
      apply List.mem_append_right
      rw [← e, hB2]; simp
    refine ⟨1, _, P1 ++ P2', rfl, ?_, rfl, fun _ => ⟨rfl, ?_⟩, fun hm => absurd hin hm⟩
    · refine ⟨?_, ?_, ?_, ?_, ?_, ?_, ?_, ?_, ?_, ?_⟩
      · -- linked
        rw [hns']
        dsimp only
        have hch := h.linked
        rw [hsplit, List.chain'_split, List.chain'_cons, List.chain'_cons] at hch
        rw [List.chain'_split, List.chain'_cons]
        refine ⟨?_, by simp, ?_⟩
        · apply chain_frame s.next _ A' left' hch.1
          intro x hx
          have hx1 : x ≠ left' := fun e => hl_notin (List.mem_append_left _ (e ▸ hx))
          have hx2 : x ≠ right' := fun e => hr_notin (List.mem_append_left _ (e ▸ hx))
          rw [upd_other _ _ _ _ hx1, upd_other _ _ _ _ hx2]
        · apply chain_frame_all s.next _ _ hch.2.2.2
          intro x hx
          have hx1 : x ≠ left' := fun e => hl_notin (List.mem_append_right _ (e ▸ hx))
          have hx2 : x ≠ right' := fun e => hr_notin (List.mem_append_right _ (e ▸ hx))
          rw [upd_other _ _ _ _ hx1, upd_other _ _ _ _ hx2]
      · dsimp only
        rw [upd_other _ _ _ _ htail_ne, upd_other _ _ _ _ (Ne.symm hrt)]; exact h.tail_next
      · exact fun a ha => h.nonnull a (hmem' a ha).1
      · exact fun a ha => h.aligned a (hmem' a ha).1
      · exact fun a ha => h.allocated a (hmem' a ha).1
      · exact h.head_val
      · exact h.tail_val
      · dsimp only
        have e1 : nodes l (P1 ++ P2') = (l.head :: P1) ++ (P2' ++ [l.tail]) := by simp [nodes]
        have e2 : nodes l ps = (l.head :: P1) ++ right' :: (P2' ++ [l.tail]) := by
          rw [hps]; simp [nodes]
        rw [e1, List.map_append]
        have := h.sorted
        rw [e2, List.map_append, List.map_cons] at this
        exact sorted_remove _ _ _ this
      · intro p hp
        exact h.cells p (by rw [hps]; simp at hp ⊢; tauto)
      · exact ⟨h.pool.entries, h.pool.used, h.pool.blocks, h.pool.disjoint, h.pool.memptr_le,
          h.pool.reserve⟩
    · dsimp only
      rw [hps, List.map_append, List.map_append, List.map_cons, heq]
      exact (erase_split v _ _ hP1notin).symm
  · -- not there
    have hrv' : v < s.val right' := lt_of_le_of_ne hrv (Ne.symm heq)
    simp only [heq, ne_eq, not_false_eq_true, if_true]
    have hnot : v ∉ ps.map s.val := by
      intro hm
      obtain ⟨a, ha, hav⟩ := List.mem_map.mp hm
      rw [hps] at ha
      rcases List.mem_append.mp ha with h1 | h1
      · have := hP1v a h1; omega
      · have h2 : a ∈ right' :: B := by rw [hP2]; simp [h1]
        rcases List.mem_cons.mp h2 with e | e
        · subst e; exact heq hav
        · have := hB a e; omega
    exact ⟨0, s, ps, rfl, h, rfl, fun hm => absurd hm hnot, fun _ => ⟨rfl, rfl, rfl⟩⟩

/-- What `list_contains` does on a well-formed list. -/
theorem list_contains_lf_spec (s : State) (l : llist_t) (K : Nat) (ps : List Nat) (v : Int) (fuel : Nat)
    (h : WF s l K ps) (hv : INT_MIN < v) (hv' : v < INT_MAX) (hf : ps.length + 2 ≤ fuel) :
    ∃ r, list_contains fuel s l v = .ok (r, s) ∧
      (v ∈ ps.map s.val → r = 1) ∧ (v ∉ ps.map s.val → r = 0) := by
  obtain ⟨A', left', right', B, hrun, hsplit, hlv', hrv⟩ :=
    list_search_spec s l K ps v fuel none h hv (le_of_lt hv') hf
  obtain ⟨hA, hlr, hB⟩ := sorted_split s.val A' left' right' B (hsplit ▸ h.sorted)
  unfold list_contains
  rw [hrun]
  simp only [Res.bind_ok]
  refine ⟨_, rfl, ?_, ?_⟩
  · intro hm
    obtain ⟨a, ha, hav⟩ := List.mem_map.mp hm
    have ha_in : a ∈ nodes l ps := by simp [nodes, ha]
    rw [hsplit] at ha_in
    simp only [List.mem_append, List.mem_cons] at ha_in
    have : s.val right' = v := by
      rcases ha_in with e | e | e | e
      · have := hA a e; omega
      · rw [e] at hav; omega
      · rw [← e]; exact hav
      · have := hB a e; omega
    simp [this]
  · intro hnot
    have : s.val right' ≠ v := by
      intro heq
      apply hnot
      have hr_in : right' ∈ nodes l ps := by rw [hsplit]; simp
      simp only [nodes, List.mem_cons, List.mem_append, List.mem_singleton, List.not_mem_nil,
        or_false] at hr_in
      rcases hr_in with e | e | e
      · rw [e, h.head_val] at heq; omega
      · exact List.mem_map.mpr ⟨right', e, heq⟩
      · rw [e, h.tail_val] at heq; omega
    simp [this]

/-- The loop of `list_size` counts the nodes up to the tail. -/
theorem size_loop_lf_spec (s : State) (l : llist_t) : ∀ (ps : List Nat) (i : Nat) (n : Int) (fuel : Nat),
    List.Chain' (fun a b => s.next a = b) (ps ++ [l.tail]) →
    (ps ++ [l.tail]).head? = some i →
    (∀ a ∈ ps, a ≠ l.tail ∧ a ≠ 0 ∧ s.next a % 2 = 0 ∧ s.next a < 2 ^ 64) →
    ps.length + 1 ≤ fuel →
    size_loop s l fuel i n = .ok (n + ps.length) := by
  intro ps
  induction ps with
  | nil =>
    intro i n fuel _ hi _ hf
    obtain ⟨f, rfl⟩ : ∃ f, fuel = f + 1 := ⟨fuel - 1, by simp at hf; omega⟩
    simp at hi; subst hi
    simp [size_loop]
  | cons p ps ih =>
    intro i n fuel hch hi hne hf
    obtain ⟨f, rfl⟩ : ∃ f, fuel = f + 1 := ⟨fuel - 1, by simp at hf; omega⟩
    simp at hi; subst hi
    obtain ⟨h1, h2, h3, h4⟩ := hne p (by simp)
    obtain ⟨q, hq⟩ : ∃ q, (ps ++ [l.tail]).head? = some q := by
      cases ps with
      | nil => exact ⟨l.tail, rfl⟩
      | cons a ps => exact ⟨a, rfl⟩
    have hnx : s.next p = q := by
      cases ps with
      | nil =>
        simp at hq; subst hq
        simpa using hch
      | cons a ps =>
        simp at hq; subst hq
        simp only [List.cons_append, List.chain'_cons] at hch
        exact hch.1
    have hch' : List.Chain' (fun a b => s.next a = b) (ps ++ [l.tail]) := by
      rw [List.cons_append] at hch
      exact hch.tail
    have hun : get_unmarked_ref (s.next p) = q := by
      rw [get_unmarked_even _ h3 h4, hnx]
    rw [size_loop]
    simp only [h1, h2, ne_eq, not_false_eq_true, if_true, if_false, hun]
    rw [ih q (n + 1) f hch' hq (fun a ha => hne a (by simp [ha])) (by simp at hf ⊢; omega)]
    simp only [List.length_cons, Nat.cast_add, Nat.cast_one]
    congr 1
    ring

/-- What `list_size` does on a well-formed list. -/
theorem list_size_lf_spec (s : State) (l : llist_t) (K : Nat) (ps : List Nat) (fuel : Nat)
    (h : WF s l K ps) (hf : ps.length + 1 ≤ fuel) :
    list_size fuel s l = .ok ((ps.length : Int), s) := by
  have hh0 : l.head ≠ 0 := h.nonnull _ (by simp [nodes])
  have hnd : (nodes l ps).Nodup := nodup_of_sorted s.val _ h.sorted
  have hfacts := h.node_facts
  obtain ⟨q, hq⟩ : ∃ q, (ps ++ [l.tail]).head? = some q := by
    cases ps with
    | nil => exact ⟨l.tail, rfl⟩
    | cons a ps => exact ⟨a, rfl⟩
  have hch := h.linked
  have hnx : s.next l.head = q := by
    unfold nodes at hch
    cases ps with
    | nil =>
      simp at hq; subst hq
      simpa using hch
    | cons a ps =>
      simp at hq; subst hq
      simp only [List.cons_append, List.chain'_cons] at hch
      exact hch.1
  have hne : ∀ a ∈ ps, a ≠ l.tail ∧ a ≠ 0 ∧ s.next a % 2 = 0 ∧ s.next a < 2 ^ 64 := by
    intro a ha
    have ha' : a ∈ nodes l ps := by simp [nodes, ha]
    obtain ⟨f1, _, f3⟩ := hfacts a ha'
    refine ⟨?_, f1, f3, ?_⟩
    · intro e
      unfold nodes at hnd
      rw [List.nodup_cons, List.nodup_append] at hnd
      exact hnd.2.2.2 ha (by simp [e])
    · -- the next word of an inner node is the address of a node
      obtain ⟨X, Y, hXY⟩ := List.append_of_mem ha
      have e1 : nodes l ps = (l.head :: X) ++ a :: (Y ++ [l.tail]) := by
        simp [nodes, hXY]
      obtain ⟨y, Y', hY⟩ : ∃ y Y', Y ++ [l.tail] = y :: Y' := by
        cases Y with
        | nil => exact ⟨l.tail, [], rfl⟩
        | cons y Y => exact ⟨y, Y ++ [l.tail], rfl⟩
      rw [hY] at e1
      have : s.next a = y := chain_mid (l.head :: X) a y Y' (e1 ▸ h.linked)
      rw [this]
      exact (hfacts y (by rw [e1]; simp)).2.1
  unfold list_size
  simp only [hh0, if_false, hnx]
  rw [size_loop_lf_spec s l ps q 0 fuel (List.Chain'.tail hch) hq hne hf]
  simp

end LockFree

end LinkedList


namespace LinkedList

namespace Lock

/-- The list built by `list_new` is well-formed and empty. -/
theorem list_new_wf (s0 : State) (_h0 : 0 < s0.brk) :
    WF (list_new s0).2 (list_new s0).1 [] := by
  have e1 : (list_new s0).1.tail = ((s0.brk + 15) / 16 * 16 + 16 + 15) / 16 * 16 := rfl
  have e2 : (list_new s0).1.head
      = (((s0.brk + 15) / 16 * 16 + 16 + 15) / 16 * 16 + 24 + 15) / 16 * 16 := rfl
  have e3 : (list_new s0).2.brk = (list_new s0).1.head + 24 := rfl
  have e4 : (list_new s0).2.next
      = upd (upd s0.next (list_new s0).1.tail 0) (list_new s0).1.head (list_new s0).1.tail := rfl
  have e5 : (list_new s0).2.val
      = upd (upd s0.val (list_new s0).1.tail INT_MAX) (list_new s0).1.head INT_MIN := rfl
  have e6 : (list_new s0).2.lock_head
      = upd (upd s0.lock_head (list_new s0).1.tail 1) (list_new s0).1.head 1 := rfl
  have e7 : (list_new s0).2.lock_tail
      = upd (upd s0.lock_tail (list_new s0).1.tail 0) (list_new s0).1.head 0 := rfl
  generalize (list_new s0).1 = l at *
  generalize (list_new s0).2 = s at *
  have hne : l.tail ≠ l.head := by omega
  have hh0 : l.head ≠ 0 := by omega
  have ht0 : l.tail ≠ 0 := by omega
  have hvh : s.val l.head = INT_MIN := by rw [e5, upd_same]
  have hvt : s.val l.tail = INT_MAX := by rw [e5, upd_other _ _ _ _ hne, upd_same]
  refine ⟨?_, ?_, ?_, ?_, hvh, hvt, ?_, ?_⟩
  · simp only [nodes, List.nil_append, List.chain'_cons, List.chain'_singleton, and_true]
    rw [e4, upd_same]
  · rw [e4, upd_other _ _ _ _ hne, upd_same]
  · intro a ha
    simp only [nodes, List.nil_append, List.mem_cons, List.mem_singleton, List.not_mem_nil,
      or_false] at ha
    rcases ha with e | e <;> rw [e] <;> assumption
  · intro a ha
    simp only [nodes, List.nil_append, List.mem_cons, List.mem_singleton, List.not_mem_nil,
      or_false] at ha
    rcases ha with e | e <;> rw [e] <;> omega
  · simp only [nodes, List.nil_append, List.map_cons, List.map_nil, hvh, hvt]
    simp [List.Sorted, INT_MIN, INT_MAX]
  · intro a ha
    simp only [nodes, List.nil_append, List.mem_cons, List.mem_singleton, List.not_mem_nil,
      or_false] at ha
    unfold lock_free_at
    rcases ha with e | e
    · rw [e, e6, e7, upd_same, upd_same]; rfl
    · rw [e, e6, e7, upd_other _ _ _ _ hne, upd_other _ _ _ _ hne, upd_same, upd_same]; rfl

end Lock

namespace LockFree

/-- The list built by `list_new` is well-formed and empty, and its pool is in
order up to entry `K` when the entries 1 to `K - 1` of the block table hold
`NULL` in the memory `malloc` hands back. -/
theorem list_new_lf_wf (s0 : State) (K : Nat) (h0 : 0 < s0.brk) (h63 : s0.brk ≤ 2 ^ 63)
    (hK1 : 1 ≤ K) (hK : K ≤ mem_entries) (hz : ∀ i, 1 ≤ i → i < K → s0.mem i = 0) :
    WF (list_new s0).2 (list_new s0).1 K [] := by
  have e1 : (list_new s0).1.tail = ((s0.brk + 15) / 16 * 16 + 16 + 15) / 16 * 16 := rfl
  have e2 : (list_new s0).1.head
      = (((s0.brk + 15) / 16 * 16 + 16 + 15) / 16 * 16 + 16 + 15) / 16 * 16 := rfl
  have e3 : (list_new s0).2.brk
      = (((list_new s0).1.head + 16 + 15) / 16 * 16 + 8000 + 15) / 16 * 16 + 16000000 := rfl
  have e4 : (list_new s0).2.next
      = upd (upd s0.next (list_new s0).1.tail 0) (list_new s0).1.head (list_new s0).1.tail := rfl
  have e5 : (list_new s0).2.val
      = upd (upd s0.val (list_new s0).1.tail INT_MAX) (list_new s0).1.head INT_MIN := rfl
  have e6 : (list_new s0).2.mem
      = upd s0.mem 0 ((((list_new s0).1.head + 16 + 15) / 16 * 16 + 8000 + 15) / 16 * 16) := rfl
  have e7 : (list_new s0).2.memptr = 0 := rfl
  generalize (list_new s0).1 = l at *
  generalize (list_new s0).2 = s at *
  have hne : l.tail ≠ l.head := by omega
  have hh0 : l.head ≠ 0 := by omega
  have ht0 : l.tail ≠ 0 := by omega
  have hvh : s.val l.head = INT_MIN := by rw [e5, upd_same]
  have hvt : s.val l.tail = INT_MAX := by rw [e5, upd_other _ _ _ _ hne, upd_same]
  have hentv : mem_entries = 1000 := rfl
  have hbbv : block_bytes = 16000000 := rfl
  refine ⟨?_, ?_, ?_, ?_, ?_, hvh, hvt, ?_, ?_, ?_⟩
  · simp only [nodes, List.nil_append, List.chain'_cons, List.chain'_singleton, and_true]
    rw [e4, upd_same]
  · rw [e4, upd_other _ _ _ _ hne, upd_same]
  · intro a ha
    simp only [nodes, List.nil_append, List.mem_cons, List.mem_singleton, List.not_mem_nil,
      or_false] at ha
    rcases ha with e | e <;> rw [e] <;> assumption
  · intro a ha
    simp only [nodes, List.nil_append, List.mem_cons, List.mem_singleton, List.not_mem_nil,
      or_false] at ha
    rcases ha with e | e <;> rw [e] <;> omega
  · intro a ha
    simp only [nodes, List.nil_append, List.mem_cons, List.mem_singleton, List.not_mem_nil,
      or_false] at ha
    rcases ha with e | e <;> rw [e] <;> omega
  · simp only [nodes, List.nil_append, List.map_cons, List.map_nil, hvh, hvt]
    simp [List.Sorted, INT_MIN, INT_MAX]
  · intro p hp; simp at hp
  · refine ⟨hK, ?_, ?_, ?_, ?_, ?_⟩
    · intro idx hidx; rw [e7] at hidx; omega
    · intro b hb hnz
      by_cases e : b = 0
      · subst e
        rw [e6, upd_same, hbbv]
        refine ⟨by omega, by omega, Or.inl (by omega), Or.inl (by omega)⟩
      · rw [e6, upd_other _ _ _ _ e] at hnz
        exact absurd (hz b (by omega) hb) hnz
    · intro b b' hb hb' hbb hnz hnz'
      exfalso
      by_cases e : b = 0
      · have e' : b' ≠ 0 := fun x => hbb (by rw [e, x])
        rw [e6, upd_other _ _ _ _ e'] at hnz'
        exact hnz' (hz b' (by omega) hb')
      · rw [e6, upd_other _ _ _ _ e] at hnz
        exact hnz (hz b (by omega) hb)
    · rw [e7]; omega
    · rw [e7, hbbv]
      simp only [MEM_BLOCK_SIZE]
      rw [hentv] at hK
      have : (16000000 + 16) * (K * 1000000 - 0) ≤ (16000000 + 16) * (1000 * 1000000) :=
        Nat.mul_le_mul_left _ (by omega)
      omega

end LockFree

end LinkedList


namespace LinkedList

theorem abs_step_length (vs : List Int) (op : Op) :
    (abs_step vs op).2.length ≤ vs.length + 1 := by
  cases op with
  | add v =>
    by_cases hm : v ∈ vs
    · simp [abs_step, hm]
    · simp [abs_step, hm, List.orderedInsert_length]
  | remove v =>
    by_cases hm : v ∈ vs
    · simp only [abs_step, hm, if_true]
      have := List.length_erase_of_mem hm
      omega
    · simp [abs_step, hm]
  | contains v => simp [abs_step]
  | size => simp [abs_step]

theorem abs_run_length (vs : List Int) (ops : List Op) :
    (abs_run vs ops).1.length = ops.length := by
  induction ops generalizing vs with
  | nil => simp [abs_run]
  | cons op ops ih => simp [abs_run, ih]

namespace Lock

/-- One call on a well-formed list does what the sorted-set reading says. -/
theorem step_spec (s : State) (l : llist_t) (vs : List Int) (op : Op) (fuel : Nat)
    (h : Repr s l vs) (hr : op.in_range) (hf : vs.length + 2 ≤ fuel) :
    ∃ s', step fuel s l op = .ok ((abs_step vs op).1, s') ∧ Repr s' l (abs_step vs op).2 := by
  obtain ⟨ps, hwf, rfl⟩ := h
  have hlen : ps.length + 1 ≤ fuel := by simp at hf; omega
  cases op with
  | add v =>
    obtain ⟨r, s', ps', hrun, hwf', hin, hnot⟩ := list_add_spec s l ps v fuel hwf hr.1 hr.2 hlen
    by_cases hm : v ∈ ps.map s.val
    · obtain ⟨rfl, e⟩ := hin hm
      exact ⟨s', by simp only [step, abs_step, hm, if_true]; exact hrun,
        by simp only [abs_step, hm, if_true]; exact ⟨ps', hwf', e⟩⟩
    · obtain ⟨rfl, e⟩ := hnot hm
      exact ⟨s', by simp only [step, abs_step, hm, if_false]; exact hrun,
        by simp only [abs_step, hm, if_false]; exact ⟨ps', hwf', e⟩⟩
  | remove v =>
    obtain ⟨r, s', ps', hrun, hwf', hin, hnot⟩ := list_remove_spec s l ps v fuel hwf hr.2 hlen
    by_cases hm : v ∈ ps.map s.val
    · obtain ⟨rfl, e⟩ := hin hm
      exact ⟨s', by simp only [step, abs_step, hm, if_true]; exact hrun,
        by simp only [abs_step, hm, if_true]; exact ⟨ps', hwf', e⟩⟩
    · obtain ⟨rfl, e⟩ := hnot hm
      exact ⟨s', by simp only [step, abs_step, hm, if_false]; exact hrun,
        by simp only [abs_step, hm, if_false]; exact ⟨ps', hwf', e⟩⟩
  | contains v =>
    obtain ⟨r, hrun, hin, hnot⟩ := list_contains_spec s l ps v fuel hwf hr.2 hlen
    refine ⟨s, ?_, ⟨ps, hwf, rfl⟩⟩
    by_cases hm : v ∈ ps.map s.val
    · rw [hin hm] at hrun; simp only [step, abs_step, hm, if_true]; exact hrun
    · rw [hnot hm] at hrun; simp only [step, abs_step, hm, if_false]; exact hrun
  | size =>
    refine ⟨s, ?_, ⟨ps, hwf, rfl⟩⟩
    simp only [step, abs_step, List.length_map]
    exact list_size_spec s l ps fuel hwf hlen

end Lock

namespace LockFree

/-- One call on a well-formed list whose pool is not exhausted does what the
sorted-set reading says, and takes at most one cell of the pool. -/
theorem step_lf_spec (s : State) (l : llist_t) (K : Nat) (vs : List Int) (op : Op) (fuel : Nat)
    (h : Repr s l K vs) (hr : op.in_range) (hcap : s.memptr < K * MEM_BLOCK_SIZE)
    (hf : vs.length + 2 ≤ fuel) :
    ∃ s', step fuel s l op = .ok ((abs_step vs op).1, s') ∧ Repr s' l K (abs_step vs op).2 ∧
      s'.memptr ≤ s.memptr + 1 := by
  obtain ⟨ps, hwf, rfl⟩ := h
  have hlen : ps.length + 2 ≤ fuel := by simpa using hf
  cases op with
  | add v =>
    obtain ⟨r, s', ps', hrun, hwf', hin, hnot⟩ :=
      list_add_lf_spec s l K ps v fuel hwf hr.1 hr.2 (fun _ => hcap) hlen
    by_cases hm : v ∈ ps.map s.val
    · obtain ⟨rfl, rfl, rfl⟩ := hin hm
      exact ⟨s', by simp only [step, abs_step, hm, if_true]; exact hrun,
        by simp only [abs_step, hm, if_true]; exact ⟨ps', hwf', rfl⟩, by omega⟩
    · obtain ⟨rfl, e1, e⟩ := hnot hm
      exact ⟨s', by simp only [step, abs_step, hm, if_false]; exact hrun,
        by simp only [abs_step, hm, if_false]; exact ⟨ps', hwf', e⟩, by omega⟩
  | remove v =>
    obtain ⟨r, s', ps', hrun, hwf', hmp, hin, hnot⟩ :=
      list_remove_lf_spec s l K ps v fuel hwf hr.1 hr.2 hlen
    by_cases hm : v ∈ ps.map s.val
    · obtain ⟨rfl, e⟩ := hin hm
      exact ⟨s', by simp only [step, abs_step, hm, if_true]; exact hrun,
        by simp only [abs_step, hm, if_true]; exact ⟨ps', hwf', e⟩, by omega⟩
    · obtain ⟨rfl, rfl, rfl⟩ := hnot hm
      exact ⟨s', by simp only [step, abs_step, hm, if_false]; exact hrun,
        by simp only [abs_step, hm, if_false]; exact ⟨ps', hwf', rfl⟩, by omega⟩
  | contains v =>
    obtain ⟨r, hrun, hin, hnot⟩ := list_contains_lf_spec s l K ps v fuel hwf hr.1 hr.2 hlen
    refine ⟨s, ?_, ⟨ps, hwf, rfl⟩, by omega⟩
    by_cases hm : v ∈ ps.map s.val
    · rw [hin hm] at hrun; simp only [step, abs_step, hm, if_true]; exact hrun
    · rw [hnot hm] at hrun; simp only [step, abs_step, hm, if_false]; exact hrun
  | size =>
    refine ⟨s, ?_, ⟨ps, hwf, rfl⟩, by omega⟩
    simp only [step, abs_step, List.length_map]
    exact list_size_lf_spec s l K ps fuel hwf (by omega)

/-- A sequence of calls on a well-formed list does what the sorted-set reading
says, call after call, as long as the pool has a cell for every call. -/
theorem run_lf_spec (l : llist_t) (K : Nat) (fuel : Nat) :
    ∀ (ops : List Op) (s : State) (vs : List Int),
    Repr s l K vs → (∀ op ∈ ops, op.in_range) → s.memptr + ops.length ≤ K * MEM_BLOCK_SIZE →
    vs.length + ops.length + 2 ≤ fuel →
    ∃ s', run fuel l s ops = .ok ((abs_run vs ops).1, s') ∧ Repr s' l K (abs_run vs ops).2 := by
  intro ops
  induction ops with
  | nil => intro s vs h _ _ _; exact ⟨s, rfl, h⟩
  | cons op ops ih =>
    intro s vs h hr hcap hf
    obtain ⟨s1, hstep, hrep, hmp⟩ := step_lf_spec s l K vs op fuel h (hr op (by simp))
      (by simp at hcap; omega) (by simp at hf; omega)
    obtain ⟨s2, hrun, hrep2⟩ := ih s1 _ hrep (fun o ho => hr o (by simp [ho]))
      (by simp at hcap; omega)
      (by have := abs_step_length vs op; simp at hf; omega)
    refine ⟨s2, ?_, hrep2⟩
    simp only [run, hstep, Res.bind_ok, hrun, abs_run]

end LockFree

end LinkedList


namespace LinkedList

/-- In a well-formed chain every node but the last is linked to a node of
greater value. -/
theorem chain_step_lt (nx : Nat → Nat) (val : Nat → Int) (xs : List Nat) (t a : Nat)
    (hch : List.Chain' (fun a b => nx a = b) (xs ++ [t]))
    (hs : List.Sorted (fun x y => x < y) ((xs ++ [t]).map val))
    (ha : a ∈ xs ++ [t]) (hat : a ≠ t) : val a < val (nx a) := by
  have ha' : a ∈ xs := by
    rcases List.mem_append.mp ha with h | h
    · exact h
    · simp at h; exact absurd h hat
  obtain ⟨X, Y, hXY⟩ := List.append_of_mem ha'
  obtain ⟨y, Y', hY⟩ : ∃ y Y', Y ++ [t] = y :: Y' := by
    cases Y with
    | nil => exact ⟨t, [], rfl⟩
    | cons y Y => exact ⟨y, Y ++ [t], rfl⟩
  have e1 : xs ++ [t] = X ++ a :: y :: Y' := by
    rw [hXY, List.append_assoc, List.cons_append, hY]
  rw [e1] at hch hs
  rw [chain_mid X a y Y' hch]
  exact (sorted_split val X a y Y' hs).2.1

namespace Lock

theorem chain_from_spec (s : State) (t : Nat) (ht : s.next t = 0) :
    ∀ (xs : List Nat) (i : Nat) (fuel : Nat),
    (xs ++ [t]).head? = some i →
    List.Chain' (fun a b => s.next a = b) (xs ++ [t]) →
    (∀ a ∈ xs ++ [t], a ≠ 0) → xs.length + 2 ≤ fuel →
    chain_from s fuel i = .ok ((xs ++ [t]).map s.val) := by
  intro xs
  induction xs with
  | nil =>
    intro i fuel hi _ hnn hf
    obtain ⟨f, rfl⟩ : ∃ f, fuel = f + 2 := ⟨fuel - 2, by simp at hf; omega⟩
    simp at hi; subst hi
    have := hnn t (by simp)
    simp [chain_from, this, ht]
  | cons p xs ih =>
    intro i fuel hi hch hnn hf
    obtain ⟨f, rfl⟩ : ∃ f, fuel = f + 1 := ⟨fuel - 1, by simp at hf; omega⟩
    simp at hi; subst hi
    have hp0 := hnn p (by simp)
    obtain ⟨q, hq⟩ : ∃ q, (xs ++ [t]).head? = some q := by
      cases xs with
      | nil => exact ⟨t, rfl⟩
      | cons a xs => exact ⟨a, rfl⟩
    have hnx : s.next p = q := by
      cases xs with
      | nil =>
        simp at hq; subst hq
        simpa using hch
      | cons a xs =>
        simp at hq; subst hq
        simp only [List.cons_append, List.chain'_cons] at hch
        exact hch.1
    have hch' : List.Chain' (fun a b => s.next a = b) (xs ++ [t]) := by
      rw [List.cons_append] at hch
      exact hch.tail
    rw [chain_from]
    simp only [hp0, if_false, hnx]
    rw [ih q f hq hch' (fun a ha => hnn a (by simp at ha ⊢; tauto)) (by simp at hf ⊢; omega)]
    simp

/-- Walking a well-formed list from its head yields `INT_MIN`, the values
between the sentinels, and `INT_MAX`. -/
theorem Repr.chain {s : State} {l : llist_t} {vs : List Int} (h : Repr s l vs) (fuel : Nat)
    (hf : vs.length + 3 ≤ fuel) :
    chain_from s fuel l.head = .ok (INT_MIN :: (vs ++ [INT_MAX])) := by
  obtain ⟨ps, hwf, rfl⟩ := h
  have e1 : nodes l ps = (l.head :: ps) ++ [l.tail] := by simp [nodes]
  have := chain_from_spec s l.tail hwf.tail_next (l.head :: ps) l.head fuel (by simp)
    (e1 ▸ hwf.linked) (e1 ▸ hwf.nonnull) (by simp at hf ⊢; omega)
  rw [this]
  simp [hwf.head_val, hwf.tail_val]

/-- The values between the sentinels are determined by the memory. -/
theorem Repr.unique {s : State} {l : llist_t} {vs ws : List Int} (h1 : Repr s l vs)
    (h2 : Repr s l ws) : vs = ws := by
  have e1 := h1.chain (vs.length + ws.length + 3) (by omega)
  have e2 := h2.chain (vs.length + ws.length + 3) (by omega)
  rw [e1] at e2
  simp only [Res.ok.injEq, List.cons.injEq, true_and] at e2
  exact List.append_cancel_right e2

theorem delete_loop_second (i : Nat) (hi : i ≠ 0) (fuel : Nat) :
    delete_loop i (fuel + 2) i [] = .fault := by
  simp [delete_loop, free, hi]

end Lock

namespace LockFree

theorem chain_from_lf_spec (s : State) (t : Nat) (ht : s.next t = 0) :
    ∀ (xs : List Nat) (i : Nat) (fuel : Nat),
    (xs ++ [t]).head? = some i →
    List.Chain' (fun a b => s.next a = b) (xs ++ [t]) →
    (∀ a ∈ xs ++ [t], a ≠ 0 ∧ a < 2 ^ 64 ∧ s.next a % 2 = 0) → xs.length + 2 ≤ fuel →
    chain_from s fuel i = .ok ((xs ++ [t]).map s.val) := by
  intro xs
  induction xs with
  | nil =>
    intro i fuel hi _ hnn hf
    obtain ⟨f, rfl⟩ : ∃ f, fuel = f + 2 := ⟨fuel - 2, by simp at hf; omega⟩
    simp at hi; subst hi
    have := (hnn t (by simp)).1
    have hun : get_unmarked_ref (s.next t) = 0 := by rw [ht]; rfl
    simp [chain_from, this, hun]
  | cons p xs ih =>
    intro i fuel hi hch hnn hf
    obtain ⟨f, rfl⟩ : ∃ f, fuel = f + 1 := ⟨fuel - 1, by simp at hf; omega⟩
    simp at hi; subst hi
    obtain ⟨hp0, _, hpm⟩ := hnn p (by simp)
    obtain ⟨q, hq⟩ : ∃ q, (xs ++ [t]).head? = some q := by
      cases xs with
      | nil => exact ⟨t, rfl⟩
      | cons a xs => exact ⟨a, rfl⟩
    have hq_in : q ∈ xs ++ [t] := by
      cases xs with
      | nil => simp at hq; subst hq; simp
      | cons a xs => simp at hq; subst hq; simp
    have hnx : s.next p = q := by
      cases xs with
      | nil =>
        simp at hq; subst hq
        simpa using hch
      | cons a xs =>
        simp at hq; subst hq
        simp only [List.cons_append, List.chain'_cons] at hch
        exact hch.1
    have hch' : List.Chain' (fun a b => s.next a = b) (xs ++ [t]) := by
      rw [List.cons_append] at hch
      exact hch.tail
    have hq64 : q < 2 ^ 64 := (hnn q (by simp at hq_in ⊢; tauto)).2.1
    have hun : get_unmarked_ref (s.next p) = q := by
      rw [get_unmarked_even _ hpm (by rw [hnx]; exact hq64), hnx]
    rw [chain_from]
    simp only [hp0, if_false, hun]
    rw [ih q f hq hch' (fun a ha => hnn a (by simp at ha ⊢; tauto)) (by simp at hf ⊢; omega)]
    simp

/-- Walking a well-formed list from its head yields `INT_MIN`, the values
between the sentinels, and `INT_MAX`. -/
theorem Repr.chain_lf {s : State} {l : llist_t} {K : Nat} {vs : List Int} (h : Repr s l K vs)
    (fuel : Nat) (hf : vs.length + 3 ≤ fuel) :
    chain_from s fuel l.head = .ok (INT_MIN :: (vs ++ [INT_MAX])) := by
  obtain ⟨ps, hwf, rfl⟩ := h
  have e1 : nodes l ps = (l.head :: ps) ++ [l.tail] := by simp [nodes]
  have := chain_from_lf_spec s l.tail hwf.tail_next (l.head :: ps) l.head fuel (by simp)
    (e1 ▸ hwf.linked) (e1 ▸ hwf.node_facts) (by simp at hf ⊢; omega)
  rw [this]
  simp [hwf.head_val, hwf.tail_val]

/-- The values between the sentinels are determined by the memory. -/
theorem Repr.unique_lf {s : State} {l : llist_t} {K : Nat} {vs ws : List Int}
    (h1 : Repr s l K vs) (h2 : Repr s l K ws) : vs = ws := by
  have e1 := h1.chain_lf (vs.length + ws.length + 3) (by omega)
  have e2 := h2.chain_lf (vs.length + ws.length + 3) (by omega)
  rw [e1] at e2
  simp only [Res.ok.injEq, List.cons.injEq, true_and] at e2
  exact List.append_cancel_right e2

end LockFree

end LinkedList


namespace LinkedList

namespace Lock

theorem WF.sorted_chain {s : State} {l : llist_t} {ps : List Nat} (h : WF s l ps) :
    SortedChain s l := by
  have e1 : nodes l ps = (l.head :: ps) ++ [l.tail] := by simp [nodes]
  refine ⟨ps, h.linked, h.tail_next, ?_, ?_⟩
  · intro a ha hat
    exact chain_step_lt s.next s.val (l.head :: ps) l.tail a (e1 ▸ h.linked) (e1 ▸ h.sorted)
      (e1 ▸ ha) hat
  · have := h.sorted
    unfold List.Sorted at this
    exact this.imp (fun {a b} hab => ne_of_lt hab)

theorem empty_repr : Repr empty_state empty_list [] :=
  ⟨[], list_new_wf init (by decide), rfl⟩

end Lock

namespace LockFree

theorem WF.unmarked_chain {s : State} {l : llist_t} {K : Nat} {ps : List Nat}
    (h : WF s l K ps) :
    List.Chain' (fun a b => get_unmarked_ref (s.next a) = b) (nodes l ps) := by
  have hfacts := h.node_facts
  have key : ∀ xs : List Nat, List.Chain' (fun a b => s.next a = b) xs →
      (∀ a ∈ xs, a < 2 ^ 64 ∧ s.next a % 2 = 0) →
      List.Chain' (fun a b => get_unmarked_ref (s.next a) = b) xs := by
    intro xs
    induction xs with
    | nil => intro _ _; simp
    | cons x xs ih =>
      intro hch hf
      cases xs with
      | nil => simp
      | cons y xs =>
        rw [List.chain'_cons] at hch ⊢
        refine ⟨?_, ih hch.2 (fun a ha => hf a (by simp at ha ⊢; tauto))⟩
        rw [get_unmarked_even _ (hf x (by simp)).2 (by rw [hch.1]; exact (hf y (by simp)).1)]
        exact hch.1
  exact key _ h.linked (fun a ha => (hfacts a ha).2)

theorem WF.sorted_chain_lf {s : State} {l : llist_t} {K : Nat} {ps : List Nat}
    (h : WF s l K ps) : SortedChain s l := by
  have e1 : nodes l ps = (l.head :: ps) ++ [l.tail] := by simp [nodes]
  refine ⟨ps, h.unmarked_chain, h.tail_next, ?_, ?_⟩
  · intro a ha hat
    exact chain_step_lt (fun a => get_unmarked_ref (s.next a)) s.val (l.head :: ps) l.tail a
      (e1 ▸ h.unmarked_chain) (e1 ▸ h.sorted) (e1 ▸ ha) hat
  · have := h.sorted
    unfold List.Sorted at this
    exact this.imp (fun {a b} hab => ne_of_lt hab)

theorem empty_lf_repr : Repr empty_state empty_list 1 [] :=
  ⟨[], list_new_lf_wf init 1 (by decide) (by decide) (le_refl 1) (by decide)
    (fun i h1 h2 => by omega), rfl⟩

end LockFree

end LinkedList


namespace LinkedList

/-! ## The claims -/

/-- C1: in each variant, run sequentially, on a well-formed list holding the
values `vs` (lock-based) or `ws` (lock-free) and for a key `v` with
`INT_MIN < v < INT_MAX`, `list_add` returns 1 or 0, it returns 1 exactly when `v`
was not in the list, after a 1 the values between the sentinels are the old
ones with `v` inserted, and after a 0 they are the old ones. (Memory permitting:
where the lock-free call has to take a cell, the pool has one left.) -/
theorem C1_list_add_contract
    (s : Lock.State) (l : Lock.llist_t) (vs : List Int)
    (t : LockFree.State) (m : LockFree.llist_t) (K : Nat) (ws : List Int)
    (v : Int) (fuel : Nat)
    (hs : Lock.Repr s l vs) (ht : LockFree.Repr t m K ws)
    (hroom : v ∉ ws → t.memptr < K * LockFree.MEM_BLOCK_SIZE)
    (hv : INT_MIN < v ∧ v < INT_MAX)
    (hf : vs.length + 2 ≤ fuel ∧ ws.length + 2 ≤ fuel) :
    (∃ r s', Lock.list_add fuel s l v = .ok (r, s') ∧ (r = 1 ∨ r = 0) ∧ (r = 1 ↔ v ∉ vs) ∧
        (r = 1 → Lock.Repr s' l (List.orderedInsert (fun x y => x ≤ y) v vs)) ∧
        (r = 0 → Lock.Repr s' l vs)) ∧
    (∃ r t', LockFree.list_add fuel t m v = .ok (r, t') ∧ (r = 1 ∨ r = 0) ∧ (r = 1 ↔ v ∉ ws) ∧
        (r = 1 → LockFree.Repr t' m K (List.orderedInsert (fun x y => x ≤ y) v ws)) ∧
        (r = 0 → LockFree.Repr t' m K ws)) := by
  constructor
  · obtain ⟨s', hrun, hrep⟩ := Lock.step_spec s l vs (.add v) fuel hs hv hf.1
    by_cases hm : v ∈ vs
    · simp only [abs_step, hm, if_true, Lock.step] at hrun hrep
      exact ⟨0, s', hrun, Or.inr rfl, by simp [hm], by simp, fun _ => hrep⟩
    · simp only [abs_step, hm, if_false, Lock.step] at hrun hrep
      exact ⟨1, s', hrun, Or.inl rfl, by simp [hm], fun _ => hrep, by simp⟩
  · obtain ⟨ps, hwf, rfl⟩ := ht
    obtain ⟨r, t', ps', hrun, hwf', hin, hnot⟩ :=
      LockFree.list_add_lf_spec t m K ps v fuel hwf hv.1 hv.2 hroom (by simpa using hf.2)
    by_cases hm : v ∈ ps.map t.val
    · obtain ⟨rfl, rfl, rfl⟩ := hin hm
      exact ⟨0, t', hrun, Or.inr rfl, by simp [hm], by simp, fun _ => ⟨ps', hwf', rfl⟩⟩
    · obtain ⟨rfl, _, e⟩ := hnot hm
      exact ⟨1, t', hrun, Or.inl rfl, by simp [hm], fun _ => ⟨ps', hwf', e⟩, by simp⟩

/-- Adding 5 to the empty list, in both variants. -/
theorem C1_list_add_contract_witness :
    (∃ r s', Lock.list_add 2 Lock.empty_state Lock.empty_list 5 = .ok (r, s') ∧
        (r = 1 ∨ r = 0) ∧ (r = 1 ↔ (5 : Int) ∉ ([] : List Int)) ∧
        (r = 1 → Lock.Repr s' Lock.empty_list (List.orderedInsert (fun x y => x ≤ y) 5 [])) ∧
        (r = 0 → Lock.Repr s' Lock.empty_list [])) ∧
    (∃ r t', LockFree.list_add 2 LockFree.empty_state LockFree.empty_list 5 = .ok (r, t') ∧
        (r = 1 ∨ r = 0) ∧ (r = 1 ↔ (5 : Int) ∉ ([] : List Int)) ∧
        (r = 1 → LockFree.Repr t' LockFree.empty_list 1
          (List.orderedInsert (fun x y => x ≤ y) 5 [])) ∧
        (r = 0 → LockFree.Repr t' LockFree.empty_list 1 [])) :=
  C1_list_add_contract Lock.empty_state Lock.empty_list [] LockFree.empty_state
    LockFree.empty_list 1 [] 5 2 Lock.empty_repr LockFree.empty_lf_repr (fun _ => by decide)
    (by decide) (by decide)

/-- C2: in each variant, run sequentially, on a well-formed list holding the
values `vs` (lock-based) or `ws` (lock-free) and for a key `v` with
`INT_MIN < v < INT_MAX`, `list_remove` returns 1 or 0, it returns 1 exactly when
`v` was in the list, after a 1 the values between the sentinels are the old ones
without `v`, and after a 0 they are the old ones. -/
theorem C2_list_remove_contract
    (s : Lock.State) (l : Lock.llist_t) (vs : List Int)
    (t : LockFree.State) (m : LockFree.llist_t) (K : Nat) (ws : List Int)
    (v : Int) (fuel : Nat)
    (hs : Lock.Repr s l vs) (ht : LockFree.Repr t m K ws)
    (hv : INT_MIN < v ∧ v < INT_MAX)
    (hf : vs.length + 2 ≤ fuel ∧ ws.length + 2 ≤ fuel) :
    (∃ r s', Lock.list_remove fuel s l v = .ok (r, s') ∧ (r = 1 ∨ r = 0) ∧ (r = 1 ↔ v ∈ vs) ∧
        (r = 1 → Lock.Repr s' l (vs.erase v)) ∧ (r = 0 → Lock.Repr s' l vs)) ∧
    (∃ r t', LockFree.list_remove fuel t m v = .ok (r, t') ∧ (r = 1 ∨ r = 0) ∧
        (r = 1 ↔ v ∈ ws) ∧
        (r = 1 → LockFree.Repr t' m K (ws.erase v)) ∧ (r = 0 → LockFree.Repr t' m K ws)) := by
  constructor
  · obtain ⟨s', hrun, hrep⟩ := Lock.step_spec s l vs (.remove v) fuel hs hv hf.1
    by_cases hm : v ∈ vs
    · simp only [abs_step, hm, if_true, Lock.step] at hrun hrep
      exact ⟨1, s', hrun, Or.inl rfl, by simp [hm], fun _ => hrep, by simp⟩
    · simp only [abs_step, hm, if_false, Lock.step] at hrun hrep
      exact ⟨0, s', hrun, Or.inr rfl, by simp [hm], by simp, fun _ => hrep⟩
  · obtain ⟨ps, hwf, rfl⟩ := ht
    obtain ⟨r, t', ps', hrun, hwf', _, hin, hnot⟩ :=
      LockFree.list_remove_lf_spec t m K ps v fuel hwf hv.1 hv.2 (by simpa using hf.2)
    by_cases hm : v ∈ ps.map t.val
    · obtain ⟨rfl, e⟩ := hin hm
      exact ⟨1, t', hrun, Or.inl rfl, by simp [hm], fun _ => ⟨ps', hwf', e⟩, by simp⟩
    · obtain ⟨rfl, rfl, rfl⟩ := hnot hm
      exact ⟨0, t', hrun, Or.inr rfl, by simp [hm], by simp, fun _ => ⟨ps', hwf', rfl⟩⟩

/-- Removing 5 from the empty list, in both variants. -/
theorem C2_list_remove_contract_witness :
    (∃ r s', Lock.list_remove 2 Lock.empty_state Lock.empty_list 5 = .ok (r, s') ∧
        (r = 1 ∨ r = 0) ∧ (r = 1 ↔ (5 : Int) ∈ ([] : List Int)) ∧
        (r = 1 → Lock.Repr s' Lock.empty_list (([] : List Int).erase 5)) ∧
        (r = 0 → Lock.Repr s' Lock.empty_list [])) ∧
    (∃ r t', LockFree.list_remove 2 LockFree.empty_state LockFree.empty_list 5 = .ok (r, t') ∧
        (r = 1 ∨ r = 0) ∧ (r = 1 ↔ (5 : Int) ∈ ([] : List Int)) ∧
        (r = 1 → LockFree.Repr t' LockFree.empty_list 1 (([] : List Int).erase 5)) ∧
        (r = 0 → LockFree.Repr t' LockFree.empty_list 1 [])) :=
  C2_list_remove_contract Lock.empty_state Lock.empty_list [] LockFree.empty_state
    LockFree.empty_list 1 [] 5 2 Lock.empty_repr LockFree.empty_lf_repr (by decide) (by decide)

/-- C3: in each variant, run sequentially, on a well-formed list holding the
values `vs` (lock-based) or `ws` (lock-free) and for a key `v` with
`INT_MIN < v < INT_MAX`, `list_contains` returns 1 if a node strictly between
head and tail carries `v` and 0 otherwise (and leaves memory as it was). -/
theorem C3_list_contains_contract
    (s : Lock.State) (l : Lock.llist_t) (vs : List Int)
    (t : LockFree.State) (m : LockFree.llist_t) (K : Nat) (ws : List Int)
    (v : Int) (fuel : Nat)
    (hs : Lock.Repr s l vs) (ht : LockFree.Repr t m K ws)
    (hv : INT_MIN < v ∧ v < INT_MAX)
    (hf : vs.length + 2 ≤ fuel ∧ ws.length + 2 ≤ fuel) :
    (∃ r, Lock.list_contains fuel s l v = .ok (r, s) ∧ (v ∈ vs → r = 1) ∧ (v ∉ vs → r = 0)) ∧
    (∃ r, LockFree.list_contains fuel t m v = .ok (r, t) ∧ (v ∈ ws → r = 1) ∧
        (v ∉ ws → r = 0)) := by
  constructor
  · obtain ⟨ps, hwf, rfl⟩ := hs
    exact Lock.list_contains_spec s l ps v fuel hwf hv.2 (by have := hf.1; simp at this; omega)
  · obtain ⟨ps, hwf, rfl⟩ := ht
    exact LockFree.list_contains_lf_spec t m K ps v fuel hwf hv.1 hv.2 (by simpa using hf.2)

/-- Looking for 5 in the empty list, in both variants. -/
theorem C3_list_contains_contract_witness :
    (∃ r, Lock.list_contains 2 Lock.empty_state Lock.empty_list 5 = .ok (r, Lock.empty_state) ∧
        ((5 : Int) ∈ ([] : List Int) → r = 1) ∧ ((5 : Int) ∉ ([] : List Int) → r = 0)) ∧
    (∃ r, LockFree.list_contains 2 LockFree.empty_state LockFree.empty_list 5
          = .ok (r, LockFree.empty_state) ∧
        ((5 : Int) ∈ ([] : List Int) → r = 1) ∧ ((5 : Int) ∉ ([] : List Int) → r = 0)) :=
  C3_list_contains_contract Lock.empty_state Lock.empty_list [] LockFree.empty_state
    LockFree.empty_list 1 [] 5 2 Lock.empty_repr LockFree.empty_lf_repr (by decide) (by decide)

end LinkedList


namespace LinkedList

/-- C5: sortedness is an invariant of `list_add` and `list_remove`: in each
variant, on a well-formed list and for a key `v` with `INT_MIN < v < INT_MAX`,
after either call every node `n` reachable from head other than tail has
`n.value < n.next.value` and no two reachable nodes carry the same value; and
add(3), add(1), add(2) on a new list gives the chain `INT_MIN, 1, 2, 3, INT_MAX`.
(Memory permitting: where the lock-free `list_add` has to take a cell, the pool
has one left.) -/
theorem C5_sortedness_invariant
    (s : Lock.State) (l : Lock.llist_t) (vs : List Int)
    (t : LockFree.State) (m : LockFree.llist_t) (K : Nat) (ws : List Int)
    (v : Int) (fuel : Nat)
    (hs : Lock.Repr s l vs) (ht : LockFree.Repr t m K ws)
    (hroom : v ∉ ws → t.memptr < K * LockFree.MEM_BLOCK_SIZE)
    (hv : INT_MIN < v ∧ v < INT_MAX)
    (hf : vs.length + 2 ≤ fuel ∧ ws.length + 2 ≤ fuel) :
    (∃ r s', Lock.list_add fuel s l v = .ok (r, s') ∧ Lock.SortedChain s' l) ∧
    (∃ r s', Lock.list_remove fuel s l v = .ok (r, s') ∧ Lock.SortedChain s' l) ∧
    (∃ r t', LockFree.list_add fuel t m v = .ok (r, t') ∧ LockFree.SortedChain t' m) ∧
    (∃ r t', LockFree.list_remove fuel t m v = .ok (r, t') ∧ LockFree.SortedChain t' m) ∧
    ((Lock.run 5 Lock.empty_list Lock.empty_state [.add 3, .add 1, .add 2]).bind
        fun p => Lock.chain_from p.2 6 Lock.empty_list.head)
      = .ok [INT_MIN, 1, 2, 3, INT_MAX] ∧
    ((LockFree.run 5 LockFree.empty_list LockFree.empty_state [.add 3, .add 1, .add 2]).bind
        fun p => LockFree.chain_from p.2 6 LockFree.empty_list.head)
      = .ok [INT_MIN, 1, 2, 3, INT_MAX] := by
  obtain ⟨ps, hwf, rfl⟩ := hs
  obtain ⟨qs, hwf2, rfl⟩ := ht
  have hf1 : ps.length + 1 ≤ fuel := by have := hf.1; simp at this; omega
  have hf2 : qs.length + 2 ≤ fuel := by simpa using hf.2
  refine ⟨?_, ?_, ?_, ?_, by decide, by decide⟩
  · obtain ⟨r, s', ps', hrun, hwf', _⟩ := Lock.list_add_spec s l ps v fuel hwf hv.1 hv.2 hf1
    exact ⟨r, s', hrun, hwf'.sorted_chain⟩
  · obtain ⟨r, s', ps', hrun, hwf', _⟩ := Lock.list_remove_spec s l ps v fuel hwf hv.2 hf1
    exact ⟨r, s', hrun, hwf'.sorted_chain⟩
  · obtain ⟨r, t', ps', hrun, hwf', _⟩ :=
      LockFree.list_add_lf_spec t m K qs v fuel hwf2 hv.1 hv.2 hroom hf2
    exact ⟨r, t', hrun, hwf'.sorted_chain_lf⟩
  · obtain ⟨r, t', ps', hrun, hwf', _⟩ :=
      LockFree.list_remove_lf_spec t m K qs v fuel hwf2 hv.1 hv.2 hf2
    exact ⟨r, t', hrun, hwf'.sorted_chain_lf⟩

/-- Adding or removing 5 on the empty list keeps the chain sorted. -/
theorem C5_sortedness_invariant_witness :
    (∃ r s', Lock.list_add 2 Lock.empty_state Lock.empty_list 5 = .ok (r, s') ∧
        Lock.SortedChain s' Lock.empty_list) ∧
    (∃ r s', Lock.list_remove 2 Lock.empty_state Lock.empty_list 5 = .ok (r, s') ∧
        Lock.SortedChain s' Lock.empty_list) ∧
    (∃ r t', LockFree.list_add 2 LockFree.empty_state LockFree.empty_list 5 = .ok (r, t') ∧
        LockFree.SortedChain t' LockFree.empty_list) ∧
    (∃ r t', LockFree.list_remove 2 LockFree.empty_state LockFree.empty_list 5 = .ok (r, t') ∧
        LockFree.SortedChain t' LockFree.empty_list) ∧
    ((Lock.run 5 Lock.empty_list Lock.empty_state [.add 3, .add 1, .add 2]).bind
        fun p => Lock.chain_from p.2 6 Lock.empty_list.head)
      = .ok [INT_MIN, 1, 2, 3, INT_MAX] ∧
    ((LockFree.run 5 LockFree.empty_list LockFree.empty_state [.add 3, .add 1, .add 2]).bind
        fun p => LockFree.chain_from p.2 6 LockFree.empty_list.head)
      = .ok [INT_MIN, 1, 2, 3, INT_MAX] :=
  C5_sortedness_invariant Lock.empty_state Lock.empty_list [] LockFree.empty_state
    LockFree.empty_list 1 [] 5 2 Lock.empty_repr LockFree.empty_lf_repr (fun _ => by decide)
    (by decide) (by decide)

/-- C7, as stated, fails: on the empty list `list_remove(l, INT_MAX)` returns 1
in both variants (the tail carries `INT_MAX`); a key above `INT_MAX` walks past
the tail (lock-based: a lock taken through `NULL`; lock-free: `right` read
unassigned), and a key at or below `INT_MIN` makes the lock-free `list_search`
read `left` unassigned. -/
theorem C7_counterexample :
    (Lock.list_remove 5 Lock.empty_state Lock.empty_list INT_MAX).value = some 1 ∧
    (LockFree.list_remove 5 LockFree.empty_state LockFree.empty_list INT_MAX).value = some 1 ∧
    (Lock.list_remove 5 Lock.empty_state Lock.empty_list (INT_MAX + 1)).is_fault = true ∧
    (LockFree.list_remove 5 LockFree.empty_state LockFree.empty_list (INT_MAX + 1)).is_fault
      = true ∧
    (LockFree.list_remove 5 LockFree.empty_state LockFree.empty_list INT_MIN).is_fault
      = true := by
  decide

/-- C7, amended: on the empty list returned by `list_new`, `list_remove(l, v)`
returns 0 for every key `v < INT_MAX` in the lock-based variant and for every
key `w` with `INT_MIN < w < INT_MAX` in the lock-free variant, and the list
stays empty (`malloc` handing out addresses above 0 that fit 64-bit words). -/
theorem C7_remove_on_empty
    (s0 : Lock.State) (t0 : LockFree.State) (v w : Int) (fuel : Nat)
    (hs0 : 0 < s0.brk) (ht0 : 0 < t0.brk ∧ t0.brk ≤ 2 ^ 63)
    (hv : v < INT_MAX) (hw : INT_MIN < w ∧ w < INT_MAX) (hf : 2 ≤ fuel) :
    (∃ s', Lock.list_remove fuel (Lock.list_new s0).2 (Lock.list_new s0).1 v = .ok (0, s') ∧
        Lock.Repr s' (Lock.list_new s0).1 []) ∧
    LockFree.list_remove fuel (LockFree.list_new t0).2 (LockFree.list_new t0).1 w
      = .ok (0, (LockFree.list_new t0).2) := by
  constructor
  · obtain ⟨r, s', ps', hrun, hwf', _, hnot⟩ :=
      Lock.list_remove_spec (Lock.list_new s0).2 (Lock.list_new s0).1 [] v fuel
        (Lock.list_new_wf s0 hs0) hv (by simp; omega)
    obtain ⟨rfl, e⟩ := hnot (by simp)
    exact ⟨s', hrun, ps', hwf', by simpa using e⟩
  · obtain ⟨r, t', ps', hrun, _, _, _, hnot⟩ :=
      LockFree.list_remove_lf_spec (LockFree.list_new t0).2 (LockFree.list_new t0).1 1 [] w fuel
        (LockFree.list_new_lf_wf t0 1 ht0.1 ht0.2 (le_refl 1) (by decide)
          (fun i h1 h2 => by omega)) hw.1 hw.2 (by simp; omega)
    obtain ⟨rfl, rfl, _⟩ := hnot (by simp)
    exact hrun

/-- Removing `INT_MIN` (lock-based) and 7 (lock-free) from new lists. -/
theorem C7_remove_on_empty_witness :
    (∃ s', Lock.list_remove 2 (Lock.list_new Lock.init).2 (Lock.list_new Lock.init).1 INT_MIN
          = .ok (0, s') ∧
        Lock.Repr s' (Lock.list_new Lock.init).1 []) ∧
    LockFree.list_remove 2 (LockFree.list_new LockFree.init).2
        (LockFree.list_new LockFree.init).1 7
      = .ok (0, (LockFree.list_new LockFree.init).2) :=
  C7_remove_on_empty Lock.init LockFree.init INT_MIN 7 2 (by decide) (by decide) (by decide)
    (by decide) (by decide)

/-- C9 fails on the code: the loop of the lock-based `list_delete` never
advances `i`, so on the empty list from `list_new` its second round frees head
a second time (undefined behaviour); for no amount of fuel does the call return,
tail is never freed and `free(l)` is never reached. -/
theorem C9_list_delete_frees_head_twice :
    (∀ fuel, Lock.list_delete (fuel + 2) Lock.empty_list = .fault) ∧
    (∀ fuel, Lock.list_delete fuel Lock.empty_list = .fault ∨
      Lock.list_delete fuel Lock.empty_list = .timeout) := by
  have hh : Lock.empty_list.head ≠ 0 := by decide
  have h2 : ∀ fuel, Lock.list_delete (fuel + 2) Lock.empty_list = .fault := by
    intro fuel
    simp only [Lock.list_delete]
    rw [Lock.delete_loop_second _ hh]
    rfl
  refine ⟨h2, fun fuel => ?_⟩
  match fuel with
  | 0 => right; rfl
  | 1 => right; simp [Lock.list_delete, Lock.delete_loop, free, hh]
  | f + 2 => left; exact h2 f

end LinkedList


/-! ## Lock-free variant: `list_search` on lists with marked nodes -/

namespace LinkedList

namespace LockFree

theorem not_marked_iff (s : State) (a : Nat) : ¬ marked s a ↔ s.next a % 2 = 0 := by
  unfold marked
  rw [is_marked_ref_eq]
  simp

theorem marked_iff (s : State) (a : Nat) : marked s a ↔ s.next a % 2 = 1 := by
  unfold marked
  rw [is_marked_ref_eq]
  omega

/-- Step 1 of `list_search` on a list with marked nodes: marked nodes are
skipped, the walk stops at the first unmarked node not below `val`, and `left`
is the last unmarked node before it. -/
theorem search_traverse_mspec (s : State) (v : Int) (right0 : Option Nat) :
    ∀ (R A : List Nat) (lf : Nat) (M : List Nat) (i : Nat) (fuel : Nat),
    List.Chain' (fun a b => get_unmarked_ref (s.next a) = b) (A ++ lf :: (M ++ i :: R)) →
    (∀ a ∈ A ++ lf :: (M ++ i :: R), a ≠ 0) →
    (∀ m ∈ M, marked s m) →
    (∃ t ∈ i :: R, ¬ marked s t ∧ v ≤ s.val t) →
    (i :: R).length ≤ fuel →
    ∃ A' left' M' right' B,
      search_traverse s v fuel i (some lf) right0 = .ok (some left', some right') ∧
      A ++ lf :: (M ++ i :: R) = A' ++ left' :: (M' ++ right' :: B) ∧
      ((A' = A ∧ left' = lf) ∨ (¬ marked s left' ∧ s.val left' < v)) ∧
      (∀ m ∈ M', marked s m) ∧ ¬ marked s right' ∧ v ≤ s.val right' := by
  intro R
  induction R with
  | nil =>
    intro A lf M i fuel _ hnn hM ht hf
    obtain ⟨t, htm, htu, htv⟩ := ht
    simp at htm; subst htm
    obtain ⟨f, rfl⟩ : ∃ f, fuel = f + 1 := ⟨fuel - 1, by simp at hf; omega⟩
    have h0 : t ≠ 0 := hnn t (by simp)
    have hu : is_marked_ref (s.next t) = 0 := by
      unfold marked at htu; exact not_not.mp htu
    refine ⟨A, lf, M, t, [], ?_, rfl, Or.inl ⟨rfl, rfl⟩, hM, htu, htv⟩
    simp [search_traverse, h0, hu, htv]
  | cons r R ih =>
    intro A lf M i fuel hch hnn hM ht hf
    obtain ⟨f, rfl⟩ : ∃ f, fuel = f + 1 := ⟨fuel - 1, by simp at hf; omega⟩
    have h0 : i ≠ 0 := hnn i (by simp)
    have hr0 : r ≠ 0 := hnn r (by simp)
    have hch' : List.Chain' (fun a b => get_unmarked_ref (s.next a) = b)
        ((A ++ lf :: M) ++ i :: r :: R) := by
      simpa [List.append_assoc] using hch
    have hun : get_unmarked_ref (s.next i) = r :=
      chain_mid (A ++ lf :: M) i r R hch'
    by_cases hmk : marked s i
    · have ht' : ∃ t ∈ r :: R, ¬ marked s t ∧ v ≤ s.val t := by
        obtain ⟨t, htm, htu, htv⟩ := ht
        rcases List.mem_cons.mp htm with e | e
        · subst e; exact absurd hmk htu
        · exact ⟨t, e, htu, htv⟩
      have hM' : ∀ m ∈ M ++ [i], marked s m := by
        intro m hm
        rcases List.mem_append.mp hm with e | e
        · exact hM m e
        · simp at e; subst e; exact hmk
      obtain ⟨A', left', M', right', B, hrun, hsplit, hlv, hMm, hru, hrv⟩ :=
        ih A lf (M ++ [i]) r f (by simpa [List.append_assoc] using hch)
          (by simpa [List.append_assoc] using hnn) hM' ht' (by simp at hf ⊢; omega)
      refine ⟨A', left', M', right', B, ?_,
        by simpa [List.append_assoc] using hsplit, hlv, hMm, hru, hrv⟩
      rw [search_traverse]
      have hmk' : is_marked_ref (s.next i) ≠ 0 := hmk
      simp only [h0, hmk', hun, hr0, ne_eq, not_true_eq_false, not_false_eq_true,
        if_true, if_false]
      exact hrun
    · have hu : is_marked_ref (s.next i) = 0 := by
        unfold marked at hmk; exact not_not.mp hmk
      by_cases hlt : s.val i < v
      · have ht' : ∃ t ∈ r :: R, ¬ marked s t ∧ v ≤ s.val t := by
          obtain ⟨t, htm, htu, htv⟩ := ht
          rcases List.mem_cons.mp htm with e | e
          · subst e; exact absurd hlt (not_lt.mpr htv)
          · exact ⟨t, e, htu, htv⟩
        obtain ⟨A', left', M', right', B, hrun, hsplit, hlv, hMm, hru, hrv⟩ :=
          ih (A ++ lf :: M) i [] r f (by simpa [List.append_assoc] using hch)
            (by simpa [List.append_assoc] using hnn) (by simp) ht' (by simp at hf ⊢; omega)
        refine ⟨A', left', M', right', B, ?_,
          by simpa [List.append_assoc] using hsplit, ?_, hMm, hru, hrv⟩
        · rw [search_traverse]
          simp only [h0, hu, hun, hr0, ne_eq, not_true_eq_false, not_false_eq_true,
            if_true, if_false, ge_iff_le, not_le.mpr hlt]
          exact hrun
        · rcases hlv with e | e
          · rw [e.2]; exact Or.inr ⟨hmk, hlt⟩
          · exact Or.inr e
      · refine ⟨A, lf, M, i, r :: R, ?_, rfl, Or.inl ⟨rfl, rfl⟩, hM, hmk, not_lt.mp hlt⟩
        simp [search_traverse, h0, hu, not_lt.mp hlt]

/-- Step 2.1 of `list_search`: when every node from `m` up to `right` is
marked, the walk reaches `right`. -/
theorem search_check_mspec (s : State) (rt : Nat) :
    ∀ (M : List Nat) (m : Nat) (fuel : Nat),
    List.Chain' (fun a b => get_unmarked_ref (s.next a) = b) (m :: M ++ [rt]) →
    (∀ x ∈ m :: M, marked s x ∧ x ≠ 0 ∧ x ≠ rt) →
    (m :: M).length ≤ fuel →
    search_check s rt fuel m = .ok true := by
  intro M
  induction M with
  | nil =>
    intro m fuel hch hM hf
    obtain ⟨f, rfl⟩ : ∃ f, fuel = f + 1 := ⟨fuel - 1, by simp at hf; omega⟩
    obtain ⟨hmk, h0, _⟩ := hM m (by simp)
    have hmk' : is_marked_ref (s.next m) ≠ 0 := hmk
    have hun : get_unmarked_ref (s.next m) = rt := by
      simp only [List.nil_append, List.cons_append, List.chain'_cons] at hch
      exact hch.1
    simp [search_check, h0, hmk', hun]
  | cons x M ih =>
    intro m fuel hch hM hf
    obtain ⟨f, rfl⟩ : ∃ f, fuel = f + 1 := ⟨fuel - 1, by simp at hf; omega⟩
    obtain ⟨hmk, h0, _⟩ := hM m (by simp)
    obtain ⟨_, _, hxr⟩ := hM x (by simp)
    have hmk' : is_marked_ref (s.next m) ≠ 0 := hmk
    simp only [List.cons_append, List.chain'_cons] at hch
    have hun : get_unmarked_ref (s.next m) = x := hch.1
    rw [search_check]
    simp only [h0, hmk', hun, hxr, ne_eq, not_true_eq_false, not_false_eq_true,
      if_true, if_false]
    exact ih x f (by simpa [List.chain'_cons] using hch.2)
      (fun y hy => hM y (List.mem_cons_of_mem _ hy)) (by simp at hf ⊢; omega)

end LockFree

end LinkedList


namespace LinkedList

/-- Splitting a sentinel-bracketed list around a middle part `M`. -/
theorem bracket_drop {α : Type} (h t : α) (ps A M B : List α) (x y : α)
    (e : h :: (ps ++ [t]) = A ++ x :: (M ++ y :: B)) :
    ∃ P1 P2, A ++ [x] = h :: P1 ∧ y :: B = P2 ++ [t] ∧ ps = P1 ++ (M ++ P2) := by
  obtain ⟨y', Y', hY⟩ : ∃ y' Y', M ++ y :: B = y' :: Y' := by
    cases M with
    | nil => exact ⟨y, B, rfl⟩
    | cons m M => exact ⟨m, M ++ y :: B, rfl⟩
  have e' : h :: (ps ++ [t]) = (A ++ [x]) ++ y' :: Y' := by
    rw [e, hY]; simp
  obtain ⟨P1, P2', h1, h2, h3⟩ := bracket_split h t ps A Y' x y' e'
  rcases List.eq_nil_or_concat (y :: B) with e1 | ⟨Y0, z, e1⟩
  · simp at e1
  · rw [List.concat_eq_append] at e1
    rw [← hY, e1, ← List.append_assoc] at h2
    have := List.append_inj' h2 rfl
    simp only [List.cons.injEq, and_true] at this
    obtain ⟨h4, rfl⟩ := this
    exact ⟨P1, Y0, h1, e1, by rw [h3, ← h4]⟩

namespace LockFree

/-- On a sorted list with marked nodes `list_search` returns the first
unmarked node not below `val`, with `left` the last unmarked node before it,
and swings `left.next` to the returned node, which unlinks the marked nodes
`M` between the two. -/
theorem list_search_mspec (s : State) (l : llist_t) (ps : List Nat) (v : Int) (fuel : Nat)
    (left0 : Option Nat)
    (h : MWF s l ps) (hv : INT_MIN < v) (hv' : v ≤ INT_MAX) (hf : ps.length + 2 ≤ fuel) :
    ∃ A left M right B s',
      list_search l v fuel s left0 none = .ok (right, left, s') ∧
      nodes l ps = A ++ left :: (M ++ right :: B) ∧
      ¬ marked s left ∧ ¬ marked s right ∧ (∀ m ∈ M, marked s m) ∧
      s.val left < v ∧ v ≤ s.val right ∧
      s'.next = upd s.next left right ∧ s'.val = s.val ∧ s'.mem = s.mem ∧
      s'.mem_addr = s.mem_addr ∧ s'.memptr = s.memptr ∧ s'.brk = s.brk ∧
      (M = [] → s' = s) := by
  obtain ⟨f, rfl⟩ : ∃ f, fuel = f + 1 := ⟨fuel - 1, by omega⟩
  obtain ⟨first, R, hR⟩ : ∃ first R, ps ++ [l.tail] = first :: R := by
    cases ps with
    | nil => exact ⟨l.tail, [], rfl⟩
    | cons p ps => exact ⟨p, ps ++ [l.tail], rfl⟩
  have hns : nodes l ps = [] ++ l.head :: ([] ++ first :: R) := by simp [nodes, hR]
  have hh0 : l.head ≠ 0 := h.nonnull _ (by simp [nodes])
  have hf0 : first ≠ 0 := h.nonnull _ (by rw [hns]; simp)
  have hhu : is_marked_ref (s.next l.head) = 0 := by
    have := h.head_live; unfold marked at this; exact not_not.mp this
  have hlk : List.Chain' (fun a b => get_unmarked_ref (s.next a) = b)
      (l.head :: first :: R) := by
    have := h.linked; rw [hns] at this; simpa using this
  have hunh : get_unmarked_ref (s.next l.head) = first := (List.chain'_cons.mp hlk).1
  have htl : l.tail ∈ first :: R := by rw [← hR]; simp
  have htu : ¬ marked s l.tail := by
    rw [not_marked_iff, h.tail_next]
  obtain ⟨A, left, M, right, B, hrun, hsplit, hlv, hMm, hru, hrv⟩ :=
    search_traverse_mspec s v none R [] l.head [] first f (hns ▸ h.linked)
      (hns ▸ h.nonnull) (by simp)
      ⟨l.tail, htl, htu, by rw [h.tail_val]; exact hv'⟩ (by rw [← hR]; simp; omega)
  rw [← hns] at hsplit
  have hl0 : left ≠ 0 := h.nonnull _ (by rw [hsplit]; simp)
  have hlu : ¬ marked s left := by
    rcases hlv with ⟨_, e⟩ | e
    · rw [e]; exact h.head_live
    · exact e.1
  have hlv' : s.val left < v := by
    rcases hlv with ⟨_, e⟩ | e
    · rw [e, h.head_val]; exact hv
    · exact e.2
  have hfirst : search_traverse s v (f + 1) l.head left0 none
      = search_traverse s v f first (some l.head) none := by
    rw [search_traverse]
    have : ¬ v ≤ s.val l.head := by rw [h.head_val]; exact not_le.mpr hv
    simp only [hh0, hhu, hunh, hf0, ne_eq, not_true_eq_false,
      not_false_eq_true, if_true, if_false, ge_iff_le, this]
  have hlw := h.words left (by rw [hsplit]; simp)
  have hraw : get_unmarked_ref (s.next left) = s.next left :=
    get_unmarked_even _ ((not_marked_iff s left).mp hlu) hlw.2
  have hnd : (nodes l ps).Nodup := nodup_of_sorted s.val _ h.sorted
  cases M with
  | nil =>
    have hnx : s.next left = right := by
      rw [← hraw]
      have hch : List.Chain' (fun a b => get_unmarked_ref (s.next a) = b)
          (A ++ left :: right :: B) := by
        have := h.linked; rw [hsplit] at this; simpa using this
      exact chain_mid A left right B hch
    have hupd : upd s.next left right = s.next := by
      funext x
      by_cases e : x = left
      · rw [e, upd_same, hnx]
      · rw [upd_other _ _ _ _ e]
    refine ⟨A, left, [], right, B, s, ?_, hsplit, hlu, hru, hMm, hlv', hrv, hupd.symm,
      rfl, rfl, rfl, rfl, rfl, fun _ => rfl⟩
    rw [list_search, hfirst, hrun]
    simp [hl0, hnx]
  | cons m M =>
    have hch : List.Chain' (fun a b => get_unmarked_ref (s.next a) = b)
        (A ++ left :: m :: (M ++ right :: B)) := by
      have := h.linked; rw [hsplit] at this; simpa using this
    have hnx : s.next left = m := by
      rw [← hraw]; exact chain_mid A left m _ hch
    rw [hsplit] at hnd
    have hmr : m ≠ right := by
      intro e
      have := (List.nodup_append.mp hnd).2.1
      rw [List.nodup_cons] at this
      have h2 := (List.nodup_append.mp this.2).2.2
      exact h2 (List.mem_cons_self m M) (e ▸ List.mem_cons_self right B)
    have hchk : search_check s right (f + 1) m = .ok true := by
      apply search_check_mspec s right M m (f + 1)
      · have h1 : List.Chain' (fun a b => get_unmarked_ref (s.next a) = b)
            ((A ++ [left]) ++ ((m :: M ++ [right]) ++ B)) := by
          simpa [List.append_assoc] using hch
        exact (List.chain'_append.mp (List.chain'_append.mp h1).2.1).1
      · intro x hx
        refine ⟨hMm x hx, h.nonnull x (by rw [hsplit]; simp at hx ⊢; tauto), ?_⟩
        intro e
        have := (List.nodup_append.mp hnd).2.1
        rw [List.nodup_cons] at this
        have h2 := (List.nodup_append.mp this.2).2.2
        exact h2 hx (e ▸ List.mem_cons_self right B)
      · have : (nodes l ps).length = ps.length + 2 := by simp [nodes]
        rw [hsplit] at this
        simp at this ⊢
        omega
    refine ⟨A, left, m :: M, right, B, { s with next := upd s.next left right }, ?_, hsplit,
      hlu, hru, hMm, hlv', hrv, rfl, rfl, rfl, rfl, rfl, rfl, by simp⟩
    rw [list_search, hfirst, hrun]
    have hum : get_unmarked_ref m = m := by rw [← hnx]; exact hraw
    simp [hl0, hnx, hmr, hum, hchk, CAS_PTR]

end LockFree

end LinkedList


namespace LinkedList

namespace LockFree

/-- Swinging the `next` word of an unmarked node `left` to a later node
`right` of a sorted list with marked nodes leaves such a list, without the
nodes `M` that lay between the two. -/
theorem MWF.unlink {s s' : State} {l : llist_t} {ps : List Nat} (h : MWF s l ps)
    (A M B : List Nat) (left right : Nat)
    (hsplit : nodes l ps = A ++ left :: (M ++ right :: B))
    (hlu : ¬ marked s left)
    (hnext : s'.next = upd s.next left right) (hval : s'.val = s.val) :
    ∃ ps', nodes l ps' = A ++ left :: right :: B ∧ MWF s' l ps' ∧ ps'.Sublist ps ∧
      (∀ a ∈ nodes l ps', marked s' a ↔ marked s a) := by
  obtain ⟨P1, P2, h1, h2, h3⟩ := bracket_drop l.head l.tail ps A M B left right
    (by have := hsplit; simpa [nodes] using this)
  have hns' : nodes l (P1 ++ P2) = A ++ left :: right :: B := by
    have : nodes l (P1 ++ P2) = (l.head :: P1) ++ (P2 ++ [l.tail]) := by simp [nodes]
    rw [this, ← h1, ← h2]; simp
  have hnd : (A ++ left :: (M ++ right :: B)).Nodup := by
    rw [← hsplit]; exact nodup_of_sorted s.val _ h.sorted
  have hsub : (A ++ left :: right :: B).Sublist (A ++ left :: (M ++ right :: B)) := by
    apply List.Sublist.append (List.Sublist.refl _)
    apply List.Sublist.cons₂
    exact List.sublist_append_right _ _
  have hmem : ∀ a ∈ A ++ left :: right :: B, a ∈ nodes l ps := by
    intro a ha; rw [hsplit]; exact hsub.subset ha
  have hlA : left ∉ A := by
    intro e
    have := (List.nodup_append.mp hnd).2.2
    exact this e (List.mem_cons_self _ _)
  have hlB : left ∉ right :: B := by
    intro e
    have := ((List.nodup_append.mp hnd).2.1)
    rw [List.nodup_cons] at this
    exact this.1 (List.mem_append_right _ e)
  have hre := h.aligned right (by rw [hsplit]; simp)
  have hrw := h.words right (by rw [hsplit]; simp)
  have hnl : s'.next left = right := by rw [hnext, upd_same]
  have hno : ∀ a, a ≠ left → s'.next a = s.next a := by
    intro a ha; rw [hnext, upd_other _ _ _ _ ha]
  have hmk : ∀ a ∈ A ++ left :: right :: B, (marked s' a ↔ marked s a) := by
    intro a _
    by_cases e : a = left
    · subst e
      have : ¬ marked s' a := by rw [not_marked_iff, hnl]; exact hre
      exact ⟨fun x => absurd x this, fun x => absurd x hlu⟩
    · unfold marked; rw [hno a e]
  have htl : l.tail ∈ right :: B := by rw [h2]; simp
  have hch : List.Chain' (fun a b => get_unmarked_ref (s.next a) = b)
      ((A ++ [left]) ++ ((M ++ [right]) ++ B)) := by
    have := h.linked; rw [hsplit] at this; simpa [List.append_assoc] using this
  have hch1 : List.Chain' (fun a b => get_unmarked_ref (s.next a) = b) (A ++ [left]) :=
    (List.chain'_append.mp hch).1
  have hch2 : List.Chain' (fun a b => get_unmarked_ref (s.next a) = b) (right :: B) := by
    have : List.Chain' (fun a b => get_unmarked_ref (s.next a) = b)
        ((A ++ left :: M) ++ (right :: B)) := by
      have := h.linked; rw [hsplit] at this; simpa [List.append_assoc] using this
    exact (List.chain'_append.mp this).2.1
  refine ⟨P1 ++ P2, hns', ?_, ?_, ?_⟩
  · refine ⟨?_, ?_, ?_, ?_, ?_, ?_, ?_, ?_, ?_⟩
    · rw [hns']
      have e1 : A ++ left :: right :: B = (A ++ [left]) ++ (right :: B) := by simp
      rw [e1]
      refine List.chain'_append.mpr ⟨?_, ?_, ?_⟩
      · exact chain_frame (fun a => get_unmarked_ref (s.next a))
          (fun a => get_unmarked_ref (s'.next a)) A left hch1
          (fun x hx => by
            show get_unmarked_ref (s'.next x) = get_unmarked_ref (s.next x)
            rw [hno x (fun e => hlA (e ▸ hx))])
      · exact chain_frame_all (fun a => get_unmarked_ref (s.next a))
          (fun a => get_unmarked_ref (s'.next a)) (right :: B) hch2
          (fun x hx => by
            show get_unmarked_ref (s'.next x) = get_unmarked_ref (s.next x)
            rw [hno x (fun e => hlB (e ▸ hx))])
      · intro x hx y hy
        simp only [List.getLast?_append, List.getLast?_singleton, Option.mem_def] at hx
        simp only [List.head?_cons, Option.mem_def, Option.some.injEq] at hy
        simp at hx
        subst hx; subst hy
        rw [hnl]; exact get_unmarked_even _ hre hrw.1
    · rw [hno _ (fun e => hlB (e ▸ htl))]; exact h.tail_next
    · have := (hmk l.head (by rw [← hns']; simp [nodes])).not.mpr h.head_live
      exact this
    · intro a ha; rw [hns'] at ha; exact h.nonnull a (hmem a ha)
    · intro a ha; rw [hns'] at ha; exact h.aligned a (hmem a ha)
    · intro a ha; rw [hns'] at ha
      refine ⟨(h.words a (hmem a ha)).1, ?_⟩
      by_cases e : a = left
      · rw [e, hnl]; exact hrw.1
      · rw [hno a e]; exact (h.words a (hmem a ha)).2
    · rw [hval]; exact h.head_val
    · rw [hval]; exact h.tail_val
    · rw [hval, hns']
      have := h.sorted
      rw [hsplit] at this
      exact List.Pairwise.sublist (hsub.map s.val) this
  · rw [h3]
    apply List.Sublist.append (List.Sublist.refl _)
    exact List.sublist_append_right _ _
  · rw [hns']; exact hmk

end LockFree

end LinkedList


namespace LinkedList

/-- In a sorted list split around a middle part, what lies left of the place is
below, what lies right of it is above. -/
theorem sorted_split_mid (val : Nat → Int) (A : List Nat) (a : Nat) (M : List Nat) (b : Nat)
    (B : List Nat)
    (h : List.Sorted (fun x y => x < y) ((A ++ a :: (M ++ b :: B)).map val)) :
    (∀ x ∈ A, val x < val a) ∧ val a < val b ∧ (∀ y ∈ B, val b < val y) := by
  unfold List.Sorted at h
  rw [List.pairwise_map, List.pairwise_append] at h
  obtain ⟨_, h2, h3⟩ := h
  rw [List.pairwise_cons, List.pairwise_append, List.pairwise_cons] at h2
  exact ⟨fun x hx => h3 x hx a (by simp), h2.1 b (by simp), fun y hy => h2.2.2.1.1 y hy⟩

namespace LockFree

/-- The loop of `list_size` counts every node it passes, marked or not. -/
theorem size_loop_mspec (s : State) (l : llist_t) :
    ∀ (ps : List Nat) (i : Nat) (n : Int) (fuel : Nat),
    List.Chain' (fun a b => get_unmarked_ref (s.next a) = b) (ps ++ [l.tail]) →
    (ps ++ [l.tail]).head? = some i →
    (∀ a ∈ ps, a ≠ l.tail ∧ a ≠ 0) →
    ps.length + 1 ≤ fuel →
    size_loop s l fuel i n = .ok (n + ps.length) := by
  intro ps
  induction ps with
  | nil =>
    intro i n fuel _ hi _ hf
    obtain ⟨f, rfl⟩ : ∃ f, fuel = f + 1 := ⟨fuel - 1, by simp at hf; omega⟩
    simp at hi; subst hi
    simp [size_loop]
  | cons p ps ih =>
    intro i n fuel hch hi hne hf
    obtain ⟨f, rfl⟩ : ∃ f, fuel = f + 1 := ⟨fuel - 1, by simp at hf; omega⟩
    simp at hi; subst hi
    obtain ⟨h1, h2⟩ := hne p (by simp)
    obtain ⟨q, hq⟩ : ∃ q, (ps ++ [l.tail]).head? = some q := by
      cases ps with
      | nil => exact ⟨l.tail, rfl⟩
      | cons a ps => exact ⟨a, rfl⟩
    have hun : get_unmarked_ref (s.next p) = q := by
      cases ps with
      | nil =>
        simp at hq; subst hq
        simpa using hch
      | cons a ps =>
        simp at hq; subst hq
        simp only [List.cons_append, List.chain'_cons] at hch
        exact hch.1
    have hch' : List.Chain' (fun a b => get_unmarked_ref (s.next a) = b) (ps ++ [l.tail]) := by
      rw [List.cons_append] at hch
      exact hch.tail
    rw [size_loop]
    simp only [h1, h2, ne_eq, not_false_eq_true, if_true, if_false, hun]
    rw [ih q (n + 1) f hch' hq (fun a ha => hne a (by simp [ha])) (by simp at hf ⊢; omega)]
    simp only [List.length_cons, Nat.cast_add, Nat.cast_one]
    congr 1
    ring

/-- On a sorted list with marked nodes `list_size` returns the number of nodes
linked between head and tail, the marked ones included. -/
theorem list_size_mspec (s : State) (l : llist_t) (ps : List Nat) (fuel : Nat)
    (h : MWF s l ps) (hf : ps.length + 1 ≤ fuel) :
    list_size fuel s l = .ok (ps.length, s) := by
  have hh0 : l.head ≠ 0 := h.nonnull _ (by simp [nodes])
  have hnd : (nodes l ps).Nodup := nodup_of_sorted s.val _ h.sorted
  obtain ⟨q, hq⟩ : ∃ q, (ps ++ [l.tail]).head? = some q := by
    cases ps with
    | nil => exact ⟨l.tail, rfl⟩
    | cons a ps => exact ⟨a, rfl⟩
  have hlk : List.Chain' (fun a b => get_unmarked_ref (s.next a) = b)
      (l.head :: (ps ++ [l.tail])) := h.linked
  have hraw : get_unmarked_ref (s.next l.head) = s.next l.head :=
    get_unmarked_even _ ((not_marked_iff s l.head).mp h.head_live)
      (h.words l.head (by simp [nodes])).2
  have hnx : s.next l.head = q := by
    rw [← hraw]
    cases ps with
    | nil =>
      simp at hq; subst hq
      simpa using hlk
    | cons a ps =>
      simp at hq; subst hq
      simp only [List.cons_append, List.chain'_cons] at hlk
      exact hlk.1
  have hne : ∀ a ∈ ps, a ≠ l.tail ∧ a ≠ 0 := by
    intro a ha
    refine ⟨?_, h.nonnull a (by simp [nodes, ha])⟩
    intro e
    simp only [nodes, List.nodup_cons] at hnd
    have := (List.nodup_append.mp hnd.2).2.2
    exact this ha (by simp [e])
  unfold list_size
  rw [if_neg hh0, hnx, size_loop_mspec s l ps q 0 fuel hlk.tail hq hne hf]
  simp

/-- On a sorted list with marked nodes `list_contains` returns 1 exactly for
the values of the unmarked nodes linked between head and tail. -/
theorem list_contains_mspec (s : State) (l : llist_t) (ps : List Nat) (v : Int) (fuel : Nat)
    (h : MWF s l ps) (hv : INT_MIN < v) (hv' : v < INT_MAX) (hf : ps.length + 2 ≤ fuel) :
    ∃ r s', list_contains fuel s l v = .ok (r, s') ∧
      ((∃ a ∈ ps, ¬ marked s a ∧ s.val a = v) → r = 1) ∧
      ((¬ ∃ a ∈ ps, ¬ marked s a ∧ s.val a = v) → r = 0) := by
  obtain ⟨A, left, M, right, B, s', hrun, hsplit, hlu, hru, hMm, hlv, hrv, _, hval, _⟩ :=
    list_search_mspec s l ps v fuel none h hv (le_of_lt hv') hf
  obtain ⟨hA, hlr, hB⟩ := sorted_split_mid s.val A left M right B (hsplit ▸ h.sorted)
  unfold list_contains
  rw [hrun]
  simp only [Res.bind_ok, hval]
  refine ⟨_, _, rfl, ?_, ?_⟩
  · rintro ⟨a, ha, hau, hav⟩
    have ha_in : a ∈ nodes l ps := by simp [nodes, ha]
    rw [hsplit] at ha_in
    simp only [List.mem_append, List.mem_cons] at ha_in
    have : s.val right = v := by
      rcases ha_in with e | e | e | e | e
      · have := hA a e; omega
      · rw [e] at hav; omega
      · exact absurd (hMm a e) hau
      · rw [← e]; exact hav
      · have := hB a e; omega
    simp [this]
  · intro hnot
    have : s.val right ≠ v := by
      intro heq
      apply hnot
      have hr_in : right ∈ nodes l ps := by rw [hsplit]; simp
      simp only [nodes, List.mem_cons, List.mem_append, List.mem_singleton, List.not_mem_nil,
        or_false] at hr_in
      rcases hr_in with e | e | e
      · rw [e, h.head_val] at heq; omega
      · exact ⟨right, e, hru, heq⟩
      · rw [e, h.tail_val] at heq; omega
    simp [this]

end LockFree

end LinkedList


namespace LinkedList

/-- C11: lock-free `list_search` on a sorted list in which any inner nodes may
be marked but still linked, for a key `v` with `INT_MIN < v < INT_MAX`, run
without interference: with enough fuel (list length plus two) it returns; the
node `right` it returns is unmarked with `v ≤ right.val` and every node before
it is marked or below `v` (the first unmarked node not below `v`); the node
`left` it sets is unmarked with `left.val < v` and every node after it is marked
or not below `v` (the last unmarked node below `v`); on return `left.next` is
`right`, unmarked; the nodes `M` that lay between the two were all marked and
are no longer linked: the list now consists of the nodes before `left`, `left`,
`right` and the nodes after it, and is again a sorted list; no other `next`
word and no value changed. -/
theorem C11_list_search_postcondition (s : LockFree.State) (l : LockFree.llist_t)
    (ps : List Nat) (v : Int) (fuel : Nat) (left0 : Option Nat)
    (h : LockFree.MWF s l ps) (hv : INT_MIN < v) (hv' : v < INT_MAX)
    (hf : ps.length + 2 ≤ fuel) :
    ∃ A left M right B s' ps',
      LockFree.list_search l v fuel s left0 none = .ok (right, left, s') ∧
      LockFree.nodes l ps = A ++ left :: (M ++ right :: B) ∧
      ¬ LockFree.marked s right ∧ v ≤ s.val right ∧
      (∀ x ∈ A ++ left :: M, LockFree.marked s x ∨ s.val x < v) ∧
      ¬ LockFree.marked s left ∧ s.val left < v ∧
      (∀ y ∈ M ++ right :: B, LockFree.marked s y ∨ v ≤ s.val y) ∧
      s'.next left = right ∧ LockFree.is_marked_ref (s'.next left) = 0 ∧
      (∀ m ∈ M, LockFree.marked s m) ∧
      LockFree.nodes l ps' = A ++ left :: right :: B ∧ LockFree.MWF s' l ps' ∧
      (∀ a, a ≠ left → s'.next a = s.next a) ∧ s'.val = s.val := by
  obtain ⟨A, left, M, right, B, s', hrun, hsplit, hlu, hru, hMm, hlv, hrv, hnext, hval, _⟩ :=
    LockFree.list_search_mspec s l ps v fuel left0 h hv (le_of_lt hv') hf
  obtain ⟨ps', hns', hwf', _, _⟩ := h.unlink A M B left right hsplit hlu hnext hval
  obtain ⟨hA, hlr, hB⟩ := sorted_split_mid s.val A left M right B (hsplit ▸ h.sorted)
  have hnl : s'.next left = right := by rw [hnext, upd_same]
  refine ⟨A, left, M, right, B, s', ps', hrun, hsplit, hru, hrv, ?_, hlu, hlv, ?_, hnl, ?_,
    hMm, hns', hwf', ?_, hval⟩
  · intro x hx
    simp only [List.mem_append, List.mem_cons] at hx
    rcases hx with e | e | e
    · right; have := hA x e; omega
    · right; rw [e]; exact hlv
    · left; exact hMm x e
  · intro y hy
    simp only [List.mem_append, List.mem_cons] at hy
    rcases hy with e | e | e
    · left; exact hMm y e
    · right; rw [e]; exact hrv
    · right; have := hB y e; omega
  · rw [hnl]
    exact LockFree.is_marked_even _ (h.aligned right (by rw [hsplit]; simp))
  · intro a ha
    rw [hnext, upd_other _ _ _ _ ha]

/-- C11 at work: head, a marked node holding 5, tail; searching for 5 yields
head and tail and unlinks the marked node. -/
theorem C11_list_search_postcondition_witness :
    ∃ A left M right B s' ps',
      LockFree.list_search LockFree.empty_list 5 3 LockFree.marked_state none none
        = .ok (right, left, s') ∧
      LockFree.nodes LockFree.empty_list [8064] = A ++ left :: (M ++ right :: B) ∧
      ¬ LockFree.marked LockFree.marked_state right ∧
      (5 : Int) ≤ LockFree.marked_state.val right ∧
      (∀ x ∈ A ++ left :: M, LockFree.marked LockFree.marked_state x ∨
        LockFree.marked_state.val x < 5) ∧
      ¬ LockFree.marked LockFree.marked_state left ∧ LockFree.marked_state.val left < 5 ∧
      (∀ y ∈ M ++ right :: B, LockFree.marked LockFree.marked_state y ∨
        5 ≤ LockFree.marked_state.val y) ∧
      s'.next left = right ∧ LockFree.is_marked_ref (s'.next left) = 0 ∧
      (∀ m ∈ M, LockFree.marked LockFree.marked_state m) ∧
      LockFree.nodes LockFree.empty_list ps' = A ++ left :: right :: B ∧
      LockFree.MWF s' LockFree.empty_list ps' ∧
      (∀ a, a ≠ left → s'.next a = LockFree.marked_state.next a) ∧
      s'.val = LockFree.marked_state.val :=
  C11_list_search_postcondition LockFree.marked_state LockFree.empty_list [8064] 5 3 none
    ⟨by
      simp only [LockFree.nodes, List.cons_append, List.nil_append, List.singleton_append,
        List.chain'_cons, List.chain'_singleton, and_true]
      decide,
     by decide, by decide, by decide, by decide, by decide, by decide, by decide,
     by
      simp only [LockFree.nodes, List.cons_append, List.nil_append, List.singleton_append,
        List.map_cons, List.map_nil, List.Sorted, List.pairwise_cons, List.mem_cons,
        List.mem_singleton, List.not_mem_nil, forall_eq_or_imp, forall_eq, List.Pairwise.nil,
        and_true, IsEmpty.forall_iff, implies_true]
      decide⟩
    (by decide) (by decide) (by decide)

end LinkedList


namespace LinkedList

theorem length_filter_split (s : LockFree.State) (ps : List Nat) :
    (ps.filter (fun a => decide (¬ LockFree.marked s a))).length
      + (ps.filter (fun a => decide (LockFree.marked s a))).length = ps.length := by
  induction ps with
  | nil => rfl
  | cons p ps ih =>
    by_cases hm : LockFree.marked s p
    · simp only [List.filter_cons, hm, not_true_eq_false, decide_False, decide_True,
        if_true, List.length_cons]
      simp only [Bool.false_eq_true, if_false]
      omega
    · simp only [List.filter_cons, hm, not_false_eq_true, decide_False, decide_True,
        if_true, List.length_cons]
      simp only [Bool.false_eq_true, if_false]
      omega

/-- On a sorted list in which inner nodes may be marked but still linked,
`list_size` returns the number of nodes linked between head and tail, marked or
not: the number of unmarked ones (the keys `v` with `INT_MIN < v < INT_MAX` for
which `list_contains` returns 1 are exactly their values, all different) plus
the number of marked nodes still linked. It is the number of keys in the set
where no linked node is marked. -/
theorem list_size_live_plus_marked (s : LockFree.State) (l : LockFree.llist_t)
    (ps : List Nat) (fuel : Nat)
    (h : LockFree.MWF s l ps) (hf : ps.length + 2 ≤ fuel) :
    LockFree.list_size fuel s l
      = .ok ((((ps.filter (fun a => decide (¬ LockFree.marked s a))).length
          + (ps.filter (fun a => decide (LockFree.marked s a))).length : Nat) : Int), s) ∧
    (∀ v, INT_MIN < v → v < INT_MAX →
      (LockFree.list_contains fuel s l v).value
        = some (if v ∈ (ps.filter (fun a => decide (¬ LockFree.marked s a))).map s.val
            then 1 else 0)) ∧
    ((ps.filter (fun a => decide (¬ LockFree.marked s a))).map s.val).Nodup ∧
    ((∀ a ∈ ps, ¬ LockFree.marked s a) →
      LockFree.list_size fuel s l
        = .ok ((((ps.filter (fun a => decide (¬ LockFree.marked s a))).length : Nat) : Int),
            s)) := by
  have hsize := LockFree.list_size_mspec s l ps fuel h (by omega)
  refine ⟨?_, ?_, ?_, ?_⟩
  · rw [length_filter_split]; exact hsize
  · intro v hv hv'
    obtain ⟨r, s', hrun, h1, h0⟩ := LockFree.list_contains_mspec s l ps v fuel h hv hv' hf
    rw [hrun]
    have hiff : v ∈ (ps.filter (fun a => decide (¬ LockFree.marked s a))).map s.val ↔
        ∃ a ∈ ps, ¬ LockFree.marked s a ∧ s.val a = v := by
      simp only [List.mem_map, List.mem_filter, decide_eq_true_eq]
      constructor
      · rintro ⟨a, ⟨ha, hu⟩, hav⟩; exact ⟨a, ha, hu, hav⟩
      · rintro ⟨a, ha, hu, hav⟩; exact ⟨a, ⟨ha, hu⟩, hav⟩
    by_cases hm : ∃ a ∈ ps, ¬ LockFree.marked s a ∧ s.val a = v
    · rw [if_pos (hiff.mpr hm), h1 hm]; rfl
    · rw [if_neg (fun x => hm (hiff.mp x)), h0 hm]; rfl
  · have hs : List.Sorted (fun x y => x < y) (ps.map s.val) := by
      have := h.sorted
      simp only [LockFree.nodes, List.map_cons, List.map_append] at this
      exact (List.pairwise_append.mp (List.pairwise_cons.mp this).2).1
    have hsub : ((ps.filter (fun a => decide (¬ LockFree.marked s a))).map s.val).Sublist
        (ps.map s.val) := (List.filter_sublist _).map s.val
    have : List.Pairwise (fun x y : Int => x < y)
        ((ps.filter (fun a => decide (¬ LockFree.marked s a))).map s.val) :=
      List.Pairwise.sublist hsub hs
    exact this.imp (fun hxy => ne_of_lt hxy)
  · intro hall
    have : ps.filter (fun a => decide (¬ LockFree.marked s a)) = ps := by
      apply List.filter_eq_self.mpr
      intro a ha
      simp [hall a ha]
    rw [this]; exact hsize

/-- C13 fails on the code: `list_size` counts every node it passes and never
looks at the mark. On every sorted list in which inner nodes may be marked but
still linked it returns the number of unmarked nodes plus the number of marked
nodes between head and tail; in the memory where the node holding 5 is marked
(logically deleted) but still linked between head and tail, `list_size` returns
1 although no unmarked node lies between the sentinels and `list_contains(l, 5)`
returns 0. -/
theorem C13_list_size_counts_marked_node :
    (∀ (s : LockFree.State) (l : LockFree.llist_t) (ps : List Nat) (fuel : Nat),
      LockFree.MWF s l ps → ps.length + 2 ≤ fuel →
      LockFree.list_size fuel s l
        = .ok ((((ps.filter (fun a => decide (¬ LockFree.marked s a))).length
            + (ps.filter (fun a => decide (LockFree.marked s a))).length : Nat) : Int), s)) ∧
    (LockFree.list_size 5 LockFree.marked_state LockFree.empty_list).value = some 1 ∧
    (LockFree.list_contains 5 LockFree.marked_state LockFree.empty_list 5).value = some 0 ∧
    LockFree.marked_state.next LockFree.empty_list.head = 8064 ∧
    LockFree.is_marked_ref (LockFree.marked_state.next 8064) = 1 ∧
    LockFree.get_unmarked_ref (LockFree.marked_state.next 8064) = LockFree.empty_list.tail := by
  refine ⟨fun s l ps fuel h hf => ?_, by decide⟩
  exact (list_size_live_plus_marked s l ps fuel h hf).1

end LinkedList


/-! ## Lock-based variant: traversals and ticket locks -/

namespace LinkedList

namespace Lock

/-- A spin loop that returns found the lock at its first check. -/
theorem lock_spin_first (s : State) (p t : Nat) : ∀ (fuel : Nat) (s' : State),
    lock_spin s p t fuel = .ok s' → absval t (s.lock_head p) = 0 ∧ s' = s := by
  intro fuel
  induction fuel with
  | zero => intro s' h; simp [lock_spin] at h
  | succ f ih =>
    intro s' h
    rw [lock_spin] at h
    by_cases hd : absval t (s.lock_head p) = 0
    · simp only [hd, if_true] at h
      injection h with h
      exact ⟨hd, h.symm⟩
    · simp only [hd, if_false] at h
      exact ih s' h

/-- A `lock_lock` call that returns acquired the lock at its first check:
the distance between its ticket and the head counter was 0, and one round of
the loop is enough. -/
theorem lock_lock_first (fuel : Nat) (s s' : State) (p : Nat)
    (h : lock_lock fuel s p = .ok s') :
    absval (IAF_U32 (s.lock_tail p)).1 (s.lock_head p) = 0 ∧ lock_lock 1 s p = .ok s' := by
  unfold lock_lock at h ⊢
  by_cases hp : p = 0
  · simp [hp] at h
  · simp only [hp, if_false] at h ⊢
    obtain ⟨hd, hs⟩ := lock_spin_first _ p _ fuel s' h
    refine ⟨hd, ?_⟩
    simp only [lock_spin]
    rw [if_pos hd, hs]

/-- The traversal of `list_add` on a well-formed list, for any key up to
`INT_MAX`: head is locked, the loop stops at a node `left` of the list whose
successor `right` is a node of the list too. -/
theorem add_traverse (s : State) (l : llist_t) (ps : List Nat) (v : Int) (fuel : Nat)
    (h : WF s l ps) (hv' : v ≤ INT_MAX) (hf : ps.length + 1 ≤ fuel) :
    ∃ s0 s1 A left right B, lock_lock fuel s l.head = .ok s0 ∧
      add_loop v fuel s0 l.head = .ok (s1, left) ∧
      s1.val = s.val ∧ s1.next = s.next ∧ s1.brk = s.brk ∧
      nodes l ps = A ++ left :: right :: B ∧ s.next left = right ∧
      ((A = [] ∧ left = l.head) ∨ s.val left < v) ∧ v ≤ s.val right ∧
      lock_held_at s1 left ∧ ∀ a ∈ A ++ right :: B, lock_free_at s1 a := by
  obtain ⟨f, rfl⟩ : ∃ f, fuel = f + 1 := ⟨fuel - 1, by omega⟩
  obtain ⟨right, R, hR⟩ : ∃ right R, ps ++ [l.tail] = right :: R := by
    cases ps with
    | nil => exact ⟨l.tail, [], rfl⟩
    | cons p ps => exact ⟨p, ps ++ [l.tail], rfl⟩
  have hns : nodes l ps = [] ++ l.head :: right :: R := by simp [nodes, hR]
  have hh0 : l.head ≠ 0 := h.nonnull _ (by simp [nodes])
  have hnd : (nodes l ps).Nodup := nodup_of_sorted s.val _ h.sorted
  set s0 : State := { s with lock_tail := upd s.lock_tail l.head ((s.lock_tail l.head + 1) % 2 ^ 32) } with hs0
  have hlock : lock_lock (f + 1) s l.head = .ok s0 :=
    lock_lock_free f s l.head hh0 (h.locks _ (by simp [nodes]))
  have hheld0 : lock_held_at s0 l.head := by
    have := h.locks l.head (by simp [nodes])
    unfold lock_held_at lock_free_at at *
    simp [hs0, this]
  have hfree0 : ∀ a ∈ [] ++ right :: R, lock_free_at s0 a := by
    intro a ha
    have hah : a ≠ l.head := by
      intro e; subst e
      rw [hns] at hnd
      simp only [List.nil_append, List.nodup_cons] at hnd
      exact hnd.1 (by simpa using ha)
    have := h.locks a (by rw [hns]; simp at ha ⊢; tauto)
    unfold lock_free_at at *
    simp [hs0, upd_other _ _ _ _ hah, this]
  have htl : l.tail ∈ right :: R := by rw [← hR]; simp
  obtain ⟨s1, A', left', right', B, hrun, hval, hnext, hbrk, hsplit, hlv, hrv, hheld, hfree⟩ :=
    add_loop_spec v R [] l.head right s0 (f + 1)
      (by rw [← hns]; exact h.linked) (by rw [← hns]; exact h.nonnull)
      (by rw [← hns]; exact h.sorted)
      ⟨l.tail, htl, by show v ≤ s.val l.tail; rw [h.tail_val]; exact hv'⟩
      (by rw [← hR]; simp at hf ⊢; omega) hheld0 hfree0
  rw [← hns] at hsplit
  have hnx : s.next left' = right' := chain_mid A' left' right' B (hsplit ▸ h.linked)
  exact ⟨s0, s1, A', left', right', B, hlock, hrun, hval, hnext, hbrk, hsplit, hnx, hlv, hrv,
    hheld, hfree⟩

set_option maxHeartbeats 1000000 in
/-- On a well-formed list `list_add` returns, for any key up to `INT_MAX`, and
leaves the lock of every node of the list free. -/
theorem list_add_locks (s : State) (l : llist_t) (ps : List Nat) (v : Int) (fuel : Nat)
    (h : WF s l ps) (hv' : v ≤ INT_MAX) (hf : ps.length + 1 ≤ fuel) :
    ∃ r s', list_add fuel s l v = .ok (r, s') ∧ ∀ a ∈ nodes l ps, lock_free_at s' a := by
  obtain ⟨s0, s1, A, left, right, B, hlock, hrun, hval, hnext, hbrk, hsplit, hnx, _, _, hheld,
    hfree⟩ := add_traverse s l ps v fuel h hv' hf
  have hl0 : left ≠ 0 := h.nonnull _ (by rw [hsplit]; simp)
  unfold list_add
  rw [hlock]
  simp only [Res.bind_ok]
  rw [hrun]
  simp only [Res.bind_ok, malloc, sizeof_node_t, hnext, hval, hbrk, hnx]
  by_cases heq : s.val right = v
  · simp only [heq, if_true]
    rw [lock_unlock_eq _ _ hl0]
    simp only [Res.bind_ok]
    refine ⟨0, _, rfl, ?_⟩
    intro a ha
    by_cases e : a = left
    · subst e
      unfold lock_held_at at hheld
      unfold lock_free_at
      simp [hheld]
    · have : lock_free_at s1 a := hfree a (by
        rw [hsplit] at ha
        simp only [List.mem_append, List.mem_cons] at ha ⊢
        tauto)
      unfold lock_free_at at *
      simp [upd_other _ _ _ _ e, this]
  · simp only [heq, if_false]
    generalize hn : (s.brk + 15) / 16 * 16 = n
    have hn_ge : s.brk ≤ n := by rw [← hn]; omega
    have hn_fresh : ∀ a ∈ nodes l ps, a ≠ n := fun a ha e => by
      have := h.allocated a ha; omega
    rw [lock_unlock_eq _ _ hl0]
    simp only [Res.bind_ok]
    refine ⟨1, _, rfl, ?_⟩
    intro a ha
    have han : a ≠ n := hn_fresh a ha
    by_cases e : a = left
    · subst e
      unfold lock_held_at at hheld
      unfold lock_free_at
      dsimp only
      rw [upd_same, upd_other _ _ _ _ han, upd_other _ _ _ _ han, hheld]
    · have : lock_free_at s1 a := hfree a (by
        rw [hsplit] at ha
        simp only [List.mem_append, List.mem_cons] at ha ⊢
        tauto)
      unfold lock_free_at at *
      dsimp only
      rw [upd_other _ _ _ _ e, upd_other _ _ _ _ han, upd_other _ _ _ _ han]
      exact this

end Lock

end LinkedList


namespace LinkedList

namespace Lock

/-- The traversal of `list_remove` on a well-formed list, for any key up to
`INT_MAX`: head and its successor are locked, the loop stops at two
neighbouring nodes `left` and `right` of the list, both locked. -/
theorem remove_traverse (s : State) (l : llist_t) (ps : List Nat) (v : Int) (fuel : Nat)
    (h : WF s l ps) (hv' : v ≤ INT_MAX) (hf : ps.length + 1 ≤ fuel) :
    ∃ s0 s00 s1 A left right B, lock_lock fuel s l.head = .ok s0 ∧
      lock_lock fuel s0 (s0.next l.head) = .ok s00 ∧
      remove_loop v fuel s00 l.head (s0.next l.head) = .ok (s1, left, right) ∧
      s1.val = s.val ∧ s1.next = s.next ∧ s1.brk = s.brk ∧
      nodes l ps = A ++ left :: right :: B ∧
      ((A = [] ∧ left = l.head) ∨ s.val left < v) ∧ v ≤ s.val right ∧
      lock_held_at s1 left ∧ lock_held_at s1 right ∧ ∀ a ∈ A ++ B, lock_free_at s1 a := by
  obtain ⟨f, rfl⟩ : ∃ f, fuel = f + 1 := ⟨fuel - 1, by omega⟩
  obtain ⟨right, R, hR⟩ : ∃ right R, ps ++ [l.tail] = right :: R := by
    cases ps with
    | nil => exact ⟨l.tail, [], rfl⟩
    | cons p ps => exact ⟨p, ps ++ [l.tail], rfl⟩
  have hns : nodes l ps = [] ++ l.head :: right :: R := by simp [nodes, hR]
  have hh0 : l.head ≠ 0 := h.nonnull _ (by simp [nodes])
  have hr0 : right ≠ 0 := h.nonnull _ (by rw [hns]; simp)
  have hnd : (nodes l ps).Nodup := nodup_of_sorted s.val _ h.sorted
  have hnxh : s.next l.head = right := chain_mid [] l.head right R (hns ▸ h.linked)
  have hhr : right ≠ l.head := by
    intro e
    rw [hns, e] at hnd
    simp at hnd
  set s0 : State := { s with lock_tail := upd s.lock_tail l.head ((s.lock_tail l.head + 1) % 2 ^ 32) } with hs0
  have hlock : lock_lock (f + 1) s l.head = .ok s0 :=
    lock_lock_free f s l.head hh0 (h.locks _ (by simp [nodes]))
  have hfr0 : lock_free_at s0 right := by
    have := h.locks right (by rw [hns]; simp)
    unfold lock_free_at at *
    simp only [hs0]
    rw [upd_other _ _ _ _ hhr]; exact this
  set s00 : State := { s0 with lock_tail := upd s0.lock_tail right ((s0.lock_tail right + 1) % 2 ^ 32) } with hs00
  have hlock2 : lock_lock (f + 1) s0 right = .ok s00 := lock_lock_free f s0 right hr0 hfr0
  have hheld0 : lock_held_at s00 l.head := by
    have := h.locks l.head (by simp [nodes])
    unfold lock_held_at lock_free_at at *
    simp only [hs00, hs0]
    rw [upd_other _ _ _ _ (Ne.symm hhr), upd_same]; exact this
  have hheld0r : lock_held_at s00 right := by
    unfold lock_held_at lock_free_at at *
    simp only [hs00]
    rw [upd_same]; exact hfr0
  have hfree0 : ∀ a ∈ [] ++ R, lock_free_at s00 a := by
    intro a ha
    have ha' : a ∈ R := by simpa using ha
    rw [hns] at hnd
    simp only [List.nil_append, List.nodup_cons, List.mem_cons, not_or] at hnd
    have hah : a ≠ l.head := fun e => hnd.1.2 (e ▸ ha')
    have har : a ≠ right := fun e => hnd.2.1 (e ▸ ha')
    have := h.locks a (by rw [hns]; simp [ha'])
    unfold lock_free_at at *
    simp only [hs00, hs0]
    rw [upd_other _ _ _ _ har, upd_other _ _ _ _ hah]; exact this
  have htl : l.tail ∈ right :: R := by rw [← hR]; simp
  obtain ⟨s1, A', left', right', B, hrun, hval, hnext, hbrk, hsplit, hlv, hrv, hheld, hheldr, hfree⟩ :=
    remove_loop_spec v R [] l.head right s00 (f + 1)
      (by rw [← hns]; exact h.linked) (by rw [← hns]; exact h.nonnull)
      (by rw [← hns]; exact h.sorted)
      ⟨l.tail, htl, by show v ≤ s.val l.tail; rw [h.tail_val]; exact hv'⟩
      (by rw [← hR]; simp at hf ⊢; omega) hheld0 hheld0r hfree0
  rw [← hns] at hsplit
  refine ⟨s0, s00, s1, A', left', right', B, hlock, ?_, ?_, hval, hnext, hbrk, hsplit, hlv, hrv,
    hheld, hheldr, hfree⟩
  · rw [show s0.next l.head = right from hnxh]; exact hlock2
  · rw [show s0.next l.head = right from hnxh]; exact hrun

set_option maxHeartbeats 1000000 in
/-- On a well-formed list `list_remove` returns, for any key up to `INT_MAX`,
and leaves the lock of every node of the list free, the removed node included. -/
theorem list_remove_locks (s : State) (l : llist_t) (ps : List Nat) (v : Int) (fuel : Nat)
    (h : WF s l ps) (hv' : v ≤ INT_MAX) (hf : ps.length + 1 ≤ fuel) :
    ∃ r s', list_remove fuel s l v = .ok (r, s') ∧ ∀ a ∈ nodes l ps, lock_free_at s' a := by
  obtain ⟨s0, s00, s1, A, left, right, B, hlock, hlock2, hrun, hval, hnext, hbrk, hsplit, _, _,
    hheld, hheldr, hfree⟩ := remove_traverse s l ps v fuel h hv' hf
  have hl0 : left ≠ 0 := h.nonnull _ (by rw [hsplit]; simp)
  have hr0 : right ≠ 0 := h.nonnull _ (by rw [hsplit]; simp)
  have hnd : (nodes l ps).Nodup := nodup_of_sorted s.val _ h.sorted
  have hlr : left ≠ right := by
    intro e
    rw [hsplit, e] at hnd
    have := (List.nodup_append.mp hnd).2.1
    simp at this
  have key : ∀ (s2 : State) (r : Int), s2.lock_head = s1.lock_head →
      s2.lock_tail = s1.lock_tail →
      ∃ s', ((lock_unlock s2 right).bind fun s =>
          (lock_unlock s left).bind fun s => Res.ok (r, s)) = Res.ok (r, s') ∧
        ∀ a ∈ nodes l ps, lock_free_at s' a := by
    intro s2 r e1 e2
    rw [lock_unlock_eq _ _ hr0]
    simp only [Res.bind_ok]
    rw [lock_unlock_eq _ _ hl0]
    simp only [Res.bind_ok]
    refine ⟨_, rfl, ?_⟩
    intro a ha
    unfold lock_held_at at hheld hheldr
    unfold lock_free_at
    dsimp only
    rw [e1, e2]
    by_cases el : a = left
    · subst el
      rw [upd_same, upd_other _ _ _ _ hlr, hheld]
    · rw [upd_other _ _ _ _ el]
      by_cases er : a = right
      · subst er
        rw [upd_same, hheldr]
      · rw [upd_other _ _ _ _ er]
        exact hfree a (by
          rw [hsplit] at ha
          simp only [List.mem_append, List.mem_cons] at ha ⊢
          tauto)
  unfold list_remove
  simp only []
  rw [hlock]
  simp only [Res.bind_ok]
  rw [hlock2]
  simp only [Res.bind_ok]
  rw [hrun]
  simp only [Res.bind_ok]
  by_cases heq : s1.val right = v
  · simp only [heq, ne_eq, not_true_eq_false, if_false]
    obtain ⟨s', hk, hfr⟩ := key { s1 with next := upd s1.next left (s1.next right) } 1 rfl rfl
    exact ⟨1, s', hk, hfr⟩
  · simp only [heq, ne_eq, not_false_eq_true, if_true]
    obtain ⟨s', hk, hfr⟩ := key s1 0 rfl rfl
    exact ⟨0, s', hk, hfr⟩

/-- On a well-formed list the traversal of `list_contains` stops at a node of
the list, for any key up to `INT_MAX`, and the call returns. -/
theorem list_contains_total (s : State) (l : llist_t) (ps : List Nat) (v : Int) (fuel : Nat)
    (h : WF s l ps) (hv' : v ≤ INT_MAX) (hf : ps.length + 1 ≤ fuel) :
    ∃ x r, contains_loop s v fuel (s.next l.head) = .ok x ∧ x ∈ ps ++ [l.tail] ∧
      list_contains fuel s l v = .ok (r, s) := by
  obtain ⟨right, R, hR⟩ : ∃ right R, ps ++ [l.tail] = right :: R := by
    cases ps with
    | nil => exact ⟨l.tail, [], rfl⟩
    | cons p ps => exact ⟨p, ps ++ [l.tail], rfl⟩
  have hns : nodes l ps = l.head :: right :: R := by simp [nodes, hR]
  have hh0 : l.head ≠ 0 := h.nonnull _ (by simp [nodes])
  have hnxh : s.next l.head = right := chain_mid [] l.head right R (hns ▸ h.linked)
  have htl : l.tail ∈ right :: R := by rw [← hR]; simp
  obtain ⟨x, A, B, hrun, hsplit, _, _⟩ := contains_loop_spec s v R right fuel
    (List.chain'_cons.mp (hns ▸ h.linked)).2
    (fun a ha => h.nonnull a (by rw [hns]; exact List.mem_cons_of_mem _ ha))
    ⟨l.tail, htl, by rw [h.tail_val]; exact hv'⟩
    (by rw [← hR]; simp; omega)
  refine ⟨x, if s.val x = v then 1 else 0, by rw [hnxh]; exact hrun, ?_, ?_⟩
  · rw [hR, hsplit]; simp
  · unfold list_contains
    rw [if_neg hh0, hnxh, hrun]
    simp only [Res.bind_ok]
    by_cases e : s.val x = v
    · simp [e]
    · simp [e]

end Lock

end LinkedList


/-! ## Lock-free variant: the calls return for keys up to `INT_MAX` -/

namespace LinkedList

namespace LockFree

/-- The last node of a split of the node list is the tail. -/
theorem last_is_tail (l : llist_t) (ps A : List Nat) (a b : Nat)
    (e : nodes l ps = A ++ [a, b]) : b = l.tail := by
  have : (nodes l ps).getLast? = (A ++ [a, b]).getLast? := by rw [e]
  have e1 : nodes l ps = (l.head :: ps) ++ [l.tail] := by simp [nodes]
  rw [e1, List.getLast?_append, List.getLast?_append] at this
  simp at this
  exact this.symm

/-- No value in the list exceeds `INT_MAX`. -/
theorem WF.val_le {s : State} {l : llist_t} {K : Nat} {ps : List Nat} (h : WF s l K ps) :
    ∀ a ∈ nodes l ps, s.val a ≤ INT_MAX := by
  intro a ha
  have hs := h.sorted
  have e1 : nodes l ps = (l.head :: ps) ++ [l.tail] := by simp [nodes]
  rw [e1] at ha hs
  unfold List.Sorted at hs
  rw [List.pairwise_map, List.pairwise_append] at hs
  rcases List.mem_append.mp ha with e | e
  · have := hs.2.2 a e l.tail (by simp)
    rw [h.tail_val] at this
    exact le_of_lt this
  · simp at e; rw [e, h.tail_val]

/-- On a well-formed list `list_search` stops, for any key above `INT_MIN` and
up to `INT_MAX`, with `left` and `right` assigned to neighbouring nodes of the
list. -/
theorem list_search_nodes (s : State) (l : llist_t) (K : Nat) (ps : List Nat) (v : Int)
    (fuel : Nat) (left0 : Option Nat)
    (h : WF s l K ps) (hv : INT_MIN < v) (hv' : v ≤ INT_MAX) (hf : ps.length + 2 ≤ fuel) :
    ∃ right left, list_search l v fuel s left0 none = .ok (right, left, s) ∧
      left ∈ nodes l ps ∧ right ∈ nodes l ps ∧ left ≠ 0 ∧ right ≠ 0 ∧ s.next left = right := by
  obtain ⟨A', left', right', B, hrun, hsplit, _, _⟩ :=
    list_search_spec s l K ps v fuel left0 h hv hv' hf
  have hl : left' ∈ nodes l ps := by rw [hsplit]; simp
  have hr : right' ∈ nodes l ps := by rw [hsplit]; simp
  exact ⟨right', left', hrun, hl, hr, h.nonnull _ hl, h.nonnull _ hr,
    chain_mid A' left' right' B (hsplit ▸ h.linked)⟩

/-- On a well-formed list `list_contains` returns for any key above `INT_MIN`
and up to `INT_MAX`. -/
theorem list_contains_lf_total (s : State) (l : llist_t) (K : Nat) (ps : List Nat) (v : Int)
    (fuel : Nat)
    (h : WF s l K ps) (hv : INT_MIN < v) (hv' : v ≤ INT_MAX) (hf : ps.length + 2 ≤ fuel) :
    ∃ r, list_contains fuel s l v = .ok (r, s) := by
  obtain ⟨right, left, hrun, _⟩ := list_search_nodes s l K ps v fuel none h hv hv' hf
  unfold list_contains
  rw [hrun]
  exact ⟨_, rfl⟩

/-- On a well-formed list `list_remove` returns for any key above `INT_MIN`
and up to `INT_MAX`. -/
theorem list_remove_lf_total (s : State) (l : llist_t) (K : Nat) (ps : List Nat) (v : Int)
    (fuel : Nat)
    (h : WF s l K ps) (hv : INT_MIN < v) (hv' : v ≤ INT_MAX) (hf : ps.length + 2 ≤ fuel) :
    ∃ r s', list_remove fuel s l v = .ok (r, s') := by
  obtain ⟨f, rfl⟩ : ∃ f, fuel = f + 1 := ⟨fuel - 1, by omega⟩
  obtain ⟨A', left', right', B, hrun, hsplit, _, _⟩ :=
    list_search_spec s l K ps v (f + 1) none h hv hv' hf
  have hfacts := h.node_facts
  obtain ⟨_, _, hre⟩ := hfacts right' (by rw [hsplit]; simp)
  have hw : s.next right' < 2 ^ 64 := by
    cases B with
    | nil =>
      have := last_is_tail l ps A' left' right' hsplit
      rw [this, h.tail_next]; norm_num
    | cons b B' =>
      have e1 : A' ++ left' :: right' :: b :: B' = (A' ++ [left']) ++ right' :: b :: B' := by simp
      have hnx : s.next right' = b := chain_mid (A' ++ [left']) right' b B' (e1 ▸ hsplit ▸ h.linked)
      rw [hnx]
      exact (hfacts b (by rw [hsplit]; simp)).2.1
  have hraw : get_unmarked_ref (s.next right') = s.next right' := get_unmarked_even _ hre hw
  unfold list_remove
  rw [remove_loop, hrun]
  simp only [Res.bind_ok]
  by_cases heq : s.val right' = v
  · simp only [heq, ne_eq, not_true_eq_false, if_false, CAS_PTR, hraw, if_true]
    exact ⟨_, _, rfl⟩
  · simp only [heq, ne_eq, not_false_eq_true, if_true]
    exact ⟨_, _, rfl⟩

/-- On a well-formed list whose pool is not exhausted `list_add` returns for
any key above `INT_MIN` and up to `INT_MAX`. -/
theorem list_add_lf_total (s : State) (l : llist_t) (K : Nat) (ps : List Nat) (v : Int)
    (fuel : Nat)
    (h : WF s l K ps) (hv : INT_MIN < v) (hv' : v ≤ INT_MAX)
    (hcap : s.memptr < K * MEM_BLOCK_SIZE) (hf : ps.length + 2 ≤ fuel) :
    ∃ r s', list_add fuel s l v = .ok (r, s') := by
  rcases lt_or_eq_of_le hv' with hlt | heq
  · obtain ⟨r, s', _, hrun, _⟩ := list_add_lf_spec s l K ps v fuel h hv hlt (fun _ => hcap) hf
    exact ⟨r, s', hrun⟩
  · obtain ⟨f, rfl⟩ : ∃ f, fuel = f + 1 := ⟨fuel - 1, by omega⟩
    obtain ⟨A', left', right', B, hrun, hsplit, _, hrv⟩ :=
      list_search_spec s l K ps v (f + 1) none h hv hv' hf
    have := h.val_le right' (by rw [hsplit]; simp)
    have hval : s.val right' = v := by rw [heq] at hrv ⊢; omega
    unfold list_add
    rw [add_loop, hrun]
    simp only [Res.bind_ok, hval, if_true]
    exact ⟨_, _, rfl⟩

end LockFree

end LinkedList


namespace LinkedList

/-- C14, as stated, fails: on the empty list a key above `INT_MAX` makes the
lock-based `list_contains`, `list_add` and `list_remove` walk past tail and
read a field through the `NULL` in `tail.next`; in the lock-free variant
`list_search` ends with `right` unassigned for such a key and with `left`
unassigned for the key `INT_MIN`, and reads the unassigned variable. -/
theorem C14_counterexample :
    (Lock.contains_loop Lock.empty_state (INT_MAX + 1) 5
        (Lock.empty_state.next Lock.empty_list.head)).is_fault = true ∧
    (Lock.list_contains 5 Lock.empty_state Lock.empty_list (INT_MAX + 1)).is_fault = true ∧
    (Lock.list_add 5 Lock.empty_state Lock.empty_list (INT_MAX + 1)).is_fault = true ∧
    (Lock.list_remove 5 Lock.empty_state Lock.empty_list (INT_MAX + 1)).is_fault = true ∧
    LockFree.search_traverse LockFree.empty_state (INT_MAX + 1) 5 LockFree.empty_list.head
        none none = .ok (some LockFree.empty_list.tail, none) ∧
    (LockFree.list_search LockFree.empty_list (INT_MAX + 1) 5 LockFree.empty_state
        none none).is_fault = true ∧
    LockFree.search_traverse LockFree.empty_state INT_MIN 5 LockFree.empty_list.head
        none none = .ok (none, some LockFree.empty_list.head) ∧
    (LockFree.list_search LockFree.empty_list INT_MIN 5 LockFree.empty_state
        none none).is_fault = true := by
  decide

/-- C14, amended: on a well-formed list the traversals stop inside the list
for every key `v ≤ INT_MAX` in the lock-based variant and every key `w` with
`INT_MIN < w ≤ INT_MAX` in the lock-free variant. Lock-based: the loop of
`list_contains` stops at a node of the list; the loop of `list_add` stops at a
node `left` of the list whose `next` is a node of the list; the loop of
`list_remove` stops at two nodes `left`, `right` of the list; and the three
calls return (no field is read through `NULL`). Lock-free: `list_search`
returns with `left` and `right` assigned to neighbouring nodes of the list, and
`list_contains`, `list_remove` and (the pool having a cell left) `list_add`
return. -/
theorem C14_traversals_stop_in_list (s : Lock.State) (l : Lock.llist_t) (ps : List Nat)
    (t : LockFree.State) (m : LockFree.llist_t) (K : Nat) (qs : List Nat)
    (v w : Int) (fuel : Nat)
    (h : Lock.WF s l ps) (g : LockFree.WF t m K qs)
    (hv : v ≤ INT_MAX) (hw : INT_MIN < w) (hw' : w ≤ INT_MAX)
    (hcap : t.memptr < K * LockFree.MEM_BLOCK_SIZE)
    (hf : ps.length + 2 ≤ fuel) (hg : qs.length + 2 ≤ fuel) :
    (∃ x r, Lock.contains_loop s v fuel (s.next l.head) = .ok x ∧ x ∈ ps ++ [l.tail] ∧
      Lock.list_contains fuel s l v = .ok (r, s)) ∧
    (∃ s0 s1 left r s', Lock.lock_lock fuel s l.head = .ok s0 ∧
      Lock.add_loop v fuel s0 l.head = .ok (s1, left) ∧
      left ∈ Lock.nodes l ps ∧ s1.next left ∈ Lock.nodes l ps ∧
      Lock.list_add fuel s l v = .ok (r, s')) ∧
    (∃ s0 s00 s1 left right r s', Lock.lock_lock fuel s l.head = .ok s0 ∧
      Lock.lock_lock fuel s0 (s0.next l.head) = .ok s00 ∧
      Lock.remove_loop v fuel s00 l.head (s0.next l.head) = .ok (s1, left, right) ∧
      left ∈ Lock.nodes l ps ∧ right ∈ Lock.nodes l ps ∧
      Lock.list_remove fuel s l v = .ok (r, s')) ∧
    (∃ right left, LockFree.list_search m w fuel t none none = .ok (right, left, t) ∧
      left ∈ LockFree.nodes m qs ∧ right ∈ LockFree.nodes m qs ∧
      left ≠ 0 ∧ right ≠ 0 ∧ t.next left = right) ∧
    (∃ r, LockFree.list_contains fuel t m w = .ok (r, t)) ∧
    (∃ r t', LockFree.list_remove fuel t m w = .ok (r, t')) ∧
    (∃ r t', LockFree.list_add fuel t m w = .ok (r, t')) := by
  refine ⟨?_, ?_, ?_, LockFree.list_search_nodes t m K qs w fuel none g hw hw' hg,
    LockFree.list_contains_lf_total t m K qs w fuel g hw hw' hg,
    LockFree.list_remove_lf_total t m K qs w fuel g hw hw' hg,
    LockFree.list_add_lf_total t m K qs w fuel g hw hw' hcap hg⟩
  · exact Lock.list_contains_total s l ps v fuel h hv (by omega)
  · obtain ⟨s0, s1, A, left, right, B, hlock, hrun, _, hnext, _, hsplit, hnx, _⟩ :=
      Lock.add_traverse s l ps v fuel h hv (by omega)
    obtain ⟨r, s', hadd, _⟩ := Lock.list_add_locks s l ps v fuel h hv (by omega)
    refine ⟨s0, s1, left, r, s', hlock, hrun, by rw [hsplit]; simp, ?_, hadd⟩
    rw [hnext, hnx, hsplit]; simp
  · obtain ⟨s0, s00, s1, A, left, right, B, hlock, hlock2, hrun, _, _, _, hsplit, _⟩ :=
      Lock.remove_traverse s l ps v fuel h hv (by omega)
    obtain ⟨r, s', hrem, _⟩ := Lock.list_remove_locks s l ps v fuel h hv (by omega)
    exact ⟨s0, s00, s1, left, right, r, s', hlock, hlock2, hrun, by rw [hsplit]; simp,
      by rw [hsplit]; simp, hrem⟩

/-- C14, amended, at work on the empty lists, with the keys `INT_MIN`
(lock-based) and `INT_MAX` (lock-free). -/
theorem C14_traversals_stop_in_list_witness :
    (∃ x r, Lock.contains_loop (Lock.list_new Lock.init).2 INT_MIN 2
        ((Lock.list_new Lock.init).2.next (Lock.list_new Lock.init).1.head) = .ok x ∧
      x ∈ ([] : List Nat) ++ [(Lock.list_new Lock.init).1.tail] ∧
      Lock.list_contains 2 (Lock.list_new Lock.init).2 (Lock.list_new Lock.init).1 INT_MIN
        = .ok (r, (Lock.list_new Lock.init).2)) ∧
    (∃ s0 s1 left r s', Lock.lock_lock 2 (Lock.list_new Lock.init).2
        (Lock.list_new Lock.init).1.head = .ok s0 ∧
      Lock.add_loop INT_MIN 2 s0 (Lock.list_new Lock.init).1.head = .ok (s1, left) ∧
      left ∈ Lock.nodes (Lock.list_new Lock.init).1 [] ∧
      s1.next left ∈ Lock.nodes (Lock.list_new Lock.init).1 [] ∧
      Lock.list_add 2 (Lock.list_new Lock.init).2 (Lock.list_new Lock.init).1 INT_MIN
        = .ok (r, s')) ∧
    (∃ s0 s00 s1 left right r s', Lock.lock_lock 2 (Lock.list_new Lock.init).2
        (Lock.list_new Lock.init).1.head = .ok s0 ∧
      Lock.lock_lock 2 s0 (s0.next (Lock.list_new Lock.init).1.head) = .ok s00 ∧
      Lock.remove_loop INT_MIN 2 s00 (Lock.list_new Lock.init).1.head
        (s0.next (Lock.list_new Lock.init).1.head) = .ok (s1, left, right) ∧
      left ∈ Lock.nodes (Lock.list_new Lock.init).1 [] ∧
      right ∈ Lock.nodes (Lock.list_new Lock.init).1 [] ∧
      Lock.list_remove 2 (Lock.list_new Lock.init).2 (Lock.list_new Lock.init).1 INT_MIN
        = .ok (r, s')) ∧
    (∃ right left, LockFree.list_search (LockFree.list_new LockFree.init).1 INT_MAX 2
        (LockFree.list_new LockFree.init).2 none none
        = .ok (right, left, (LockFree.list_new LockFree.init).2) ∧
      left ∈ LockFree.nodes (LockFree.list_new LockFree.init).1 [] ∧
      right ∈ LockFree.nodes (LockFree.list_new LockFree.init).1 [] ∧
      left ≠ 0 ∧ right ≠ 0 ∧ (LockFree.list_new LockFree.init).2.next left = right) ∧
    (∃ r, LockFree.list_contains 2 (LockFree.list_new LockFree.init).2
        (LockFree.list_new LockFree.init).1 INT_MAX
        = .ok (r, (LockFree.list_new LockFree.init).2)) ∧
    (∃ r t', LockFree.list_remove 2 (LockFree.list_new LockFree.init).2
        (LockFree.list_new LockFree.init).1 INT_MAX = .ok (r, t')) ∧
    (∃ r t', LockFree.list_add 2 (LockFree.list_new LockFree.init).2
        (LockFree.list_new LockFree.init).1 INT_MAX = .ok (r, t')) :=
  C14_traversals_stop_in_list (Lock.list_new Lock.init).2 (Lock.list_new Lock.init).1 []
    (LockFree.list_new LockFree.init).2 (LockFree.list_new LockFree.init).1 1 []
    INT_MIN INT_MAX 2
    (Lock.list_new_wf Lock.init (by decide))
    (LockFree.list_new_lf_wf LockFree.init 1 (by decide) (by decide) (by decide) (by decide)
      (fun i h1 h2 => by omega))
    (by decide) (by decide) (by decide) (by decide) (by decide) (by decide)

/-- C15: lock-based variant, on a well-formed list all of whose ticket locks
are free (`lock_head = lock_tail + 1` modulo 2^32 at every node), for a key `v`
with `INT_MIN < v < INT_MAX`: `list_add` and `list_remove` return, and on return
(whichever result they return) the list is well-formed again, so every node of
the new list has its lock free, and so has every node of the list before the
call, the removed node included. Every `lock_lock` call that returns does so at
its first check: the distance between its ticket and the head counter is 0 and
a single round of its loop suffices; as both operations return, this holds of
each `lock_lock` call inside them: none spins. -/
theorem C15_ticket_locks_free (s : Lock.State) (l : Lock.llist_t) (ps : List Nat)
    (v : Int) (fuel : Nat)
    (h : Lock.WF s l ps) (hv : INT_MIN < v) (hv' : v < INT_MAX) (hf : ps.length + 1 ≤ fuel) :
    (∃ r s' ps', Lock.list_add fuel s l v = .ok (r, s') ∧ Lock.WF s' l ps' ∧
      (∀ a ∈ Lock.nodes l ps', Lock.lock_free_at s' a) ∧
      (∀ a ∈ Lock.nodes l ps, Lock.lock_free_at s' a)) ∧
    (∃ r s' ps', Lock.list_remove fuel s l v = .ok (r, s') ∧ Lock.WF s' l ps' ∧
      (∀ a ∈ Lock.nodes l ps', Lock.lock_free_at s' a) ∧
      (∀ a ∈ Lock.nodes l ps, Lock.lock_free_at s' a)) ∧
    (∀ (f : Nat) (t t' : Lock.State) (p : Nat), Lock.lock_lock f t p = .ok t' →
      Lock.absval (Lock.IAF_U32 (t.lock_tail p)).1 (t.lock_head p) = 0 ∧
      Lock.lock_lock 1 t p = .ok t') := by
  refine ⟨?_, ?_, fun f t t' p hl => Lock.lock_lock_first f t t' p hl⟩
  · obtain ⟨r, s', ps', hrun, hwf, _⟩ := Lock.list_add_spec s l ps v fuel h hv hv' hf
    obtain ⟨r2, s2, hrun2, hfree⟩ := Lock.list_add_locks s l ps v fuel h (le_of_lt hv') hf
    rw [hrun] at hrun2
    injection hrun2 with e
    injection e with _ e2
    exact ⟨r, s', ps', hrun, hwf, hwf.locks, e2 ▸ hfree⟩
  · obtain ⟨r, s', ps', hrun, hwf, _⟩ := Lock.list_remove_spec s l ps v fuel h hv' hf
    obtain ⟨r2, s2, hrun2, hfree⟩ := Lock.list_remove_locks s l ps v fuel h (le_of_lt hv') hf
    rw [hrun] at hrun2
    injection hrun2 with e
    injection e with _ e2
    exact ⟨r, s', ps', hrun, hwf, hwf.locks, e2 ▸ hfree⟩

/-- C15 at work on the empty list with the key 5. -/
theorem C15_ticket_locks_free_witness :
    (∃ r s' ps', Lock.list_add 1 (Lock.list_new Lock.init).2 (Lock.list_new Lock.init).1 5
        = .ok (r, s') ∧ Lock.WF s' (Lock.list_new Lock.init).1 ps' ∧
      (∀ a ∈ Lock.nodes (Lock.list_new Lock.init).1 ps', Lock.lock_free_at s' a) ∧
      (∀ a ∈ Lock.nodes (Lock.list_new Lock.init).1 [], Lock.lock_free_at s' a)) ∧
    (∃ r s' ps', Lock.list_remove 1 (Lock.list_new Lock.init).2 (Lock.list_new Lock.init).1 5
        = .ok (r, s') ∧ Lock.WF s' (Lock.list_new Lock.init).1 ps' ∧
      (∀ a ∈ Lock.nodes (Lock.list_new Lock.init).1 ps', Lock.lock_free_at s' a) ∧
      (∀ a ∈ Lock.nodes (Lock.list_new Lock.init).1 [], Lock.lock_free_at s' a)) ∧
    (∀ (f : Nat) (t t' : Lock.State) (p : Nat), Lock.lock_lock f t p = .ok t' →
      Lock.absval (Lock.IAF_U32 (t.lock_tail p)).1 (t.lock_head p) = 0 ∧
      Lock.lock_lock 1 t p = .ok t') :=
  C15_ticket_locks_free (Lock.list_new Lock.init).2 (Lock.list_new Lock.init).1 [] 5 1
    (Lock.list_new_wf Lock.init (by decide)) (by decide) (by decide) (by decide)

end LinkedList


/-! ## Lock-free variant: what a returning call leaves unchanged, whatever the memory -/

namespace LinkedList

namespace LockFree

/-- A word without its mark is even, whatever the word. -/
theorem get_unmarked_ref_even (w : Nat) : get_unmarked_ref w % 2 = 0 := by
  unfold get_unmarked_ref
  rw [← Nat.and_one_is_mod, Nat.land_assoc]
  have : (2 ^ 64 - 2 : Nat) &&& 1 = 0 := by decide
  rw [this, Nat.and_zero]

/-- The node `list_search` finds as `right` is the head or was read through
`get_unmarked_ref`: its address is even when the head is aligned. -/
theorem search_traverse_even (s : State) (v : Int) :
    ∀ (fuel i : Nat) (left right left' right' : Option Nat),
    search_traverse s v fuel i left right = .ok (left', right') →
    i % 2 = 0 → (∀ r, right = some r → r % 2 = 0) → ∀ r, right' = some r → r % 2 = 0 := by
  intro fuel
  induction fuel with
  | zero => intro i left right left' right' h; simp [search_traverse] at h
  | succ f ih =>
    intro i left right left' right' h hi hr
    rw [search_traverse] at h
    by_cases h0 : i = 0
    · simp [h0] at h
    · rw [if_neg h0] at h
      by_cases hm : is_marked_ref (s.next i) ≠ 0
      · rw [if_pos hm] at h
        by_cases hn : get_unmarked_ref (s.next i) ≠ 0
        · rw [if_pos hn] at h
          exact ih _ _ _ _ _ h (get_unmarked_ref_even _) hr
        · rw [if_neg hn] at h
          injection h with h
          injection h with _ h2
          rw [← h2]; exact hr
      · rw [if_neg hm] at h
        by_cases hv : s.val i ≥ v
        · rw [if_pos hv] at h
          injection h with h
          injection h with _ h2
          intro r hr'
          rw [← h2] at hr'
          injection hr' with hr'
          rw [← hr']; exact hi
        · rw [if_neg hv] at h
          by_cases hn : get_unmarked_ref (s.next i) ≠ 0
          · rw [if_pos hn] at h
            exact ih _ _ _ _ _ h (get_unmarked_ref_even _) hr
          · rw [if_neg hn] at h
            injection h with h
            injection h with _ h2
            rw [← h2]; exact hr

/-- What any returning `list_search` leaves behind, whatever the memory: only
`next` words change, and only unmarked ones (each to an even address, so no mark
appears or disappears); on return `left.next` is `right`. -/
theorem list_search_frame (l : llist_t) (v : Int) :
    ∀ (fuel : Nat) (s : State) (left right : Option Nat) (rt lf : Nat) (s' : State),
    list_search l v fuel s left right = .ok (rt, lf, s') →
    l.head % 2 = 0 → (∀ r, right = some r → r % 2 = 0) →
    s'.val = s.val ∧ s'.mem = s.mem ∧ s'.mem_addr = s.mem_addr ∧ s'.memptr = s.memptr ∧
      s'.brk = s.brk ∧ (∀ a, marked s a → s'.next a = s.next a) ∧
      (∀ a, marked s' a ↔ marked s a) ∧ s'.next lf = rt ∧ rt % 2 = 0 ∧ lf ≠ 0 := by
  intro fuel
  induction fuel with
  | zero => intro s left right rt lf s' h; simp [list_search] at h
  | succ f ih =>
    intro s left right rt lf s' h hh hr
    rw [list_search] at h
    cases htr : search_traverse s v (f + 1) l.head left right with
    | fault => rw [htr] at h; simp [Res.bind] at h
    | timeout => rw [htr] at h; simp [Res.bind] at h
    | ok p =>
      obtain ⟨left1, right1⟩ := p
      rw [htr] at h
      simp only [Res.bind_ok] at h
      cases left1 with
      | none => simp at h
      | some lf1 =>
        cases right1 with
        | none => simp at h
        | some rt1 =>
          simp only [] at h
          have hrt1 : rt1 % 2 = 0 :=
            search_traverse_even s v (f + 1) l.head left right _ _ htr hh hr rt1 rfl
          by_cases hl0 : lf1 = 0
          · rw [if_pos hl0] at h; simp at h
          · rw [if_neg hl0] at h
            by_cases hne : s.next lf1 ≠ rt1
            · rw [if_pos hne] at h
              cases hck : search_check s rt1 (f + 1) (get_unmarked_ref (s.next lf1)) with
              | fault => rw [hck] at h; simp [Res.bind] at h
              | timeout => rw [hck] at h; simp [Res.bind] at h
              | ok b =>
                rw [hck] at h
                simp only [Res.bind_ok] at h
                cases b with
                | false =>
                  simp only [Bool.false_eq_true, if_false] at h
                  exact ih s _ _ _ _ _ h hh (fun r e => by injection e with e; rw [← e]; exact hrt1)
                | true =>
                  simp only [if_true, CAS_PTR] at h
                  by_cases hcas : get_unmarked_ref (s.next lf1) = s.next lf1
                  · rw [if_pos hcas] at h
                    injection h with h
                    injection h with h1 h
                    injection h with h2 h3
                    subst h1; subst h2
                    have hlu : s.next lf1 % 2 = 0 := by rw [← hcas]; exact get_unmarked_ref_even _
                    have hnx : s'.next = upd s.next lf1 rt1 := by
                      rw [← h3]; simp [hcas]
                    have hno : ∀ a, a ≠ lf1 → s'.next a = s.next a := by
                      intro a ha; rw [hnx, upd_other _ _ _ _ ha]
                    have hnl : s'.next lf1 = rt1 := by rw [hnx, upd_same]
                    refine ⟨by rw [← h3], by rw [← h3], by rw [← h3], by rw [← h3], by rw [← h3],
                      ?_, ?_, hnl, hrt1, hl0⟩
                    · intro a ha
                      apply hno
                      intro e
                      rw [e, marked_iff] at ha
                      omega
                    · intro a
                      by_cases e : a = lf1
                      · rw [e, marked_iff, marked_iff, hnl]; omega
                      · unfold marked; rw [hno a e]
                  · rw [if_neg hcas] at h
                    have hsame : upd s.next lf1
                        (if s.next lf1 = get_unmarked_ref (s.next lf1) then rt1 else s.next lf1)
                        = s.next := by
                      funext x
                      rw [if_neg (fun e => hcas e.symm)]
                      by_cases e : x = lf1
                      · rw [e, upd_same]
                      · rw [upd_other _ _ _ _ e]
                    rw [hsame] at h
                    exact ih s _ _ _ _ _ h hh
                      (fun r e => by injection e with e; rw [← e]; exact hrt1)
            · rw [if_neg hne] at h
              injection h with h
              injection h with h1 h
              injection h with h2 h3
              subst h1; subst h2; subst h3
              exact ⟨rfl, rfl, rfl, rfl, rfl, fun _ _ => rfl, fun _ => Iff.rfl,
                not_not.mp hne, hrt1, hl0⟩

end LockFree

end LinkedList


namespace LinkedList

namespace LockFree

/-- What the allocation inside `list_add` does, whatever the memory: it hands
out the cell the counter points at, advances the counter by one and leaves every
`next` word as it is. -/
theorem add_alloc_frame (s : State) (v : Int) (n : Nat) (s1 : State)
    (h : add_alloc s v = .ok (n, s1)) :
    n = alloc_cell s ∧ n ≠ 0 ∧ s1.next = s.next ∧ s1.memptr = (s.memptr + 1) % 2 ^ 32 ∧
      s1.val = upd s.val n v ∧ s1.mem_addr = s.mem_addr := by
  unfold add_alloc at h
  simp only [FAI_U32] at h
  by_cases hb : mem_entries ≤ s.memptr / MEM_BLOCK_SIZE
  · rw [if_pos hb] at h; simp at h
  · rw [if_neg hb] at h
    by_cases hz : s.mem (s.memptr / MEM_BLOCK_SIZE) = 0
    · simp only [hz, if_true, malloc, CAS_PTR, upd_same] at h
      by_cases hn : (s.brk + 15) / 16 * 16 + sizeof_node_t * (s.memptr % MEM_BLOCK_SIZE) = 0
      · rw [if_pos hn] at h; simp at h
      · rw [if_neg hn] at h
        injection h with h
        injection h with h1 h2
        subst h1
        refine ⟨?_, hn, by rw [← h2], by rw [← h2], by rw [← h2], by rw [← h2]⟩
        simp [alloc_cell, hz, malloc]
    · simp only [hz, if_false] at h
      by_cases hn : s.mem (s.memptr / MEM_BLOCK_SIZE)
          + sizeof_node_t * (s.memptr % MEM_BLOCK_SIZE) = 0
      · rw [if_pos hn] at h; simp at h
      · rw [if_neg hn] at h
        injection h with h
        injection h with h1 h2
        subst h1
        refine ⟨?_, hn, by rw [← h2], by rw [← h2], by rw [← h2], by rw [← h2]⟩
        simp [alloc_cell, hz]

/-- What any returning `list_add` leaves behind, whatever the memory: no marked
`next` word has changed, save at the cell handed out by the call; the cell
counter has advanced by one when the call returns 1 and not at all when it
returns 0; and a round of the loop that already holds its node (`n` not `NULL`,
as in a retry) leaves counter and block table as they are. -/
theorem add_loop_frame (l : llist_t) (v : Int) (fuel : Nat) (s : State) (n : Nat)
    (left : Option Nat) (r : Int) (s' : State)
    (h : add_loop l v fuel s n left = .ok (r, s')) (hh : l.head % 2 = 0) :
    (∀ a, marked s a → a ≠ (if n = 0 then alloc_cell s else n) → s'.next a = s.next a) ∧
    (n ≠ 0 → s'.memptr = s.memptr ∧ s'.mem = s.mem) ∧
    (n = 0 → (r = 0 ∧ s'.memptr = s.memptr ∧ s'.mem = s.mem) ∨
      (r = 1 ∧ s'.memptr = (s.memptr + 1) % 2 ^ 32)) := by
  obtain ⟨f, rfl⟩ : ∃ f, fuel = f + 1 := by
    cases fuel with
    | zero => simp [add_loop] at h
    | succ f => exact ⟨f, rfl⟩
  rw [add_loop] at h
  cases hs : list_search l v (f + 1) s left none with
  | fault => rw [hs] at h; simp [Res.bind] at h
  | timeout => rw [hs] at h; simp [Res.bind] at h
  | ok p =>
    obtain ⟨rt, lf, s1⟩ := p
    rw [hs] at h
    simp only [Res.bind_ok] at h
    obtain ⟨hval, hmem, hma, hmp, hbrk, hfr, hmk, hnl, hre, hl0⟩ :=
      list_search_frame l v (f + 1) s left none rt lf s1 hs hh (fun r e => by simp at e)
    have hcell : alloc_cell s1 = alloc_cell s := by
      simp only [alloc_cell, malloc, hmem, hmp, hbrk]
    by_cases hv : s1.val rt = v
    · rw [if_pos hv] at h
      injection h with h
      injection h with h1 h2
      subst h1; subst h2
      exact ⟨fun a ha _ => hfr a ha, fun _ => ⟨hmp, hmem⟩, fun _ => Or.inl ⟨rfl, hmp, hmem⟩⟩
    · rw [if_neg hv] at h
      -- the CAS that links the node in finds `left.next = right`
      have key : ∀ (n1 : Nat) (s2 : State), s2.next = s1.next →
          ((let s := { s2 with next := upd s2.next n1 rt }
            let c := CAS_PTR (s.next lf) rt n1
            let s := { s with next := upd s.next lf c.2 }
            if rt = c.1 then Res.ok ((1 : Int), s)
            else add_loop l v f s n1 (some lf)) = Res.ok (r, s')) →
          r = 1 ∧ s'.memptr = s2.memptr ∧ s'.mem = s2.mem ∧
            ∀ a, marked s a → a ≠ n1 → s'.next a = s.next a := by
        intro n1 s2 e h
        have hc : upd s2.next n1 rt lf = rt := by
          by_cases e1 : lf = n1
          · rw [e1, upd_same]
          · rw [upd_other _ _ _ _ e1, e, hnl]
        simp only [CAS_PTR, hc, if_true] at h
        injection h with h
        injection h with h1 h2
        refine ⟨h1.symm, by rw [← h2], by rw [← h2], ?_⟩
        intro a ha han
        have hal : a ≠ lf := by
          intro e2
          have := hfr a ha
          rw [marked_iff] at ha
          rw [e2, hnl] at this
          rw [e2, ← this] at ha
          omega
        rw [← h2]
        show upd (upd s2.next n1 rt) lf n1 a = s.next a
        rw [upd_other _ _ _ _ hal, upd_other _ _ _ _ han, e]
        exact hfr a ha
      by_cases hn : n = 0
      · rw [if_pos hn] at h
        cases ha : add_alloc s1 v with
        | fault => rw [ha] at h; simp [Res.bind] at h
        | timeout => rw [ha] at h; simp [Res.bind] at h
        | ok q =>
          obtain ⟨n1, s2⟩ := q
          rw [ha] at h
          simp only [Res.bind_ok] at h
          obtain ⟨hn1, _, hnx2, hmp2, _, _⟩ := add_alloc_frame s1 v n1 s2 ha
          obtain ⟨hr, hmp', _, hfr'⟩ := key n1 s2 hnx2 h
          refine ⟨?_, fun e => absurd hn e, fun _ => Or.inr ⟨hr, ?_⟩⟩
          · intro a ha' han
            rw [if_pos hn, ← hcell, ← hn1] at han
            exact hfr' a ha' han
          · rw [hmp', hmp2, hmp]
      · rw [if_neg hn] at h
        simp only [Res.bind_ok] at h
        obtain ⟨_, hmp', hmem', hfr'⟩ := key n s1 rfl h
        refine ⟨?_, fun _ => ⟨by rw [hmp', hmp], by rw [hmem', hmem]⟩, fun e => absurd e hn⟩
        intro a ha' han
        rw [if_neg hn] at han
        exact hfr' a ha' han

/-- What any returning `list_remove` leaves behind, whatever the memory: no
marked `next` word has changed, and values, cell counter and block table are as
they were. -/
theorem remove_loop_frame (l : llist_t) (v : Int) :
    ∀ (fuel : Nat) (s : State) (left : Option Nat) (r : Int) (s' : State),
    remove_loop l v fuel s left = .ok (r, s') → l.head % 2 = 0 →
    s'.val = s.val ∧ s'.mem = s.mem ∧ s'.memptr = s.memptr ∧
      (∀ a, marked s a → s'.next a = s.next a) := by
  intro fuel
  induction fuel with
  | zero => intro s left r s' h; simp [remove_loop] at h
  | succ f ih =>
    intro s left r s' h hh
    rw [remove_loop] at h
    cases hs : list_search l v (f + 1) s left none with
    | fault => rw [hs] at h; simp [Res.bind] at h
    | timeout => rw [hs] at h; simp [Res.bind] at h
    | ok p =>
      obtain ⟨rt, lf, s1⟩ := p
      rw [hs] at h
      simp only [Res.bind_ok] at h
      obtain ⟨hval, hmem, hma, hmp, hbrk, hfr, hmk, hnl, hre, hl0⟩ :=
        list_search_frame l v (f + 1) s left none rt lf s1 hs hh (fun r e => by simp at e)
      by_cases hv : s1.val rt ≠ v
      · rw [if_pos hv] at h
        injection h with h
        injection h with h1 h2
        subst h2
        exact ⟨hval, hmem, hmp, hfr⟩
      · rw [if_neg hv] at h
        simp only [CAS_PTR] at h
        by_cases hcas : get_unmarked_ref (s1.next rt) = s1.next rt
        · rw [if_pos hcas] at h
          injection h with h
          injection h with h1 h2
          refine ⟨by rw [← h2]; exact hval, by rw [← h2]; exact hmem, by rw [← h2]; exact hmp, ?_⟩
          intro a ha
          have h1a := hfr a ha
          have hodd : s1.next a % 2 = 1 := by rw [h1a]; exact (marked_iff s a).mp ha
          have har : a ≠ rt := by
            intro e
            have : s1.next rt % 2 = 0 := by rw [← hcas]; exact get_unmarked_ref_even _
            rw [e] at hodd; omega
          rw [← h2]
          dsimp only
          by_cases hal : a = lf
          · rw [hal, upd_same, upd_other _ _ _ _ (hal ▸ har)]
            have : s1.next lf ≠ rt := by
              intro e; rw [hal, e] at hodd; omega
            rw [if_neg this, ← hal]; exact h1a
          · rw [upd_other _ _ _ _ hal, upd_other _ _ _ _ har]; exact h1a
        · rw [if_neg hcas] at h
          have hsame : upd s1.next rt
              (if s1.next rt = get_unmarked_ref (s1.next rt) then get_marked_ref (s1.next rt)
                else s1.next rt) = s1.next := by
            funext x
            rw [if_neg (fun e => hcas e.symm)]
            by_cases e : x = rt
            · rw [e, upd_same]
            · rw [upd_other _ _ _ _ e]
          rw [hsame] at h
          obtain ⟨hval', hmem', hmp', hfr'⟩ := ih s1 _ _ _ h hh
          refine ⟨by rw [hval', hval], by rw [hmem', hmem], by rw [hmp', hmp], ?_⟩
          intro a ha
          rw [hfr' a ((hmk a).mpr ha), hfr a ha]

end LockFree

end LinkedList


namespace LinkedList

/-- C16 fails on the code: `list_add` has no test of the cell counter against
`MEM_BLOCK_CNT`. In every memory with `memptr = MEM_BLOCK_SIZE * MEM_BLOCK_CNT`
(all 500,000,000 cells of the 500 blocks handed out) the allocation inside
`list_add` reads entry `MEM_BLOCK_CNT` of the block table, fills it with a new
block when it holds `NULL`, and hands out a node of that block; on the memory
`cap_state` the call `list_add(l, 5)` returns 1, leaves `memptr` at 500,000,001
and links the first cell of the block stored in `mem[500]` after head. No fatal
error stops the call. -/
theorem C16_pool_has_no_cap :
    (∀ (s : LockFree.State) (v : Int),
      s.memptr = LockFree.MEM_BLOCK_SIZE * LockFree.MEM_BLOCK_CNT → 0 < s.brk →
      ∃ n s', LockFree.add_alloc s v = .ok (n, s') ∧ n = s'.mem LockFree.MEM_BLOCK_CNT ∧
        n ≠ 0 ∧ s'.memptr = LockFree.MEM_BLOCK_SIZE * LockFree.MEM_BLOCK_CNT + 1 ∧
        (s.mem LockFree.MEM_BLOCK_CNT = 0 →
          s'.mem LockFree.MEM_BLOCK_CNT = (s.brk + 15) / 16 * 16)) ∧
    ((LockFree.list_add 3 LockFree.cap_state LockFree.empty_list 5).bind fun p =>
        Res.ok (p.1, p.2.memptr, p.2.mem LockFree.MEM_BLOCK_CNT,
          p.2.next LockFree.empty_list.head))
      = .ok (1, 500000001, 16008064, 16008064) := by
  refine ⟨?_, by decide⟩
  intro s v hmp hbrk
  have hb : s.memptr / LockFree.MEM_BLOCK_SIZE = LockFree.MEM_BLOCK_CNT := by
    rw [hmp]; rfl
  have hm : s.memptr % LockFree.MEM_BLOCK_SIZE = 0 := by
    rw [hmp]; rfl
  have hfai : (s.memptr + 1) % 2 ^ 32
      = LockFree.MEM_BLOCK_SIZE * LockFree.MEM_BLOCK_CNT + 1 := by
    rw [hmp]; rfl
  have hent : ¬ LockFree.mem_entries ≤ LockFree.MEM_BLOCK_CNT := by decide
  unfold LockFree.add_alloc
  simp only [LockFree.FAI_U32, hb, hm, hfai, hent, if_false, Nat.mul_zero, Nat.add_zero]
  by_cases hz : s.mem LockFree.MEM_BLOCK_CNT = 0
  · have hn : (s.brk + 15) / 16 * 16 ≠ 0 := by omega
    simp only [hz, if_true, LockFree.malloc, LockFree.CAS_PTR, upd_same, hn, if_false]
    exact ⟨_, _, rfl, by simp [upd_same], hn, rfl, fun _ => by simp [upd_same]⟩
  · simp only [hz, if_false]
    exact ⟨_, _, rfl, rfl, hz, rfl, fun e => e.elim⟩

/-- C18 fails on the code: `list_new` takes the block table from `malloc` and
stores only entry 0, so after it `memptr` is 0 and `mem[0]` is the new block,
but every other entry holds what the memory held before. From the memory
`garbage_init`, where the place of entry 1 holds 48, `list_new` returns a list
whose head lies at 48 and whose table has `mem[1] = 48`, not `NULL`; the loop of
`list_delete` then frees `mem[1]` as a block and the call frees head a second
time (undefined behaviour). -/
theorem C18_block_table_not_cleared :
    (∀ s0 : LockFree.State, (LockFree.list_new s0).2.memptr = 0 ∧
      (LockFree.list_new s0).2.mem 0 + LockFree.MEM_BLOCK_SIZE * LockFree.sizeof_node_t
        = (LockFree.list_new s0).2.brk ∧
      ∀ i, i ≠ 0 → (LockFree.list_new s0).2.mem i = s0.mem i) ∧
    (LockFree.list_new LockFree.garbage_init).2.mem 1 = 48 ∧
    (LockFree.list_new LockFree.garbage_init).1.head = 48 ∧
    (LockFree.list_delete 5 (LockFree.list_new LockFree.garbage_init).2
      (LockFree.list_new LockFree.garbage_init).1).is_fault = true ∧
    LockFree.list_delete 5 (LockFree.list_new LockFree.init).2 (LockFree.list_new LockFree.init).1
      = .ok [8064, 64, 48, 32, 16] := by
  refine ⟨fun s0 => ⟨rfl, rfl, fun i hi => ?_⟩, by decide, by decide, by decide, by decide⟩
  show upd s0.mem 0 _ i = s0.mem i
  exact upd_other _ _ _ _ hi

end LinkedList


namespace LinkedList

namespace LockFree

/-- An allocation that returns found the counter below the end of the block
table, so the 32-bit increment does not wrap. -/
theorem add_alloc_memptr (s : State) (v : Int) (n : Nat) (s1 : State)
    (h : add_alloc s v = .ok (n, s1)) : s1.memptr = s.memptr + 1 := by
  have h1 := (add_alloc_frame s v n s1 h).2.2.2.1
  unfold add_alloc at h
  simp only [FAI_U32] at h
  by_cases hb : mem_entries ≤ s.memptr / MEM_BLOCK_SIZE
  · rw [if_pos hb] at h; simp at h
  · have hent : mem_entries = 1000 := rfl
    rw [hent] at hb
    simp only [MEM_BLOCK_SIZE] at hb
    rw [h1]
    apply Nat.mod_eq_of_lt
    omega

/-- The pool side of `list_add`, whatever the memory: a round that holds its
node already leaves the pool alone; a call returns 0 with the pool untouched or
1 with the counter advanced by exactly one. -/
theorem add_loop_pool (l : llist_t) (v : Int) (fuel : Nat) (s : State) (n : Nat)
    (left : Option Nat) (r : Int) (s' : State)
    (h : add_loop l v fuel s n left = .ok (r, s')) (hh : l.head % 2 = 0) :
    (n ≠ 0 → s'.memptr = s.memptr ∧ s'.mem = s.mem) ∧
    (n = 0 → (r = 0 ∧ s'.memptr = s.memptr ∧ s'.mem = s.mem) ∨
      (r = 1 ∧ s'.memptr = s.memptr + 1)) := by
  obtain ⟨_, h2, h3⟩ := add_loop_frame l v fuel s n left r s' h hh
  refine ⟨h2, fun hn => ?_⟩
  rcases h3 hn with e | ⟨hr, _⟩
  · exact Or.inl e
  · right
    refine ⟨hr, ?_⟩
    -- recover the allocation to see that the counter did not wrap
    obtain ⟨f, rfl⟩ : ∃ f, fuel = f + 1 := by
      cases fuel with
      | zero => simp [add_loop] at h
      | succ f => exact ⟨f, rfl⟩
    rw [add_loop] at h
    cases hs : list_search l v (f + 1) s left none with
    | fault => rw [hs] at h; simp [Res.bind] at h
    | timeout => rw [hs] at h; simp [Res.bind] at h
    | ok p =>
      obtain ⟨rt, lf, s1⟩ := p
      rw [hs] at h
      simp only [Res.bind_ok] at h
      obtain ⟨_, _, _, hmp, _, _, _, hnl, _, _⟩ :=
        list_search_frame l v (f + 1) s left none rt lf s1 hs hh (fun r e => by simp at e)
      by_cases hv : s1.val rt = v
      · rw [if_pos hv] at h
        injection h with h
        injection h with h1 _
        rw [hr] at h1; simp at h1
      · rw [if_neg hv, if_pos hn] at h
        cases ha : add_alloc s1 v with
        | fault => rw [ha] at h; simp [Res.bind] at h
        | timeout => rw [ha] at h; simp [Res.bind] at h
        | ok q =>
          obtain ⟨n1, s2⟩ := q
          rw [ha] at h
          simp only [Res.bind_ok] at h
          have hmp2 := add_alloc_memptr s1 v n1 s2 ha
          have hnx2 := (add_alloc_frame s1 v n1 s2 ha).2.2.1
          have hc : upd s2.next n1 rt lf = rt := by
            by_cases e1 : lf = n1
            · rw [e1, upd_same]
            · rw [upd_other _ _ _ _ e1, hnx2, hnl]
          simp only [CAS_PTR, hc, if_true] at h
          injection h with h
          injection h with _ h2
          rw [← h2]
          show s2.memptr = s.memptr + 1
          rw [hmp2, hmp]

/-- One client call and the pool, whatever the memory: only a `list_add` that
returns 1 advances the counter, by exactly one. -/
theorem step_memptr (l : llist_t) (fuel : Nat) (s : State) (op : Op) (r : Int) (s' : State)
    (h : step fuel s l op = .ok (r, s')) (hh : l.head % 2 = 0) :
    s'.memptr = s.memptr + add_successes [op] [r] := by
  cases op with
  | add v =>
    simp only [step, list_add] at h
    rcases (add_loop_pool l v fuel s 0 none r s' h hh).2 rfl with ⟨hr, hm, _⟩ | ⟨hr, hm⟩
    · simp [add_successes, hr, hm]
    · simp [add_successes, hr, hm]
  | remove v =>
    simp only [step, list_remove] at h
    have := (remove_loop_frame l v fuel s none r s' h hh).2.2.1
    simp [add_successes, this]
  | contains v =>
    simp only [step, list_contains] at h
    cases hs : list_search l v fuel s none none with
    | fault => rw [hs] at h; simp [Res.bind] at h
    | timeout => rw [hs] at h; simp [Res.bind] at h
    | ok p =>
      obtain ⟨rt, lf, s1⟩ := p
      rw [hs] at h
      simp only [Res.bind_ok] at h
      injection h with h
      injection h with _ h2
      have := (list_search_frame l v fuel s none none rt lf s1 hs hh
        (fun r e => by simp at e)).2.2.2.1
      simp [add_successes, ← h2, this]
  | size =>
    simp only [step, list_size] at h
    by_cases h0 : l.head = 0
    · rw [if_pos h0] at h; simp at h
    · rw [if_neg h0] at h
      cases hs : size_loop s l fuel (s.next l.head) 0 with
      | fault => rw [hs] at h; simp [Res.bind] at h
      | timeout => rw [hs] at h; simp [Res.bind] at h
      | ok n =>
        rw [hs] at h
        simp only [Res.bind_ok] at h
        injection h with h
        injection h with _ h2
        simp [add_successes, ← h2]

/-- After a run of client calls the cell counter has advanced by the number of
`list_add` calls that returned 1. -/
theorem run_memptr (l : llist_t) (fuel : Nat) (hh : l.head % 2 = 0) :
    ∀ (ops : List Op) (s : State) (rs : List Int) (s' : State),
    run fuel l s ops = .ok (rs, s') → s'.memptr = s.memptr + add_successes ops rs := by
  intro ops
  induction ops with
  | nil =>
    intro s rs s' h
    simp only [run] at h
    injection h with h
    injection h with h1 h2
    simp [add_successes, ← h2]
  | cons op ops ih =>
    intro s rs s' h
    rw [run] at h
    cases hs : step fuel s l op with
    | fault => rw [hs] at h; simp [Res.bind] at h
    | timeout => rw [hs] at h; simp [Res.bind] at h
    | ok p =>
      obtain ⟨r, s1⟩ := p
      rw [hs] at h
      simp only [Res.bind_ok] at h
      cases hr : run fuel l s1 ops with
      | fault => rw [hr] at h; simp [Res.bind] at h
      | timeout => rw [hr] at h; simp [Res.bind] at h
      | ok q =>
        obtain ⟨rs1, s2⟩ := q
        rw [hr] at h
        simp only [Res.bind_ok] at h
        injection h with h
        injection h with h1 h2
        have e1 := step_memptr l fuel s op r s1 hs hh
        have e2 := ih s1 rs1 s2 hr
        rw [← h1, ← h2, e2, e1]
        cases op <;> simp [add_successes]
        omega

end LockFree

end LinkedList


namespace LinkedList

/-- C19: lock-free slab accounting, on the list `list_new` returns. Whatever
the memory, a `list_add` call that returns has advanced `memptr` by at most one:
it returns 0 with `memptr` and the block table unchanged, or 1 with `memptr`
advanced by exactly one; a round of its loop that already holds its node (a
retry, `n` not `NULL`) leaves `memptr` and the block table unchanged, however
often it is repeated; `list_remove`, `list_contains` and `list_size` leave
`memptr` and the block table unchanged; so after every run of calls `memptr`
has grown by the number of `list_add` calls that returned 1. And a run of calls
with keys strictly between `INT_MIN` and `INT_MAX` on the new list does return
(fuel and pool permitting), with `memptr` equal to that number. -/
theorem C19_slab_accounting (s0 : LockFree.State) (K : Nat) (ops : List Op) (fuel : Nat)
    (h0 : 0 < s0.brk) (h63 : s0.brk ≤ 2 ^ 63)
    (hK : 1 ≤ K ∧ K ≤ LockFree.mem_entries) (hz : ∀ i, 1 ≤ i → i < K → s0.mem i = 0)
    (hr : ∀ op ∈ ops, op.in_range)
    (hroom : ops.length ≤ K * LockFree.MEM_BLOCK_SIZE)
    (hf : ops.length + 2 ≤ fuel) :
    (∀ f s v r s', LockFree.list_add f s (LockFree.list_new s0).1 v = .ok (r, s') →
      (r = 0 ∧ s'.memptr = s.memptr ∧ s'.mem = s.mem) ∨ (r = 1 ∧ s'.memptr = s.memptr + 1)) ∧
    (∀ f s v n left r s', n ≠ 0 →
      LockFree.add_loop (LockFree.list_new s0).1 v f s n left = .ok (r, s') →
      s'.memptr = s.memptr ∧ s'.mem = s.mem) ∧
    (∀ f s v r s', LockFree.list_remove f s (LockFree.list_new s0).1 v = .ok (r, s') →
      s'.memptr = s.memptr ∧ s'.mem = s.mem) ∧
    (∀ f s v r s', LockFree.list_contains f s (LockFree.list_new s0).1 v = .ok (r, s') →
      s'.memptr = s.memptr ∧ s'.mem = s.mem) ∧
    (∀ f s r s', LockFree.list_size f s (LockFree.list_new s0).1 = .ok (r, s') → s' = s) ∧
    (∀ f s os rs s', LockFree.run f (LockFree.list_new s0).1 s os = .ok (rs, s') →
      s'.memptr = s.memptr + add_successes os rs) ∧
    ∃ rs s', LockFree.run fuel (LockFree.list_new s0).1 (LockFree.list_new s0).2 ops
        = .ok (rs, s') ∧ s'.memptr = add_successes ops rs := by
  have hwf := LockFree.list_new_lf_wf s0 K h0 h63 hK.1 hK.2 hz
  have hh : (LockFree.list_new s0).1.head % 2 = 0 :=
    hwf.aligned _ (by simp [LockFree.nodes])
  have hmp : (LockFree.list_new s0).2.memptr = 0 := rfl
  refine ⟨?_, ?_, ?_, ?_, ?_, ?_, ?_⟩
  · intro f s v r s' h
    exact (LockFree.add_loop_pool _ v f s 0 none r s' h hh).2 rfl
  · intro f s v n left r s' hn h
    exact (LockFree.add_loop_pool _ v f s n left r s' h hh).1 hn
  · intro f s v r s' h
    obtain ⟨_, h2, h3, _⟩ := LockFree.remove_loop_frame _ v f s none r s' h hh
    exact ⟨h3, h2⟩
  · intro f s v r s' h
    simp only [LockFree.list_contains] at h
    cases hs : LockFree.list_search (LockFree.list_new s0).1 v f s none none with
    | fault => rw [hs] at h; simp [Res.bind] at h
    | timeout => rw [hs] at h; simp [Res.bind] at h
    | ok p =>
      obtain ⟨rt, lf, s1⟩ := p
      rw [hs] at h
      simp only [Res.bind_ok] at h
      injection h with h
      injection h with _ h2
      obtain ⟨_, e2, _, e4, _⟩ := LockFree.list_search_frame _ v f s none none rt lf s1 hs hh
        (fun r e => by simp at e)
      rw [← h2]; exact ⟨e4, e2⟩
  · intro f s r s' h
    simp only [LockFree.list_size] at h
    by_cases hz0 : (LockFree.list_new s0).1.head = 0
    · rw [if_pos hz0] at h; simp at h
    · rw [if_neg hz0] at h
      cases hs : LockFree.size_loop s (LockFree.list_new s0).1 f
          (s.next (LockFree.list_new s0).1.head) 0 with
      | fault => rw [hs] at h; simp [Res.bind] at h
      | timeout => rw [hs] at h; simp [Res.bind] at h
      | ok n =>
        rw [hs] at h
        simp only [Res.bind_ok] at h
        injection h with h
        injection h with _ h2
        exact h2.symm
  · intro f s os rs s' h
    exact LockFree.run_memptr _ f hh os s rs s' h
  · obtain ⟨s', hrun, _⟩ := LockFree.run_lf_spec (LockFree.list_new s0).1 K fuel ops
      (LockFree.list_new s0).2 [] ⟨[], hwf, rfl⟩ hr (by rw [hmp]; omega)
      (by simp only [List.length_nil]; omega)
    refine ⟨_, s', hrun, ?_⟩
    have := LockFree.run_memptr _ fuel hh ops _ _ s' hrun
    rw [this, hmp]; omega

/-- C19 at work: add 3, add 3, remove 3, add 1, contains 5, size on a new
list. -/
theorem C19_slab_accounting_witness :
    (∀ f s v r s', LockFree.list_add f s (LockFree.list_new LockFree.init).1 v = .ok (r, s') →
      (r = 0 ∧ s'.memptr = s.memptr ∧ s'.mem = s.mem) ∨ (r = 1 ∧ s'.memptr = s.memptr + 1)) ∧
    (∀ f s v n left r s', n ≠ 0 →
      LockFree.add_loop (LockFree.list_new LockFree.init).1 v f s n left = .ok (r, s') →
      s'.memptr = s.memptr ∧ s'.mem = s.mem) ∧
    (∀ f s v r s', LockFree.list_remove f s (LockFree.list_new LockFree.init).1 v
        = .ok (r, s') → s'.memptr = s.memptr ∧ s'.mem = s.mem) ∧
    (∀ f s v r s', LockFree.list_contains f s (LockFree.list_new LockFree.init).1 v
        = .ok (r, s') → s'.memptr = s.memptr ∧ s'.mem = s.mem) ∧
    (∀ f s r s', LockFree.list_size f s (LockFree.list_new LockFree.init).1 = .ok (r, s') →
      s' = s) ∧
    (∀ f s os rs s', LockFree.run f (LockFree.list_new LockFree.init).1 s os = .ok (rs, s') →
      s'.memptr = s.memptr + add_successes os rs) ∧
    ∃ rs s', LockFree.run 8 (LockFree.list_new LockFree.init).1
        (LockFree.list_new LockFree.init).2
        [.add 3, .add 3, .remove 3, .add 1, .contains 5, .size] = .ok (rs, s') ∧
      s'.memptr = add_successes [.add 3, .add 3, .remove 3, .add 1, .contains 5, .size] rs :=
  C19_slab_accounting LockFree.init 1 [.add 3, .add 3, .remove 3, .add 1, .contains 5, .size] 8
    (by decide) (by decide) (by decide) (fun i h1 h2 => by omega) (by decide) (by decide)
    (by decide)

end LinkedList


/-! ## Lock-free variant: `list_add` and `list_remove` on lists with marked nodes -/

namespace LinkedList

namespace LockFree

/-- The pool invariant reads only the block table, the counter and the frontier. -/
theorem PoolOK.same_pool {s s1 : State} {l : llist_t} {K : Nat} (h : PoolOK s l K)
    (e1 : s1.mem = s.mem) (e2 : s1.memptr = s.memptr) (e3 : s1.brk = s.brk) :
    PoolOK s1 l K := by
  refine ⟨h.entries, ?_, ?_, ?_, ?_, ?_⟩
  · rw [e1, e2]; exact h.used
  · rw [e1, e3]; exact h.blocks
  · rw [e1]; exact h.disjoint
  · rw [e2]; exact h.memptr_le
  · rw [e2, e3]; exact h.reserve

theorem MPool.same_mpool {s s1 : State} {l : llist_t} {K : Nat} {ps ps1 : List Nat}
    (h : MPool s l K ps) (hsub : ∀ p ∈ ps1, p ∈ ps)
    (e1 : s1.mem = s.mem) (e2 : s1.memptr = s.memptr) (e3 : s1.brk = s.brk) :
    MPool s1 l K ps1 := by
  refine ⟨?_, ?_, h.pool.same_pool e1 e2 e3⟩
  · intro a ha
    rw [e3]
    apply h.allocated
    simp only [nodes, List.mem_cons, List.mem_append, List.mem_singleton, List.not_mem_nil,
      or_false] at ha ⊢
    rcases ha with e | e | e
    · exact Or.inl e
    · exact Or.inr (Or.inl (hsub a e))
    · exact Or.inr (Or.inr e)
  · intro p hp
    obtain ⟨idx, hidx, he⟩ := h.cells p (hsub p hp)
    exact ⟨idx, by rw [e2]; exact hidx, by rw [he]; simp only [slot, e1]⟩

/-- Marking an unmarked inner node of a sorted list leaves a sorted list with
the same nodes linked. -/
theorem MWF.mark {s s2 : State} {l : llist_t} {ps : List Nat} (h : MWF s l ps) (r : Nat)
    (hr : r ∈ nodes l ps) (hrh : r ≠ l.head) (hrt : r ≠ l.tail) (hru : ¬ marked s r)
    (hnext : s2.next = upd s.next r (get_marked_ref (s.next r))) (hval : s2.val = s.val) :
    MWF s2 l ps ∧ marked s2 r ∧ (∀ a, a ≠ r → s2.next a = s.next a) ∧
      get_unmarked_ref (s2.next r) = s.next r := by
  have hev : s.next r % 2 = 0 := (not_marked_iff s r).mp hru
  have hw := (h.words r hr).2
  have hm : get_marked_ref (s.next r) = s.next r + 1 := get_marked_even _ hev
  have hlt : s.next r + 1 < 2 ^ 64 := by omega
  have hnr : s2.next r = s.next r + 1 := by rw [hnext, upd_same, hm]
  have hno : ∀ a, a ≠ r → s2.next a = s.next a := by
    intro a ha; rw [hnext, upd_other _ _ _ _ ha]
  have hun : get_unmarked_ref (s2.next r) = s.next r := by
    rw [hnr]; exact get_unmarked_succ _ hev hlt
  have hg : ∀ a, get_unmarked_ref (s2.next a) = get_unmarked_ref (s.next a) := by
    intro a
    by_cases e : a = r
    · rw [e, hun, get_unmarked_even _ hev hw]
    · rw [hno a e]
  refine ⟨⟨?_, ?_, ?_, h.nonnull, h.aligned, ?_, ?_, ?_, ?_⟩, ?_, hno, hun⟩
  · exact chain_frame_all (fun a => get_unmarked_ref (s.next a))
      (fun a => get_unmarked_ref (s2.next a)) _ h.linked (fun x _ => hg x)
  · rw [hno _ (Ne.symm hrt)]; exact h.tail_next
  · have := h.head_live
    unfold marked at this ⊢
    rw [hno _ (Ne.symm hrh)]; exact this
  · intro a ha
    refine ⟨(h.words a ha).1, ?_⟩
    by_cases e : a = r
    · rw [e, hnr]; exact hlt
    · rw [hno a e]; exact (h.words a ha).2
  · rw [hval]; exact h.head_val
  · rw [hval]; exact h.tail_val
  · rw [hval]; exact h.sorted
  · rw [marked_iff, hnr]; omega

/-- Linking a fresh node `n` holding `v` between two neighbours `left` and
`right` of a sorted list, `left` unmarked and `left.val < v < right.val`, leaves
a sorted list. -/
theorem MWF.insert {s s3 : State} {l : llist_t} {ps : List Nat} (h : MWF s l ps)
    (A B : List Nat) (left right n : Nat) (v : Int)
    (hsplit : nodes l ps = A ++ left :: right :: B)
    (hlv : s.val left < v) (hrv : v < s.val right)
    (hfresh : n ∉ nodes l ps) (hn0 : n ≠ 0) (hn2 : n % 2 = 0) (hn64 : n < 2 ^ 64)
    (hnext : s3.next = upd (upd s.next n right) left n) (hval : s3.val = upd s.val n v) :
    ∃ ps', nodes l ps' = A ++ left :: n :: right :: B ∧ MWF s3 l ps' ∧
      (∀ p ∈ ps', p = n ∨ p ∈ ps) ∧ (∀ p ∈ ps, p ∈ ps') ∧ ¬ marked s3 n ∧
      (∀ a ∈ nodes l ps, a ≠ left → s3.next a = s.next a) := by
  obtain ⟨P1, P2, hP1, hP2, hps⟩ := bracket_split l.head l.tail ps A B left right
    (by simpa [nodes] using hsplit)
  have hnd : (nodes l ps).Nodup := nodup_of_sorted s.val _ h.sorted
  obtain ⟨hA, hlr, hB⟩ := sorted_split s.val A left right B (hsplit ▸ h.sorted)
  have hn_fresh : ∀ a ∈ nodes l ps, a ≠ n := fun a ha e => hfresh (e ▸ ha)
  have hnl : n ≠ left := fun e => hn_fresh left (by rw [hsplit]; simp) e.symm
  have hleft_ne : ∀ a ∈ A ++ right :: B, a ≠ left := by
    intro a ha e; subst e
    rw [hsplit] at hnd
    have : List.Perm (A ++ a :: right :: B) (a :: (A ++ right :: B)) := List.perm_middle
    exact (List.nodup_cons.mp (this.nodup_iff.mp hnd)).1 ha
  have hre := h.aligned right (by rw [hsplit]; simp)
  have hrw := h.words right (by rw [hsplit]; simp)
  have hnxl : s3.next left = n := by rw [hnext, upd_same]
  have hnxn : s3.next n = right := by rw [hnext, upd_other _ _ _ _ hnl, upd_same]
  have hno : ∀ a, a ≠ left → a ≠ n → s3.next a = s.next a := by
    intro a h1 h2; rw [hnext, upd_other _ _ _ _ h1, upd_other _ _ _ _ h2]
  have hns' : nodes l (P1 ++ n :: P2) = A ++ left :: n :: right :: B := by
    have e1 : A ++ left :: n :: right :: B = (A ++ [left]) ++ n :: (right :: B) := by simp
    rw [e1, hP1, hP2]; simp [nodes]
  have hmem' : ∀ a ∈ nodes l (P1 ++ n :: P2), a = n ∨ a ∈ nodes l ps := by
    intro a ha
    rw [hps]
    simp only [nodes, List.mem_cons, List.mem_append, List.mem_singleton, List.not_mem_nil,
      or_false] at ha ⊢
    tauto
  have htail_ne : l.tail ≠ left := by
    have : l.tail ∈ A ++ right :: B := by
      have : l.tail ∈ right :: B := by rw [hP2]; simp
      exact List.mem_append_right _ this
    exact hleft_ne _ this
  have hP1v : ∀ a ∈ l.head :: P1, s.val a < v := by
    intro a ha
    have : a ∈ A ++ [left] := by rw [hP1]; exact ha
    rcases List.mem_append.mp this with h1 | h1
    · exact lt_trans (hA a h1) hlv
    · simp at h1; subst h1; exact hlv
  have hP2v : ∀ b ∈ P2 ++ [l.tail], v < s.val b := by
    intro b hb
    have h2 : b ∈ right :: B := by rw [hP2]; exact hb
    rcases List.mem_cons.mp h2 with e | e
    · subst e; exact hrv
    · exact lt_trans hrv (hB b e)
  refine ⟨P1 ++ n :: P2, hns', ⟨?_, ?_, ?_, ?_, ?_, ?_, ?_, ?_, ?_⟩, ?_, ?_, ?_, ?_⟩
  · -- linked
    rw [hns']
    have hch := h.linked
    rw [hsplit, List.chain'_split, List.chain'_cons] at hch
    rw [List.chain'_split, List.chain'_cons, List.chain'_cons]
    refine ⟨?_, ?_, ?_, ?_⟩
    · apply chain_frame (fun a => get_unmarked_ref (s.next a)) _ A left hch.1
      intro x hx
      show get_unmarked_ref (s3.next x) = get_unmarked_ref (s.next x)
      rw [hno x (hleft_ne x (List.mem_append_left _ hx))
        (hn_fresh x (by rw [hsplit]; simp [hx]))]
    · rw [hnxl]; exact get_unmarked_even _ hn2 hn64
    · rw [hnxn]; exact get_unmarked_even _ hre hrw.1
    · apply chain_frame_all (fun a => get_unmarked_ref (s.next a)) _ _ hch.2.2
      intro x hx
      show get_unmarked_ref (s3.next x) = get_unmarked_ref (s.next x)
      rw [hno x (hleft_ne x (List.mem_append_right _ hx))
        (hn_fresh x (by rw [hsplit]; simp at hx ⊢; tauto))]
  · rw [hno _ htail_ne (hn_fresh _ (by simp [nodes]))]; exact h.tail_next
  · by_cases e : l.head = left
    · rw [not_marked_iff, e, hnxl]; exact hn2
    · have := h.head_live
      unfold marked at this ⊢
      rw [hno _ e (hn_fresh _ (by simp [nodes]))]; exact this
  · intro a ha
    rcases hmem' a ha with e | e
    · rw [e]; exact hn0
    · exact h.nonnull a e
  · intro a ha
    rcases hmem' a ha with e | e
    · rw [e]; exact hn2
    · exact h.aligned a e
  · intro a ha
    rcases hmem' a ha with e | e
    · rw [e, hnxn]; exact ⟨hn64, hrw.1⟩
    · refine ⟨(h.words a e).1, ?_⟩
      by_cases e1 : a = left
      · rw [e1, hnxl]; exact hn64
      · rw [hno a e1 (hn_fresh a e)]; exact (h.words a e).2
  · rw [hval, upd_other _ _ _ _ (hn_fresh _ (by simp [nodes]))]; exact h.head_val
  · rw [hval, upd_other _ _ _ _ (hn_fresh _ (by simp [nodes]))]; exact h.tail_val
  · -- sorted
    have e1 : nodes l (P1 ++ n :: P2) = (l.head :: P1) ++ n :: (P2 ++ [l.tail]) := by
      simp [nodes]
    have e2 : nodes l ps = (l.head :: P1) ++ (P2 ++ [l.tail]) := by
      rw [hps]; simp [nodes]
    have hn1 : n ∉ l.head :: P1 := fun hm => hn_fresh n (by rw [e2]; simp at hm ⊢; tauto) rfl
    have hn2' : n ∉ P2 ++ [l.tail] := fun hm => hn_fresh n (by rw [e2]; simp at hm ⊢; tauto) rfl
    have key : (nodes l (P1 ++ n :: P2)).map (upd s.val n v)
        = (l.head :: P1).map s.val ++ v :: (P2 ++ [l.tail]).map s.val := by
      rw [e1, List.map_append, map_upd_of_not_mem _ _ _ _ hn1]
      congr 1
      rw [List.map_cons, upd_same, map_upd_of_not_mem _ _ _ _ hn2']
    rw [hval, key]
    apply sorted_insert
    · have := h.sorted
      rw [e2, List.map_append] at this
      exact this
    · intro x hx
      obtain ⟨a, ha, rfl⟩ := List.mem_map.mp hx
      exact hP1v a ha
    · intro y hy
      obtain ⟨b, hb, rfl⟩ := List.mem_map.mp hy
      exact hP2v b hb
  · intro p hp
    rw [hps]
    simp only [List.mem_append, List.mem_cons] at hp ⊢
    tauto
  · intro p hp
    rw [hps] at hp
    simp only [List.mem_append, List.mem_cons] at hp ⊢
    tauto
  · rw [not_marked_iff, hnxn]; exact hre
  · intro a ha hal
    exact hno a hal (hn_fresh a ha)

end LockFree

end LinkedList


namespace LinkedList

namespace LockFree

theorem alloc_cell_congr (s s1 : State) (e1 : s1.mem = s.mem) (e2 : s1.memptr = s.memptr)
    (e3 : s1.brk = s.brk) : alloc_cell s1 = alloc_cell s := by
  simp only [alloc_cell, malloc, e1, e2, e3]

set_option maxHeartbeats 2000000 in
/-- What `list_add` does on a sorted list with marked nodes whose pool has a
cell left: it returns, the list is again a sorted list with its pool in order,
and every node linked afterwards was linked before or is the cell handed out by
the call, which is unmarked. -/
theorem list_add_mspec (s : State) (l : llist_t) (K : Nat) (ps : List Nat) (v : Int)
    (fuel : Nat)
    (h : MWF s l ps) (hp : MPool s l K ps) (hv : INT_MIN < v) (hv' : v < INT_MAX)
    (hcap : s.memptr < K * MEM_BLOCK_SIZE) (hf : ps.length + 2 ≤ fuel) :
    ∃ r s' ps', list_add fuel s l v = .ok (r, s') ∧ MWF s' l ps' ∧ MPool s' l K ps' ∧
      (∀ p ∈ ps', p ∈ ps ∨ (p = alloc_cell s ∧ ¬ marked s' p)) ∧
      alloc_cell s ∉ nodes l ps := by
  obtain ⟨f, rfl⟩ : ∃ f, fuel = f + 1 := ⟨fuel - 1, by omega⟩
  obtain ⟨A, left, M, right, B, s1, hrun, hsplit, hlu, hru, hMm, hlv, hrv, hnext1, hval1, hmem1,
    hma1, hmp1, hbrk1, _⟩ := list_search_mspec s l ps v (f + 1) none h hv (le_of_lt hv') hf
  obtain ⟨ps1, hns1, hwf1, hsub1, hmk1⟩ := h.unlink A M B left right hsplit hlu hnext1 hval1
  have hpool1 : MPool s1 l K ps1 := hp.same_mpool (fun p hp => hsub1.subset hp) hmem1 hmp1 hbrk1
  have hcell : alloc_cell s1 = alloc_cell s := alloc_cell_congr s s1 hmem1 hmp1 hbrk1
  have hnxl : s1.next left = right := by rw [hnext1, upd_same]
  -- the cell the counter points at is no node of the list
  obtain ⟨n, s2, halloc, hnext2, hval2, ⟨hnh, hnt, hnc⟩, hn0, hn2, hnlt, hbrk2, hmp2, hpool2,
    hnslot, hslots, hma2⟩ := add_alloc_pool s1 l K v hpool1.pool
      (hpool1.allocated _ (by simp [nodes])) (hpool1.allocated _ (by simp [nodes]))
      (by rw [hmp1]; exact hcap)
  have hncell : n = alloc_cell s := by
    rw [← hcell]; exact (add_alloc_frame s1 v n s2 halloc).1
  have hfresh0 : n ∉ nodes l ps := by
    intro hm
    simp only [nodes, List.mem_cons, List.mem_append, List.mem_singleton, List.not_mem_nil,
      or_false] at hm
    rcases hm with e | e | e
    · exact hnh e
    · obtain ⟨idx, hidx, hpe⟩ := hp.cells _ e
      have h1 : slot s idx = slot s1 idx := by simp only [slot, hmem1]
      exact hnc idx (by rw [hmp1]; exact hidx) (by rw [hpe, h1])
    · exact hnt e
  have hfresh : n ∉ nodes l ps1 := by
    intro hm
    apply hfresh0
    simp only [nodes, List.mem_cons, List.mem_append, List.mem_singleton, List.not_mem_nil,
      or_false] at hm ⊢
    rcases hm with e | e | e
    · exact Or.inl e
    · exact Or.inr (Or.inl (hsub1.subset e))
    · exact Or.inr (Or.inr e)
  unfold list_add
  rw [add_loop, hrun]
  simp only [Res.bind_ok]
  by_cases heq : s1.val right = v
  · simp only [heq, if_true]
    exact ⟨0, s1, ps1, rfl, hwf1, hpool1, fun p hp => Or.inl (hsub1.subset hp),
      hncell ▸ hfresh0⟩
  · have hrv' : v < s1.val right := by
      rw [hval1]; exact lt_of_le_of_ne hrv (fun e => heq (by rw [hval1, e]))
    have hnl : n ≠ left := fun e => hfresh (by rw [hns1, e]; simp)
    have hn64 : n < 2 ^ 64 := by
      have := hpool2.reserve; omega
    simp only [heq, if_false, if_true, halloc, Res.bind_ok, CAS_PTR, hnext2]
    rw [upd_other _ _ _ _ (Ne.symm hnl), hnxl]
    simp only [if_true]
    obtain ⟨ps', hns', hwf', hin, hsub', hnu, _⟩ :=
      @MWF.insert s1 { s2 with next := upd (upd s1.next n right) left n } l ps1 hwf1 A B left
        right n v hns1 (by rw [hval1]; exact hlv) hrv' hfresh hn0 hn2 hn64 rfl hval2
    refine ⟨1, _, ps', rfl, hwf', ⟨?_, ?_, ?_⟩, ?_, hncell ▸ hfresh0⟩
    · intro a ha
      show a < s2.brk
      simp only [nodes, List.mem_cons, List.mem_append, List.mem_singleton, List.not_mem_nil,
        or_false] at ha
      have hall := hpool1.allocated
      rcases ha with e | e | e
      · have := hall a (by simp [nodes, e]); omega
      · rcases hin a e with e1 | e1
        · rw [e1]; exact hnlt
        · have := hall a (by simp [nodes, e1]); omega
      · have := hall a (by simp [nodes, e]); omega
    · intro p hp'
      show ∃ idx, idx < s2.memptr ∧ p = s2.mem (idx / MEM_BLOCK_SIZE)
        + sizeof_node_t * (idx % MEM_BLOCK_SIZE)
      rcases hin p hp' with e | e
      · exact ⟨s1.memptr, by omega, by rw [e, hnslot]; simp only [slot]⟩
      · obtain ⟨idx, hidx, he⟩ := hpool1.cells p e
        exact ⟨idx, by omega, by
          rw [he]; have := hslots idx hidx; simp only [slot] at this ⊢
          exact this.symm⟩
    · exact ⟨hpool2.entries, hpool2.used, hpool2.blocks, hpool2.disjoint, hpool2.memptr_le,
        hpool2.reserve⟩
    · intro p hp'
      rcases hin p hp' with e | e
      · exact Or.inr ⟨by rw [e, hncell], by rw [e]; exact hnu⟩
      · exact Or.inl (hsub1.subset e)

end LockFree

end LinkedList


namespace LinkedList

namespace LockFree

set_option maxHeartbeats 2000000 in
/-- What `list_remove` does on a sorted list with marked nodes: it returns,
the list is again a sorted list, every node linked afterwards was linked
before, and the pool is untouched. -/
theorem list_remove_mspec (s : State) (l : llist_t) (ps : List Nat) (v : Int) (fuel : Nat)
    (h : MWF s l ps) (hv : INT_MIN < v) (hv' : v < INT_MAX) (hf : ps.length + 2 ≤ fuel) :
    ∃ r s' ps', list_remove fuel s l v = .ok (r, s') ∧ MWF s' l ps' ∧
      (∀ p ∈ ps', p ∈ ps) ∧ s'.mem = s.mem ∧ s'.memptr = s.memptr ∧ s'.brk = s.brk := by
  obtain ⟨f, rfl⟩ : ∃ f, fuel = f + 1 := ⟨fuel - 1, by omega⟩
  obtain ⟨A, left, M, right, B, s1, hrun, hsplit, hlu, hru, hMm, hlv, hrv, hnext1, hval1, hmem1,
    hma1, hmp1, hbrk1, _⟩ := list_search_mspec s l ps v (f + 1) none h hv (le_of_lt hv') hf
  obtain ⟨ps1, hns1, hwf1, hsub1, hmk1⟩ := h.unlink A M B left right hsplit hlu hnext1 hval1
  have hnxl : s1.next left = right := by rw [hnext1, upd_same]
  have hr1 : right ∈ nodes l ps1 := by rw [hns1]; simp
  have hl1 : left ∈ nodes l ps1 := by rw [hns1]; simp
  have hnd : (nodes l ps1).Nodup := nodup_of_sorted s1.val _ hwf1.sorted
  have hlr : left ≠ right := by
    intro e
    rw [hns1, e] at hnd
    have := (List.nodup_append.mp hnd).2.1
    simp at this
  unfold list_remove
  rw [remove_loop, hrun]
  simp only [Res.bind_ok]
  by_cases heq : s1.val right = v
  · have hrh : right ≠ l.head := by
      intro e; rw [e, hwf1.head_val] at heq; omega
    have hrt : right ≠ l.tail := by
      intro e; rw [e, hwf1.tail_val] at heq; omega
    have hru1 : ¬ marked s1 right := fun x => hru ((hmk1 right hr1).mp x)
    have hlu1 : ¬ marked s1 left := fun x => hlu ((hmk1 left hl1).mp x)
    have hraw : get_unmarked_ref (s1.next right) = s1.next right :=
      get_unmarked_even _ ((not_marked_iff s1 right).mp hru1) (hwf1.words right hr1).2
    obtain ⟨b, B', rfl⟩ : ∃ b B', B = b :: B' := by
      cases B with
      | nil =>
        exfalso
        exact hrt (last_is_tail l ps1 A left right hns1)
      | cons b B' => exact ⟨b, B', rfl⟩
    have hnxr : s1.next right = b := by
      rw [← hraw]
      have e1 : A ++ left :: right :: b :: B' = (A ++ [left]) ++ right :: b :: B' := by simp
      have := hwf1.linked
      rw [hns1, e1] at this
      exact chain_mid (A ++ [left]) right b B' this
    obtain ⟨hwf2, hmk2, hno2, hun2⟩ :=
      @MWF.mark s1 { s1 with next := upd s1.next right (get_marked_ref (s1.next right)) } l ps1
        hwf1 right hr1 hrh hrt hru1 rfl rfl
    have hlu2 : ¬ marked { s1 with next := upd s1.next right (get_marked_ref (s1.next right)) }
        left := by
      unfold marked
      rw [hno2 left hlr]
      exact hlu1
    obtain ⟨ps', hns', hwf', hsub', _⟩ :=
      @MWF.unlink { s1 with next := upd s1.next right (get_marked_ref (s1.next right)) }
        { s1 with next := upd (upd s1.next right (get_marked_ref (s1.next right))) left b } l ps1
        hwf2 A [right] B' left b (by rw [hns1]; simp) hlu2 rfl rfl
    simp only [heq, ne_eq, not_true_eq_false, if_false, CAS_PTR, hraw, if_true]
    rw [upd_other _ _ _ _ hlr, hnxl]
    simp only [if_true, upd_same]
    have e2 : get_unmarked_ref (get_marked_ref (s1.next right)) = b := by
      have := hun2
      simp only [upd_same] at this
      rw [this, hnxr]
    rw [e2]
    exact ⟨1, _, ps', rfl, hwf', fun p hp => hsub1.subset (hsub'.subset hp), hmem1, hmp1, hbrk1⟩
  · simp only [heq, ne_eq, not_false_eq_true, if_true]
    exact ⟨0, s1, ps1, rfl, hwf1, fun p hp => hsub1.subset hp, hmem1, hmp1, hbrk1⟩

end LockFree

end LinkedList


namespace LinkedList

/-- Monotonic deletion in the lock-free variant, pool in order. Whatever the
memory `t` (the head being aligned), a returning `list_search`, `list_contains`
or `list_remove` leaves the `next` word of every node marked in `t` as it was
(still marked, same target), and so does a returning `list_add`, save at the
cell it hands out itself. On a sorted list `ps` in which nodes may be marked but
still linked, with its pool in order and a cell left, for a key `v` with
`INT_MIN < v < INT_MAX`: the cell `list_add` hands out is none of the nodes of
the list and none of the cells handed out before; each of the four operations
returns and leaves a sorted list whose linked nodes were all linked before (or,
for `list_add`, are the new unmarked node): no node is linked back in; and every
marked node, linked or already unlinked, keeps its `next` word through
`list_add`. -/
theorem marked_words_kept (s : LockFree.State) (l : LockFree.llist_t) (K : Nat)
    (ps : List Nat) (v : Int) (fuel : Nat)
    (h : LockFree.MWF s l ps) (hp : LockFree.MPool s l K ps)
    (hv : INT_MIN < v) (hv' : v < INT_MAX)
    (hcap : s.memptr < K * LockFree.MEM_BLOCK_SIZE) (hf : ps.length + 2 ≤ fuel) :
    (∀ f t w left0 rt lf t', LockFree.list_search l w f t left0 none = .ok (rt, lf, t') →
      ∀ n, LockFree.marked t n → t'.next n = t.next n) ∧
    (∀ f t w r t', LockFree.list_contains f t l w = .ok (r, t') →
      ∀ n, LockFree.marked t n → t'.next n = t.next n) ∧
    (∀ f t w r t', LockFree.list_remove f t l w = .ok (r, t') →
      ∀ n, LockFree.marked t n → t'.next n = t.next n) ∧
    (∀ f t w r t', LockFree.list_add f t l w = .ok (r, t') →
      ∀ n, LockFree.marked t n → n ≠ LockFree.alloc_cell t → t'.next n = t.next n) ∧
    (LockFree.alloc_cell s ∉ LockFree.nodes l ps ∧
      ∀ idx, idx < s.memptr → LockFree.alloc_cell s ≠ LockFree.slot s idx) ∧
    (∃ rt lf s' ps', LockFree.list_search l v fuel s none none = .ok (rt, lf, s') ∧
      LockFree.MWF s' l ps' ∧ ∀ p ∈ ps', p ∈ ps) ∧
    (∃ r s' ps', LockFree.list_contains fuel s l v = .ok (r, s') ∧
      LockFree.MWF s' l ps' ∧ ∀ p ∈ ps', p ∈ ps) ∧
    (∃ r s' ps', LockFree.list_remove fuel s l v = .ok (r, s') ∧
      LockFree.MWF s' l ps' ∧ ∀ p ∈ ps', p ∈ ps) ∧
    (∃ r s' ps', LockFree.list_add fuel s l v = .ok (r, s') ∧
      LockFree.MWF s' l ps' ∧
      (∀ p ∈ ps', p ∈ ps ∨ (p = LockFree.alloc_cell s ∧ ¬ LockFree.marked s' p)) ∧
      (∀ n, LockFree.marked s n →
        (n ∈ LockFree.nodes l ps ∨ ∃ idx, idx < s.memptr ∧ n = LockFree.slot s idx) →
        s'.next n = s.next n)) := by
  have hh : l.head % 2 = 0 := h.aligned _ (by simp [LockFree.nodes])
  have hsearch : ∀ f t w left0 rt lf t',
      LockFree.list_search l w f t left0 none = .ok (rt, lf, t') →
      ∀ n, LockFree.marked t n → t'.next n = t.next n := by
    intro f t w left0 rt lf t' hrun
    exact (LockFree.list_search_frame l w f t left0 none rt lf t' hrun hh
      (fun r e => by simp at e)).2.2.2.2.2.1
  have hadd : ∀ f t w r t', LockFree.list_add f t l w = .ok (r, t') →
      ∀ n, LockFree.marked t n → n ≠ LockFree.alloc_cell t → t'.next n = t.next n := by
    intro f t w r t' hrun n hn hne
    have := (LockFree.add_loop_frame l w f t 0 none r t' hrun hh).1 n hn
    rw [if_pos rfl] at this
    exact this hne
  -- the cell the counter points at
  obtain ⟨n, s2, halloc, _, _, ⟨hnh, hnt, hnc⟩, _⟩ := LockFree.add_alloc_pool s l K v hp.pool
    (hp.allocated _ (by simp [LockFree.nodes])) (hp.allocated _ (by simp [LockFree.nodes])) hcap
  have hncell : n = LockFree.alloc_cell s := (LockFree.add_alloc_frame s v n s2 halloc).1
  obtain ⟨r, s', ps', hrun, hwf', _, hin, hfresh⟩ :=
    LockFree.list_add_mspec s l K ps v fuel h hp hv hv' hcap hf
  refine ⟨hsearch, ?_, ?_, hadd, ⟨hfresh, fun idx hidx => hncell ▸ hnc idx hidx⟩, ?_, ?_, ?_, ?_⟩
  · intro f t w r t' hrun
    simp only [LockFree.list_contains] at hrun
    cases hs : LockFree.list_search l w f t none none with
    | fault => rw [hs] at hrun; simp [Res.bind] at hrun
    | timeout => rw [hs] at hrun; simp [Res.bind] at hrun
    | ok p =>
      obtain ⟨rt, lf, t1⟩ := p
      rw [hs] at hrun
      simp only [Res.bind_ok] at hrun
      injection hrun with e
      injection e with _ e2
      rw [← e2]
      exact hsearch f t w none rt lf t1 hs
  · intro f t w r t' hrun
    exact (LockFree.remove_loop_frame l w f t none r t' hrun hh).2.2.2
  · obtain ⟨A, left, M, right, B, s1, hrun1, hsplit, hlu, _, _, _, _, hnext1, hval1, _⟩ :=
      LockFree.list_search_mspec s l ps v fuel none h hv (le_of_lt hv') hf
    obtain ⟨ps1, _, hwf1, hsub1, _⟩ := h.unlink A M B left right hsplit hlu hnext1 hval1
    exact ⟨right, left, s1, ps1, hrun1, hwf1, fun p hp' => hsub1.subset hp'⟩
  · obtain ⟨A, left, M, right, B, s1, hrun1, hsplit, hlu, _, _, _, _, hnext1, hval1, _⟩ :=
      LockFree.list_search_mspec s l ps v fuel none h hv (le_of_lt hv') hf
    obtain ⟨ps1, _, hwf1, hsub1, _⟩ := h.unlink A M B left right hsplit hlu hnext1 hval1
    refine ⟨if s1.val right = v then 1 else 0, s1, ps1, ?_, hwf1,
      fun p hp' => hsub1.subset hp'⟩
    simp only [LockFree.list_contains, hrun1, Res.bind_ok]
  · obtain ⟨r2, s2', ps2, hrun2, hwf2, hsub2, _⟩ :=
      LockFree.list_remove_mspec s l ps v fuel h hv hv' hf
    exact ⟨r2, s2', ps2, hrun2, hwf2, hsub2⟩
  · refine ⟨r, s', ps', hrun, hwf', hin, ?_⟩
    intro a ha hnode
    apply hadd fuel s v r s' hrun a ha
    rcases hnode with e | ⟨idx, hidx, e⟩
    · exact fun x => hfresh (x ▸ e)
    · rw [e, ← hncell]; exact fun x => hnc idx hidx x.symm

/-- The four operations on the list head, marked node holding 5, tail, with the
key 7 and the pool in order. -/
theorem marked_words_kept_example :
    (∀ f t w left0 rt lf t', LockFree.list_search LockFree.empty_list w f t left0 none
        = .ok (rt, lf, t') → ∀ n, LockFree.marked t n → t'.next n = t.next n) ∧
    (∀ f t w r t', LockFree.list_contains f t LockFree.empty_list w = .ok (r, t') →
      ∀ n, LockFree.marked t n → t'.next n = t.next n) ∧
    (∀ f t w r t', LockFree.list_remove f t LockFree.empty_list w = .ok (r, t') →
      ∀ n, LockFree.marked t n → t'.next n = t.next n) ∧
    (∀ f t w r t', LockFree.list_add f t LockFree.empty_list w = .ok (r, t') →
      ∀ n, LockFree.marked t n → n ≠ LockFree.alloc_cell t → t'.next n = t.next n) ∧
    (LockFree.alloc_cell LockFree.marked_state ∉ LockFree.nodes LockFree.empty_list [8064] ∧
      ∀ idx, idx < LockFree.marked_state.memptr →
        LockFree.alloc_cell LockFree.marked_state ≠ LockFree.slot LockFree.marked_state idx) ∧
    (∃ rt lf s' ps', LockFree.list_search LockFree.empty_list 7 3 LockFree.marked_state
        none none = .ok (rt, lf, s') ∧
      LockFree.MWF s' LockFree.empty_list ps' ∧ ∀ p ∈ ps', p ∈ ([8064] : List Nat)) ∧
    (∃ r s' ps', LockFree.list_contains 3 LockFree.marked_state LockFree.empty_list 7
        = .ok (r, s') ∧
      LockFree.MWF s' LockFree.empty_list ps' ∧ ∀ p ∈ ps', p ∈ ([8064] : List Nat)) ∧
    (∃ r s' ps', LockFree.list_remove 3 LockFree.marked_state LockFree.empty_list 7
        = .ok (r, s') ∧
      LockFree.MWF s' LockFree.empty_list ps' ∧ ∀ p ∈ ps', p ∈ ([8064] : List Nat)) ∧
    (∃ r s' ps', LockFree.list_add 3 LockFree.marked_state LockFree.empty_list 7
        = .ok (r, s') ∧
      LockFree.MWF s' LockFree.empty_list ps' ∧
      (∀ p ∈ ps', p ∈ ([8064] : List Nat) ∨
        (p = LockFree.alloc_cell LockFree.marked_state ∧ ¬ LockFree.marked s' p)) ∧
      (∀ n, LockFree.marked LockFree.marked_state n →
        (n ∈ LockFree.nodes LockFree.empty_list [8064] ∨
          ∃ idx, idx < LockFree.marked_state.memptr ∧
            n = LockFree.slot LockFree.marked_state idx) →
        s'.next n = LockFree.marked_state.next n)) :=
  marked_words_kept LockFree.marked_state LockFree.empty_list 1 [8064] 7 3
    ⟨by
      simp only [LockFree.nodes, List.cons_append, List.nil_append, List.singleton_append,
        List.chain'_cons, List.chain'_singleton, and_true]
      decide,
     by decide, by decide, by decide, by decide, by decide, by decide, by decide,
     by
      simp only [LockFree.nodes, List.cons_append, List.nil_append, List.singleton_append,
        List.map_cons, List.map_nil, List.Sorted, List.pairwise_cons, List.mem_cons,
        List.mem_singleton, List.not_mem_nil, forall_eq_or_imp, forall_eq, List.Pairwise.nil,
        and_true, IsEmpty.forall_iff, implies_true]
      decide⟩
    ⟨by decide,
     fun p hp => ⟨0, by decide, by
      have : p = 8064 := by simpa using hp
      rw [this]; decide⟩,
     ⟨by decide, fun idx hidx => by
        have h1 : LockFree.marked_state.memptr = 1 := by decide
        have h2 : idx = 0 := by omega
        rw [h2]; decide,
      fun b hb hne => by
        have h2 : b = 0 := by omega
        rw [h2]; decide,
      fun b b' hb hb' hne => by omega,
      by decide, by decide⟩⟩
    (by decide) (by decide) (by decide) (by decide)

end LinkedList


namespace LinkedList

/-- C21: the mark-bit helpers act only on the low-order bit. For every 64-bit
word `w`: `is_marked_ref(get_marked_ref(w)) = 1` and
`is_marked_ref(get_unmarked_ref(w)) = 0`; `set_mark` is `get_marked_ref` and
`unset_mark` is `get_unmarked_ref` as functions; each helper is idempotent;
`get_unmarked_ref(get_marked_ref(w)) = get_unmarked_ref(w)`; the bits above the
low-order one are left as they are (`w / 2` is unchanged); and when the low bit
of `w` is 0 (an aligned pointer) `get_unmarked_ref(get_marked_ref(w)) = w`. -/
theorem C21_mark_bit_helpers (w : Nat) (hw : w < 2 ^ 64) :
    LockFree.is_marked_ref (LockFree.get_marked_ref w) = 1 ∧
    LockFree.is_marked_ref (LockFree.get_unmarked_ref w) = 0 ∧
    LockFree.set_mark = LockFree.get_marked_ref ∧
    LockFree.unset_mark = LockFree.get_unmarked_ref ∧
    LockFree.get_marked_ref (LockFree.get_marked_ref w) = LockFree.get_marked_ref w ∧
    LockFree.get_unmarked_ref (LockFree.get_unmarked_ref w) = LockFree.get_unmarked_ref w ∧
    LockFree.set_mark (LockFree.set_mark w) = LockFree.set_mark w ∧
    LockFree.unset_mark (LockFree.unset_mark w) = LockFree.unset_mark w ∧
    LockFree.is_marked_ref (LockFree.is_marked_ref w) = LockFree.is_marked_ref w ∧
    LockFree.get_unmarked_ref (LockFree.get_marked_ref w) = LockFree.get_unmarked_ref w ∧
    LockFree.get_marked_ref (LockFree.get_unmarked_ref w) = LockFree.get_marked_ref w ∧
    LockFree.get_marked_ref w / 2 = w / 2 ∧ LockFree.get_unmarked_ref w / 2 = w / 2 ∧
    (w % 2 = 0 → LockFree.get_unmarked_ref (LockFree.get_marked_ref w) = w) := by
  have hm : LockFree.get_marked_ref w = 2 * (w / 2) + 1 := LockFree.get_marked_ref_eq w
  have hu : LockFree.get_unmarked_ref w = 2 * (w / 2) := LockFree.get_unmarked_ref_eq w hw
  have hm64 : 2 * (w / 2) + 1 < 2 ^ 64 := by omega
  have hu64 : 2 * (w / 2) < 2 ^ 64 := by omega
  have hmm : LockFree.get_marked_ref (2 * (w / 2) + 1) = 2 * (w / 2) + 1 := by
    rw [LockFree.get_marked_ref_eq]; omega
  have huu : LockFree.get_unmarked_ref (2 * (w / 2)) = 2 * (w / 2) := by
    rw [LockFree.get_unmarked_ref_eq _ hu64]; omega
  have hum : LockFree.get_unmarked_ref (2 * (w / 2) + 1) = 2 * (w / 2) := by
    rw [LockFree.get_unmarked_ref_eq _ hm64]; omega
  have hmu : LockFree.get_marked_ref (2 * (w / 2)) = 2 * (w / 2) + 1 := by
    rw [LockFree.get_marked_ref_eq]; omega
  have hs : LockFree.set_mark = LockFree.get_marked_ref := rfl
  have hus : LockFree.unset_mark = LockFree.get_unmarked_ref := rfl
  refine ⟨?_, ?_, hs, hus, ?_, ?_, ?_, ?_, ?_, ?_, ?_, ?_, ?_, ?_⟩
  · rw [LockFree.is_marked_ref_eq, hm]; omega
  · rw [LockFree.is_marked_ref_eq, hu]; omega
  · rw [hm, hmm]
  · rw [hu, huu]
  · rw [hs, hm, hmm]
  · rw [hus, hu, huu]
  · rw [LockFree.is_marked_ref_eq, LockFree.is_marked_ref_eq]; omega
  · rw [hm, hum, hu]
  · rw [hu, hmu, hm]
  · rw [hm]; omega
  · rw [hu]; omega
  · intro h0
    rw [hm, hum]; omega

/-- C21 at work on the odd word 12345, and on the aligned pointer 8064. -/
theorem C21_mark_bit_helpers_witness :
    (LockFree.is_marked_ref (LockFree.get_marked_ref 8064) = 1 ∧
    LockFree.is_marked_ref (LockFree.get_unmarked_ref 8064) = 0 ∧
    LockFree.set_mark = LockFree.get_marked_ref ∧
    LockFree.unset_mark = LockFree.get_unmarked_ref ∧
    LockFree.get_marked_ref (LockFree.get_marked_ref 8064) = LockFree.get_marked_ref 8064 ∧
    LockFree.get_unmarked_ref (LockFree.get_unmarked_ref 8064)
      = LockFree.get_unmarked_ref 8064 ∧
    LockFree.set_mark (LockFree.set_mark 8064) = LockFree.set_mark 8064 ∧
    LockFree.unset_mark (LockFree.unset_mark 8064) = LockFree.unset_mark 8064 ∧
    LockFree.is_marked_ref (LockFree.is_marked_ref 8064) = LockFree.is_marked_ref 8064 ∧
    LockFree.get_unmarked_ref (LockFree.get_marked_ref 8064) = LockFree.get_unmarked_ref 8064 ∧
    LockFree.get_marked_ref (LockFree.get_unmarked_ref 8064) = LockFree.get_marked_ref 8064 ∧
    LockFree.get_marked_ref 8064 / 2 = 8064 / 2 ∧ LockFree.get_unmarked_ref 8064 / 2 = 8064 / 2 ∧
    (8064 % 2 = 0 → LockFree.get_unmarked_ref (LockFree.get_marked_ref 8064) = 8064)) ∧
    LockFree.get_marked_ref 8064 = 8065 ∧ LockFree.get_unmarked_ref 12345 = 12344 ∧
    LockFree.is_marked_ref 12345 = 1 :=
  ⟨C21_mark_bit_helpers 8064 (by decide), by decide, by decide, by decide⟩

end LinkedList


/-! ## Lock-free variant: `list_add` on a block table with a leftover entry -/

namespace LinkedList

namespace LockFree

/-- An allocation that finds the block of its cell in the table leaves the
table as it is. -/
theorem add_alloc_mem (s : State) (v : Int) (n : Nat) (s1 : State)
    (h : add_alloc s v = .ok (n, s1)) (hb : s.mem (s.memptr / MEM_BLOCK_SIZE) ≠ 0) :
    s1.mem = s.mem := by
  unfold add_alloc at h
  simp only [FAI_U32] at h
  by_cases he : mem_entries ≤ s.memptr / MEM_BLOCK_SIZE
  · rw [if_pos he] at h; simp at h
  · rw [if_neg he] at h
    simp only [hb, if_false] at h
    by_cases hn : s.mem (s.memptr / MEM_BLOCK_SIZE)
        + sizeof_node_t * (s.memptr % MEM_BLOCK_SIZE) = 0
    · rw [if_pos hn] at h; simp at h
    · rw [if_neg hn] at h
      injection h with h
      injection h with _ h2
      rw [← h2]

/-- How a returning first round of `list_add` came about, whatever the memory:
after `list_search` it returned 0 at once, or it took the cell the counter
points at, stored `right` in its `next` word and linked it after `left`. -/
theorem add_loop_inv (l : llist_t) (v : Int) (fuel : Nat) (s : State) (left : Option Nat)
    (r : Int) (s' : State)
    (h : add_loop l v fuel s 0 left = .ok (r, s')) (hh : l.head % 2 = 0) :
    ∃ rt lf s1, list_search l v fuel s left none = .ok (rt, lf, s1) ∧ rt % 2 = 0 ∧
      ((r = 0 ∧ s' = s1) ∨
        (r = 1 ∧ ∃ n s2, add_alloc s1 v = .ok (n, s2) ∧
          s'.next = upd (upd s2.next n rt) lf n ∧ s'.val = s2.val ∧ s'.mem = s2.mem ∧
          s'.memptr = s2.memptr ∧ s'.brk = s2.brk ∧ s'.mem_addr = s2.mem_addr)) := by
  obtain ⟨f, rfl⟩ : ∃ f, fuel = f + 1 := by
    cases fuel with
    | zero => simp [add_loop] at h
    | succ f => exact ⟨f, rfl⟩
  rw [add_loop] at h
  cases hs : list_search l v (f + 1) s left none with
  | fault => rw [hs] at h; simp [Res.bind] at h
  | timeout => rw [hs] at h; simp [Res.bind] at h
  | ok p =>
    obtain ⟨rt, lf, s1⟩ := p
    rw [hs] at h
    simp only [Res.bind_ok] at h
    obtain ⟨_, _, _, _, _, _, _, hnl, hre, _⟩ :=
      list_search_frame l v (f + 1) s left none rt lf s1 hs hh (fun r e => by simp at e)
    refine ⟨rt, lf, s1, rfl, hre, ?_⟩
    by_cases hv : s1.val rt = v
    · rw [if_pos hv] at h
      injection h with h
      injection h with h1 h2
      exact Or.inl ⟨h1.symm, h2.symm⟩
    · rw [if_neg hv, if_pos trivial] at h
      cases ha : add_alloc s1 v with
      | fault => rw [ha] at h; simp [Res.bind] at h
      | timeout => rw [ha] at h; simp [Res.bind] at h
      | ok q =>
        obtain ⟨n1, s2⟩ := q
        rw [ha] at h
        simp only [Res.bind_ok] at h
        have hnx2 := (add_alloc_frame s1 v n1 s2 ha).2.2.1
        have hc : upd s2.next n1 rt lf = rt := by
          by_cases e1 : lf = n1
          · rw [e1, upd_same]
          · rw [upd_other _ _ _ _ e1, hnx2, hnl]
        simp only [CAS_PTR, hc, if_true] at h
        injection h with h
        injection h with h1 h2
        right
        refine ⟨h1.symm, n1, s2, rfl, ?_, ?_, ?_, ?_, ?_, ?_⟩ <;> rw [← h2]

/-- A `list_add` that returns 1 leaves the cell it took unmarked and linked,
holding the key, whatever the memory: when that cell was a marked node, its
mark is gone and it is back in the list. -/
theorem list_add_takes_cell (l : llist_t) (v : Int) (fuel : Nat) (s s' : State)
    (h : list_add fuel s l v = .ok (1, s')) (hh : l.head % 2 = 0)
    (hc : alloc_cell s % 2 = 0) :
    ¬ marked s' (alloc_cell s) ∧ (∃ lf, s'.next lf = alloc_cell s) ∧
      s'.val (alloc_cell s) = v := by
  obtain ⟨rt, lf, s1, hs, hre, hcase⟩ := add_loop_inv l v fuel s none 1 s' h hh
  rcases hcase with ⟨h0, _⟩ | ⟨_, n, s2, ha, hnx, hval, _⟩
  · simp at h0
  · obtain ⟨_, hmem, _, hmp, hbrk, _⟩ :=
      list_search_frame l v fuel s none none rt lf s1 hs hh (fun r e => by simp at e)
    obtain ⟨hn, _, _, _, hval2, _⟩ := add_alloc_frame s1 v n s2 ha
    have hcell : n = alloc_cell s := by rw [hn]; exact alloc_cell_congr s s1 hmem hmp hbrk
    rw [← hcell]
    refine ⟨?_, ⟨lf, by rw [hnx, upd_same]⟩, by rw [hval, hval2, upd_same]⟩
    rw [not_marked_iff, hnx]
    by_cases e : n = lf
    · rw [e, upd_same, ← e, hcell]; exact hc
    · rw [upd_other _ _ _ _ e, upd_same]; exact hre

/-- A `list_add` whose cell lies in a block the table already holds leaves the
block table as it is. -/
theorem list_add_mem (l : llist_t) (v : Int) (fuel : Nat) (s : State) (r : Int) (s' : State)
    (h : list_add fuel s l v = .ok (r, s')) (hh : l.head % 2 = 0)
    (hb : s.mem (s.memptr / MEM_BLOCK_SIZE) ≠ 0) : s'.mem = s.mem := by
  obtain ⟨rt, lf, s1, hs, _, hcase⟩ := add_loop_inv l v fuel s none r s' h hh
  obtain ⟨_, hmem, _, hmp, _⟩ :=
    list_search_frame l v fuel s none none rt lf s1 hs hh (fun r e => by simp at e)
  rcases hcase with ⟨_, e⟩ | ⟨_, n, s2, ha, _, _, hm, _⟩
  · rw [e, hmem]
  · rw [hm, add_alloc_mem s1 v n s2 ha (by rw [hmem, hmp]; exact hb), hmem]

end LockFree

end LinkedList


namespace LinkedList

namespace LockFree

/-- A run of calls followed by another is the run of all of them. -/
theorem run_append (fuel : Nat) (l : llist_t) : ∀ (xs ys : List Op) (s : State),
    run fuel l s (xs ++ ys)
      = (run fuel l s xs).bind fun p =>
          (run fuel l p.2 ys).bind fun q => .ok (p.1 ++ q.1, q.2) := by
  intro xs
  induction xs with
  | nil =>
    intro ys s
    simp only [List.nil_append, run, Res.bind_ok]
    cases run fuel l s ys with
    | ok q => simp
    | fault => rfl
    | timeout => rfl
  | cons x xs ih =>
    intro ys s
    simp only [List.cons_append, run, List.append_eq]
    cases step fuel s l x with
    | fault => rfl
    | timeout => rfl
    | ok p =>
      simp only [Res.bind_ok]
      rw [ih ys p.2]
      cases run fuel l p.2 xs with
      | fault => rfl
      | timeout => rfl
      | ok q =>
        simp only [Res.bind_ok]
        cases run fuel l q.2 ys with
        | fault => rfl
        | timeout => rfl
        | ok q2 => simp

/-- A well-formed list without values has no inner node. -/
theorem Repr.empty {s : State} {l : llist_t} {K : Nat} (h : Repr s l K []) : WF s l K [] := by
  obtain ⟨ps, hwf, hmap⟩ := h
  have : ps = [] := List.map_eq_nil_iff.mp hmap
  rw [this] at hwf
  exact hwf

/-- One round `list_add(l, 7)`, `list_remove(l, 7)` on an empty list whose
first block has a cell left: both calls return 1, the list is empty again, the
cell counter has advanced by one, the block table is as it was, and the marked
word of the first cell of the pool is as it was. -/
theorem churn_round (l : llist_t) (c w fuel : Nat) (s : State) (hf : 3 ≤ fuel)
    (h : WF s l 1 []) (h1 : 1 ≤ s.memptr) (hcap : s.memptr < MEM_BLOCK_SIZE)
    (hc : c = s.mem 0) (hw : s.next c = w) (hodd : w % 2 = 1) :
    ∃ s2, run fuel l s [.add 7, .remove 7] = .ok ([1, 1], s2) ∧ WF s2 l 1 [] ∧
      s2.memptr = s.memptr + 1 ∧ s2.mem = s.mem ∧ s2.next c = w := by
  have hh : l.head % 2 = 0 := h.aligned _ (by simp [nodes])
  have hblock : s.memptr / MEM_BLOCK_SIZE = 0 := by
    simp only [MEM_BLOCK_SIZE] at hcap ⊢; omega
  have hm0 : s.mem 0 ≠ 0 := by
    have := h.pool.used 0 (by omega)
    simpa using this
  have hmk : marked s c := by rw [marked_iff, hw]; exact hodd
  have hcell : c ≠ alloc_cell s := by
    unfold alloc_cell
    rw [hblock, if_neg hm0, hc]
    simp only [MEM_BLOCK_SIZE, sizeof_node_t] at hcap ⊢
    omega
  -- list_add(l, 7)
  obtain ⟨s1, hstep1, hrepr1, _⟩ := step_lf_spec s l 1 [] (.add 7) fuel ⟨[], h, rfl⟩
    (by unfold Op.in_range; decide) (by rw [Nat.one_mul]; exact hcap) (by simp only [List.length_nil]; omega)
  have ha1 : abs_step [] (.add 7) = (1, [7]) := by decide
  rw [ha1] at hstep1 hrepr1
  have hadd : list_add fuel s l 7 = .ok (1, s1) := hstep1
  have hnx1 : s1.next c = w := by
    have := (add_loop_frame l 7 fuel s 0 none 1 s1 hadd hh).1 c hmk
    rw [if_pos rfl] at this
    rw [this hcell, hw]
  have hmp1 : s1.memptr = s.memptr + 1 := by
    rcases (add_loop_pool l 7 fuel s 0 none 1 s1 hadd hh).2 rfl with ⟨e, _⟩ | ⟨_, e⟩
    · simp at e
    · exact e
  have hmem1 : s1.mem = s.mem := list_add_mem l 7 fuel s 1 s1 hadd hh (by rw [hblock]; exact hm0)
  -- list_remove(l, 7)
  obtain ⟨ps1, hwf1, hmap1⟩ := hrepr1
  obtain ⟨r, s2, ps2, hrem, hwf2, _, hin, _⟩ := list_remove_lf_spec s1 l 1 ps1 7 fuel hwf1
    (by decide) (by decide)
    (by have : ps1.length = 1 := by rw [← List.length_map ps1 s1.val, hmap1]; rfl
        omega)
  obtain ⟨hr, hmap2⟩ := hin (by rw [hmap1]; simp)
  rw [hr] at hrem
  have hps2 : ps2 = [] := by
    rw [hmap1] at hmap2
    exact List.map_eq_nil_iff.mp (by rw [hmap2]; rfl)
  rw [hps2] at hwf2
  obtain ⟨_, hmem2, hmp2, hfr2⟩ := remove_loop_frame l 7 fuel s1 none 1 s2 hrem hh
  have hmk1 : marked s1 c := by rw [marked_iff, hnx1]; exact hodd
  refine ⟨s2, ?_, hwf2, by rw [hmp2, hmp1], by rw [hmem2, hmem1],
    by rw [hfr2 c hmk1, hnx1]⟩
  have hstep2 : step fuel s1 l (.remove 7) = .ok (1, s2) := hrem
  simp only [run, hstep1, hstep2, Res.bind_ok]

/-- `k` rounds `list_add(l, 7)`, `list_remove(l, 7)` on an empty list whose
first block has `k` cells left: the run returns with the list empty, the cell
counter `k` further, the block table as it was, and the marked word of the first
cell of the pool as it was. -/
theorem churn_run (l : llist_t) (c w fuel : Nat) (hf : 3 ≤ fuel) (hodd : w % 2 = 1) :
    ∀ (k : Nat) (s : State), WF s l 1 [] → 1 ≤ s.memptr → s.memptr + k ≤ MEM_BLOCK_SIZE →
    c = s.mem 0 → s.next c = w →
    ∃ rs s', run fuel l s (churn k) = .ok (rs, s') ∧ WF s' l 1 [] ∧
      s'.memptr = s.memptr + k ∧ s'.mem = s.mem ∧ s'.next c = w := by
  intro k
  induction k with
  | zero => intro s h _ _ _ hw; exact ⟨[], s, rfl, h, rfl, rfl, hw⟩
  | succ k ih =>
    intro s h h1 hcap hc hw
    obtain ⟨s2, hrun2, hwf2, hmp2, hmem2, hw2⟩ :=
      churn_round l c w fuel s hf h h1 (by omega) hc hw hodd
    obtain ⟨rs, s3, hrun3, hwf3, hmp3, hmem3, hw3⟩ :=
      ih s2 hwf2 (by omega) (by omega) (by rw [hmem2]; exact hc) hw2
    refine ⟨1 :: 1 :: rs, s3, ?_, hwf3, by omega, by rw [hmem3, hmem2], hw3⟩
    have e : churn (k + 1) = [.add 7, .remove 7] ++ churn k := rfl
    rw [e, run_append, hrun2]
    simp only [Res.bind_ok, hrun3]
    rfl

/-- With the cell counter at the first cell of block 1 and a leftover entry
`c` for that block in the table, `list_add` on the empty list takes `c` as its
new node: it stores the key and `tail` into it, links it after head and
returns 1. -/
theorem stale_add (l : llist_t) (c : Nat) (v : Int) (fuel : Nat) (s : State)
    (h : WF s l 1 []) (hmp : s.memptr = MEM_BLOCK_SIZE) (hc : s.mem 1 = c) (hc0 : c ≠ 0)
    (hch : c ≠ l.head) (hv : INT_MIN < v) (hv' : v < INT_MAX) (hf : 2 ≤ fuel) :
    ∃ s', list_add fuel s l v = .ok (1, s') ∧ s'.next c = l.tail ∧ s'.next l.head = c ∧
      s'.val c = v := by
  obtain ⟨f, rfl⟩ : ∃ f, fuel = f + 1 := ⟨fuel - 1, by omega⟩
  obtain ⟨A', left', right', B, hrun, hsplit, _, _⟩ :=
    list_search_spec s l 1 [] v (f + 1) none h hv (le_of_lt hv') (by simp; omega)
  have hlr : left' = l.head ∧ right' = l.tail := by
    simp only [nodes, List.nil_append] at hsplit
    cases A' with
    | nil =>
      simp only [List.nil_append, List.cons.injEq] at hsplit
      exact ⟨hsplit.1.symm, hsplit.2.1.symm⟩
    | cons a A' =>
      exfalso
      have := congrArg List.length hsplit
      simp at this
      omega
  obtain ⟨rfl, rfl⟩ := hlr
  have hnxh : s.next l.head = l.tail := by
    have := h.linked
    simp only [nodes, List.nil_append, List.chain'_cons, List.chain'_singleton, and_true] at this
    exact this
  have hvt : s.val l.tail ≠ v := by rw [h.tail_val]; omega
  have hb : s.memptr / MEM_BLOCK_SIZE = 1 := by rw [hmp]; rfl
  have hm : s.memptr % MEM_BLOCK_SIZE = 0 := by rw [hmp]; rfl
  have hent : ¬ mem_entries ≤ 1 := by decide
  have halloc : add_alloc s v
      = .ok (c, { s with memptr := (s.memptr + 1) % 2 ^ 32, val := upd s.val c v }) := by
    unfold add_alloc
    simp only [FAI_U32, hb, hm, hent, if_false, hc, hc0, Nat.mul_zero, Nat.add_zero]
  unfold list_add
  rw [add_loop, hrun]
  simp only [Res.bind_ok, hvt, if_false, if_true, halloc, CAS_PTR]
  rw [upd_other _ _ _ _ (Ne.symm hch), hnxh]
  simp only [if_true]
  refine ⟨_, rfl, ?_, ?_, ?_⟩
  · show upd (upd s.next c l.tail) l.head c c = l.tail
    rw [upd_other _ _ _ _ hch, upd_same]
  · show upd (upd s.next c l.tail) l.head c l.head = c
    rw [upd_same]
  · show upd s.val c v c = v
    rw [upd_same]

end LockFree

end LinkedList


namespace LinkedList

/-- C12 fails on the code: `list_add` takes its node from the block table
without any test of what the table holds, and `list_new` does not clear the
table. Whatever the memory, a `list_add` that returns 1 leaves the cell it took
unmarked and linked, holding the key: when that cell was a marked node, its mark
bit is cleared and the node is linked back into the list. Sequential calls reach
this from `list_new`: on the memory `stale_init`, whose leftover entry 1 of the
table is the address of block 0, the calls `list_add(l, 5)`, `list_remove(l, 5)`
and then 999,999 rounds `list_add(l, 7)`, `list_remove(l, 7)` return with the
node at 8064 unlinked and marked (word 33) and the cell counter at 1,000,000;
the next `list_add(l, 7)` returns 1 and leaves that node with the unmarked word
32, linked after head. On the memory `aliased_state` the marked node at 8064 is
still linked when `list_add(l, 7)` does the same to it. -/
theorem C12_list_add_resurrects_marked_node :
    (∀ (l : LockFree.llist_t) (v : Int) (fuel : Nat) (s s' : LockFree.State),
      l.head % 2 = 0 → LockFree.alloc_cell s % 2 = 0 →
      LockFree.marked s (LockFree.alloc_cell s) →
      LockFree.list_add fuel s l v = .ok (1, s') →
      ¬ LockFree.marked s' (LockFree.alloc_cell s) ∧
        (∃ lf, s'.next lf = LockFree.alloc_cell s) ∧ s'.val (LockFree.alloc_cell s) = v) ∧
    (∃ rs s s',
      LockFree.run 4 (LockFree.list_new LockFree.stale_init).1
        (LockFree.list_new LockFree.stale_init).2
        (.add 5 :: .remove 5 :: churn 999999) = .ok (rs, s) ∧
      s.memptr = LockFree.MEM_BLOCK_SIZE ∧
      s.next (LockFree.list_new LockFree.stale_init).1.head
        = (LockFree.list_new LockFree.stale_init).1.tail ∧
      s.next 8064 = 33 ∧ LockFree.is_marked_ref (s.next 8064) = 1 ∧
      LockFree.list_add 4 s (LockFree.list_new LockFree.stale_init).1 7 = .ok (1, s') ∧
      s'.next 8064 = 32 ∧ LockFree.is_marked_ref (s'.next 8064) = 0 ∧
      s'.next (LockFree.list_new LockFree.stale_init).1.head = 8064 ∧ s'.val 8064 = 7) ∧
    LockFree.aliased_state.next LockFree.empty_list.head = 8064 ∧
    LockFree.aliased_state.next 8064 = 33 ∧
    ((LockFree.list_add 3 LockFree.aliased_state LockFree.empty_list 7).bind fun p =>
        Res.ok (p.1, p.2.next 8064, p.2.val 8064, p.2.next LockFree.empty_list.head,
          p.2.memptr))
      = .ok (1, 32, 7, 8064, 1000001) := by
  refine ⟨?_, ?_, by decide, by decide, by decide⟩
  · intro l v fuel s s' hh hc _ hadd
    exact LockFree.list_add_takes_cell l v fuel s s' hadd hh hc
  · have hwf0 := LockFree.list_new_lf_wf LockFree.stale_init 1 (by decide) (by decide)
      (by decide) (by decide) (fun i h1 h2 => by omega)
    have hmp0 : (LockFree.list_new LockFree.stale_init).2.memptr = 0 := rfl
    -- list_add(l, 5), list_remove(l, 5)
    obtain ⟨sb, hrunb, hreprb⟩ := LockFree.run_lf_spec (LockFree.list_new LockFree.stale_init).1
      1 4 [.add 5, .remove 5] (LockFree.list_new LockFree.stale_init).2 [] ⟨[], hwf0, rfl⟩
      (by decide) (by rw [hmp0]; decide) (by decide)
    have habs : abs_run [] [.add 5, .remove 5] = ([1, 1], []) := by decide
    rw [habs] at hrunb hreprb
    have hwfb := hreprb.empty
    have hd : ((LockFree.run 4 (LockFree.list_new LockFree.stale_init).1
        (LockFree.list_new LockFree.stale_init).2 [.add 5, .remove 5]).bind fun p =>
          Res.ok (p.2.mem 0, p.2.mem 1, p.2.next 8064, p.2.memptr))
        = .ok (8064, 8064, 33, 1) := by decide
    rw [hrunb] at hd
    simp only [Res.bind_ok] at hd
    injection hd with hd
    simp only [Prod.mk.injEq] at hd
    obtain ⟨hb0, hb1, hbn, hbm⟩ := hd
    -- the rounds that use up block 0
    obtain ⟨rs, s, hrun, hwf, hmp, hmem, hw⟩ := LockFree.churn_run
      (LockFree.list_new LockFree.stale_init).1 8064 33 4 (by decide) (by decide) 999999 sb hwfb
      (by omega) (by rw [hbm]; decide) hb0.symm hbn
    have hmp' : s.memptr = LockFree.MEM_BLOCK_SIZE := by rw [hmp, hbm]; rfl
    -- the call that takes the leftover entry
    obtain ⟨s', hadd, hn1, hn2, hn3⟩ := LockFree.stale_add
      (LockFree.list_new LockFree.stale_init).1 8064 7 4 s hwf hmp' (by rw [hmem, hb1])
      (by decide) (by decide) (by decide) (by decide) (by decide)
    have htail : (LockFree.list_new LockFree.stale_init).1.tail = 32 := by decide
    have hnxh : s.next (LockFree.list_new LockFree.stale_init).1.head
        = (LockFree.list_new LockFree.stale_init).1.tail := by
      have := hwf.linked
      simp only [LockFree.nodes, List.nil_append, List.chain'_cons, List.chain'_singleton,
        and_true] at this
      exact this
    refine ⟨1 :: 1 :: rs, s, s', ?_, hmp', hnxh, hw, by rw [hw]; decide, hadd,
      by rw [hn1, htail], by rw [hn1, htail]; decide, hn2, hn3⟩
    have e : (Op.add 5 :: Op.remove 5 :: churn 999999)
        = [Op.add 5, Op.remove 5] ++ churn 999999 := rfl
    rw [e, LockFree.run_append, hrunb]
    simp only [Res.bind_ok, hrun]
    rfl

end LinkedList
